import Mathlib

/-!
# Tape builder callbacks of simdjson (`src/document_parser_callbacks.h`)

A shallow embedding of the stage-2 callbacks of `simdjson::dom::parser`, and
theorems about the tape and string buffer they produce.

Conventions of the embedding

* `doc.tape` and `doc.string_buf` are preallocated by the caller and never
  bounds-checked by the callbacks; they are modelled as total maps from an
  index (resp. a byte offset from `doc.string_buf.get()`) to the stored value.
* `current_string_buf_loc` and the `dst` argument of `on_end_string` are
  pointers into `doc.string_buf`; they are modelled by their byte offset from
  `doc.string_buf.get()`.
* `uint32_t` values are natural numbers kept reduced modulo `2 ^ 32` by every
  operation that can overflow; tape words are 64-bit.
-/

namespace simdjson

/-! ## Data model -/

/-- Modelled from the spec: the enumeration `internal::tape_type` is declared in
`simdjson.h`, which is not among the sources. The spec (section 3) lists its
twelve enumerators; the callbacks use exactly these. -/
inductive tape_type where
  | ROOT
  | START_OBJECT
  | END_OBJECT
  | START_ARRAY
  | END_ARRAY
  | STRING
  | INT64
  | UINT64
  | DOUBLE
  | TRUE_VALUE
  | FALSE_VALUE
  | NULL_VALUE
  deriving DecidableEq, Repr

/-- Modelled from the spec: the enumeration `error_code` is declared in
`simdjson.h`, which is not among the sources. Section 7 of the spec names the
sentinel `UNINITIALIZED` and the success code; every other enumerator is
represented by `other n`. -/
inductive error_code where
  | SUCCESS
  | UNINITIALIZED
  | other (n : Nat)
  deriving DecidableEq, Repr

/-- Modelled from the spec: `struct scope_descriptor` is declared in `simdjson.h`,
which is not among the sources. Section 3 of the spec gives its two fields.
Both are taken to be `uint32_t`: `end_scope` copies `count` into a
`const uint32_t`, and `tape_index` receives the `uint32_t` tape cursor. -/
structure scope_descriptor where
  tape_index : Nat
  count : Nat
  deriving DecidableEq, Repr

/-- Modelled from the spec: the members of `class parser` that the callbacks use
(the class is declared in `simdjson.h`, which is not among the sources; section 3
of the spec, "Parser cursor state", "Scope descriptor", "String buffer").
`tape` is `doc.tape`, `string_buf` is `doc.string_buf` addressed by byte offset,
`current_string_buf_loc` is the offset of that pointer from the buffer base,
`current_loc` is the `uint32_t` tape cursor. -/
structure parser where
  tape : Nat → Nat
  string_buf : Nat → Nat
  current_string_buf_loc : Nat
  current_loc : Nat
  containing_scope : Nat → scope_descriptor
  valid : Bool
  error : error_code

/-- The type invariants of a parser state: the `uint32_t` members are below
`2 ^ 32`, tape words are 64-bit and string-buffer cells are bytes. -/
structure parser.typed (s : parser) : Prop where
  current_loc_lt : s.current_loc < 2 ^ 32
  tape_index_lt : ∀ d, (s.containing_scope d).tape_index < 2 ^ 32
  count_lt : ∀ d, (s.containing_scope d).count < 2 ^ 32
  tape_lt : ∀ i, s.tape i < 2 ^ 64
  byte_lt : ∀ i, s.string_buf i < 256

/-! ## The callbacks

The numeric value of each `tape_type` enumerator is not visible in the sources;
every function that needs it takes the table `tc : tape_type → Nat` as a
parameter. -/

/-- The expression `(uint64_t(char(t))) << 56`. The conversion to `char` keeps
the low eight bits of the enumerator; whether `char` is signed or not, the
bits that a sign extension would add are shifted out of the 64-bit word. -/
def tag_word (tc : tape_type → Nat) (t : tape_type) : Nat :=
  ((tc t % 256) <<< 56) % 2 ^ 64

/-- Source: `parser::init_stage2`. -/
def init_stage2 (s : parser) : parser :=
  { s with
    current_string_buf_loc := 0
    current_loc := 0
    valid := false
    error := error_code.UNINITIALIZED }

/-- Source: `parser::on_error`; the result pairs the new state with the returned code. -/
def on_error (s : parser) (new_error_code : error_code) : parser × error_code :=
  ({ s with error := new_error_code }, new_error_code)

/-- Source: `parser::on_success`; the result pairs the new state with the returned code. -/
def on_success (s : parser) (success_code : error_code) : parser × error_code :=
  ({ s with error := success_code, valid := true }, success_code)

/-- Source: `parser::increment_count`, `containing_scope[depth].count++` on a `uint32_t`. -/
def increment_count (s : parser) (depth : Nat) : parser :=
  { s with
    containing_scope := Function.update s.containing_scope depth
      { s.containing_scope depth with count := ((s.containing_scope depth).count + 1) % 2 ^ 32 } }

/-- Source: `parser::write_tape`, `doc.tape[current_loc++] = val | ((uint64_t(char(t))) << 56)`. -/
def write_tape (tc : tape_type → Nat) (s : parser) (val : Nat) (t : tape_type) : parser :=
  { s with
    tape := Function.update s.tape s.current_loc (val ||| tag_word tc t)
    current_loc := (s.current_loc + 1) % 2 ^ 32 }

/-- Source: `parser::end_scope`. -/
def end_scope (s : parser) (depth : Nat) : parser :=
  let d := s.containing_scope depth
  let cntsat := if d.count > 0xFFFFFF then 0xFFFFFF else d.count
  { s with
    tape := Function.update s.tape d.tape_index
      (s.tape d.tape_index ||| (s.current_loc ||| (cntsat <<< 32))) }

/-- The first two statements shared by `on_start_document`, `on_start_object`
and `on_start_array`: record the cursor and clear the count at `depth`. -/
def open_scope (s : parser) (depth : Nat) : parser :=
  { s with
    containing_scope := Function.update s.containing_scope depth
      { tape_index := s.current_loc, count := 0 } }

/-- Source: `parser::on_start_document` (always returns `true`). -/
def on_start_document (tc : tape_type → Nat) (s : parser) (depth : Nat) : parser :=
  write_tape tc (open_scope s depth) 0 tape_type.ROOT

/-- Source: `parser::on_start_object` (always returns `true`). -/
def on_start_object (tc : tape_type → Nat) (s : parser) (depth : Nat) : parser :=
  write_tape tc (open_scope s depth) 0 tape_type.START_OBJECT

/-- Source: `parser::on_start_array` (always returns `true`). -/
def on_start_array (tc : tape_type → Nat) (s : parser) (depth : Nat) : parser :=
  write_tape tc (open_scope s depth) 0 tape_type.START_ARRAY

/-- Source: `parser::on_end_document` (always returns `true`). -/
def on_end_document (tc : tape_type → Nat) (s : parser) (depth : Nat) : parser :=
  end_scope (write_tape tc s (s.containing_scope depth).tape_index tape_type.ROOT) depth

/-- Source: `parser::on_end_object` (always returns `true`). -/
def on_end_object (tc : tape_type → Nat) (s : parser) (depth : Nat) : parser :=
  end_scope (write_tape tc s (s.containing_scope depth).tape_index tape_type.END_OBJECT) depth

/-- Source: `parser::on_end_array` (always returns `true`). -/
def on_end_array (tc : tape_type → Nat) (s : parser) (depth : Nat) : parser :=
  end_scope (write_tape tc s (s.containing_scope depth).tape_index tape_type.END_ARRAY) depth

/-- Source: `parser::on_true_atom` (always returns `true`). -/
def on_true_atom (tc : tape_type → Nat) (s : parser) : parser :=
  write_tape tc s 0 tape_type.TRUE_VALUE

/-- Source: `parser::on_false_atom` (always returns `true`). -/
def on_false_atom (tc : tape_type → Nat) (s : parser) : parser :=
  write_tape tc s 0 tape_type.FALSE_VALUE

/-- Source: `parser::on_null_atom` (always returns `true`). -/
def on_null_atom (tc : tape_type → Nat) (s : parser) : parser :=
  write_tape tc s 0 tape_type.NULL_VALUE

/-- Source: `parser::on_start_string`. The result pairs the new state with the
returned pointer (as an offset). `position` is the cursor offset cast to `uint32_t`. -/
def on_start_string (tc : tape_type → Nat) (s : parser) : parser × Nat :=
  let position := s.current_string_buf_loc % 2 ^ 32
  (write_tape tc s position tape_type.STRING, s.current_string_buf_loc)

/-- The library function `memmove(dst, src, n)` on the byte map `buf`: every
destination byte receives the value the source byte had before the call. -/
def memmove (buf : Nat → Nat) (dst src n : Nat) : Nat → Nat :=
  fun i => if dst ≤ i ∧ i < dst + n then buf (src + (i - dst)) else buf i

/-- The index `current_loc-1` computed in `uint32_t` arithmetic. -/
def prev_loc (s : parser) : Nat :=
  (s.current_loc + (2 ^ 32 - 1)) % 2 ^ 32

/-- The value `uint32_t(dst - current_string_buf_loc)`: the pointer difference
reduced modulo `2 ^ 32`. -/
def str_length_of (s : parser) (dst : Nat) : Nat :=
  (((dst : Int) - (s.current_string_buf_loc : Int)) % 2 ^ 32).toNat

/-- Source: `parser::on_end_string` (always returns `true`). -/
def on_end_string (tc : tape_type → Nat) (s : parser) (dst : Nat) : parser :=
  let str_length := str_length_of s dst
  if str_length ≤ 0x7fffff then
    { s with
      tape := Function.update s.tape (prev_loc s) (s.tape (prev_loc s) ||| (str_length <<< 32))
      string_buf := Function.update s.string_buf dst 0
      current_string_buf_loc := dst + 1 }
  else
    let offset := 2
    let payload := s.tape (prev_loc s) &&& 0xFFFFFFFF
    let payload := (payload + offset) % 2 ^ 64
    let payload := payload ||| ((0x800000 ||| (str_length >>> 9)) <<< 32)
    let tape := Function.update s.tape (prev_loc s) (payload ||| tag_word tc tape_type.STRING)
    let buf := memmove s.string_buf (s.current_string_buf_loc + offset) s.current_string_buf_loc
      str_length
    let dst := dst + offset
    let buf := Function.update buf s.current_string_buf_loc
      ((32 + ((str_length &&& 0x1f0) >>> 4)) % 256)
    let buf := Function.update buf (s.current_string_buf_loc + 1)
      ((32 + (str_length &&& 0xf)) % 256)
    { s with
      tape := tape
      string_buf := Function.update buf dst 0
      current_string_buf_loc := dst + 1 }

/-- The bit pattern that `memcpy` of an `int64_t` leaves in a 64-bit word
(two's complement). -/
def bits_of_int64 (value : Int) : Nat :=
  (value % 2 ^ 64).toNat

/-- A 64-bit word reinterpreted as an `int64_t`. -/
def int64_of_bits (w : Nat) : Int :=
  if w < 2 ^ 63 then (w : Int) else (w : Int) - 2 ^ 64

/-- Source: `parser::on_number_s64` (always returns `true`). -/
def on_number_s64 (tc : tape_type → Nat) (s : parser) (value : Int) : parser :=
  let s1 := write_tape tc s 0 tape_type.INT64
  { s1 with
    tape := Function.update s1.tape s1.current_loc (bits_of_int64 value)
    current_loc := (s1.current_loc + 1) % 2 ^ 32 }

/-- Source: `parser::on_number_u64` (always returns `true`). -/
def on_number_u64 (tc : tape_type → Nat) (s : parser) (value : Nat) : parser :=
  let s1 := write_tape tc s 0 tape_type.UINT64
  { s1 with
    tape := Function.update s1.tape s1.current_loc value
    current_loc := (s1.current_loc + 1) % 2 ^ 32 }

/-- Source: `parser::on_number_double` (always returns `true`). The `double` is
represented by its 64-bit pattern, which `memcpy` stores unchanged. -/
def on_number_double (tc : tape_type → Nat) (s : parser) (value : Nat) : parser :=
  let s1 := write_tape tc s 0 tape_type.DOUBLE
  { s1 with
    tape := Function.update s1.tape s1.current_loc value
    current_loc := (s1.current_loc + 1) % 2 ^ 32 }

/-! ## Reading a tape word -/

/-- The top eight bits of a tape word. -/
def word_tag (w : Nat) : Nat := w >>> 56

/-- The 56-bit payload of a tape word. -/
def word_payload (w : Nat) : Nat := w &&& 0xFFFFFFFFFFFFFF

/-- The low 32 bits of a tape word. -/
def word_low32 (w : Nat) : Nat := w &&& 0xFFFFFFFF

/-- Bits 32 to 55 of a tape word. -/
def word_count (w : Nat) : Nat := (w >>> 32) &&& 0xFFFFFF

/-! ## Callback sequences -/

/-- Modelled from the spec: the string-unescaping collaborator (out of scope of
the sources) "writes decoded bytes starting at the returned pointer": the bytes
`bytes` are stored at offsets `p`, `p + 1`, ... of the string buffer. -/
def store_bytes (buf : Nat → Nat) (p : Nat) : List (Fin 256) → Nat → Nat
  | [] => buf
  | b :: rest => store_bytes (Function.update buf p b.val) (p + 1) rest

/-- The collaborator acting on the parser state: it writes `bytes` at the pointer
`p` and touches nothing else. -/
def unescape (s : parser) (p : Nat) (bytes : List (Fin 256)) : parser :=
  { s with string_buf := store_bytes s.string_buf p bytes }

/-- One string value as the scanning stage produces it: `on_start_string`, the
collaborator writing `bytes` at the returned pointer, and `on_end_string` called
with the pointer just past the last byte written. -/
def on_string (tc : tape_type → Nat) (s : parser) (bytes : List (Fin 256)) : parser :=
  on_end_string tc (unescape (on_start_string tc s).1 (on_start_string tc s).2 bytes)
    ((on_start_string tc s).2 + bytes.length)

/-- The calls the scanning stage can issue (section 4.5 of the spec). A string
value is the unit `on_string`. -/
inductive callback where
  | start_document (depth : Nat)
  | start_object (depth : Nat)
  | start_array (depth : Nat)
  | end_document (depth : Nat)
  | end_object (depth : Nat)
  | end_array (depth : Nat)
  | true_atom
  | false_atom
  | null_atom
  | number_s64 (value : Int)
  | number_u64 (value : Nat)
  | number_double (value : Nat)
  | string (bytes : List (Fin 256))
  | count (depth : Nat)
  | error (code : error_code)
  | success (code : error_code)
  deriving DecidableEq, Repr

/-- The effect of one call on the parser state. -/
def step (tc : tape_type → Nat) (s : parser) : callback → parser
  | .start_document d => on_start_document tc s d
  | .start_object d => on_start_object tc s d
  | .start_array d => on_start_array tc s d
  | .end_document d => on_end_document tc s d
  | .end_object d => on_end_object tc s d
  | .end_array d => on_end_array tc s d
  | .true_atom => on_true_atom tc s
  | .false_atom => on_false_atom tc s
  | .null_atom => on_null_atom tc s
  | .number_s64 v => on_number_s64 tc s v
  | .number_u64 v => on_number_u64 tc s v
  | .number_double v => on_number_double tc s v
  | .string bytes => on_string tc s bytes
  | .count d => increment_count s d
  | .error e => (on_error s e).1
  | .success e => (on_success s e).1

/-- The effect of a sequence of calls, in order. -/
def run (tc : tape_type → Nat) (s : parser) (cs : List callback) : parser :=
  cs.foldl (step tc) s

/-- A value without children: an atom, a number or a string. -/
inductive leaf where
  | true_atom
  | false_atom
  | null_atom
  | number_s64 (value : Int)
  | number_u64 (value : Nat)
  | number_double (value : Nat)
  | string (bytes : List (Fin 256))
  deriving DecidableEq, Repr

/-- The call that writes a leaf. -/
def leaf.call : leaf → callback
  | .true_atom => .true_atom
  | .false_atom => .false_atom
  | .null_atom => .null_atom
  | .number_s64 v => .number_s64 v
  | .number_u64 v => .number_u64 v
  | .number_double v => .number_double v
  | .string bytes => .string bytes

/-- The content of a container, as a tree of calls: a leaf value, one
`increment_count` on the enclosing scope, or a nested object or array with its
own content. -/
inductive node where
  | leaf (l : leaf)
  | count
  | object (body : List node)
  | array (body : List node)

mutual
/-- The calls of a node whose enclosing scope is at depth `parent`: a nested
container is opened and closed at depth `parent + 1` and its content is issued
in between (section 4.5, items 3 to 6). -/
def node.calls (parent : Nat) : node → List callback
  | .leaf l => [l.call]
  | .count => [callback.count parent]
  | .object body =>
      callback.start_object (parent + 1) :: (node.calls_list (parent + 1) body
        ++ [callback.end_object (parent + 1)])
  | .array body =>
      callback.start_array (parent + 1) :: (node.calls_list (parent + 1) body
        ++ [callback.end_array (parent + 1)])
/-- The calls of a list of nodes, in document order. -/
def node.calls_list (parent : Nat) : List node → List callback
  | [] => []
  | n :: rest => node.calls parent n ++ node.calls_list parent rest
end

/-- A well-formed callback sequence for one document (section 4.5, item 2):
`on_start_document(0)`, the content, `on_end_document(0)`. -/
def document_calls (body : List node) : List callback :=
  callback.start_document 0 :: (node.calls_list 0 body ++ [callback.end_document 0])

mutual
/-- Number of tape words the calls of a node append. -/
def node.words : node → Nat
  | .leaf (.number_s64 _) => 2
  | .leaf (.number_u64 _) => 2
  | .leaf (.number_double _) => 2
  | .leaf _ => 1
  | .count => 0
  | .object body => node.words_list body + 2
  | .array body => node.words_list body + 2
/-- Number of tape words the calls of a list of nodes append. -/
def node.words_list : List node → Nat
  | [] => 0
  | n :: rest => node.words n + node.words_list rest
end

/-- Number of string-buffer bytes one string takes: its content, the zero
terminator, and the two length-extension bytes of a long string. -/
def string_room (bytes : List (Fin 256)) : Nat :=
  if bytes.length ≤ 0x7fffff then bytes.length + 1 else bytes.length + 3

mutual
/-- Number of string-buffer bytes the calls of a node take. -/
def node.room : node → Nat
  | .leaf (.string bytes) => string_room bytes
  | .leaf _ => 0
  | .count => 0
  | .object body => node.room_list body
  | .array body => node.room_list body
/-- Number of string-buffer bytes the calls of a list of nodes take. -/
def node.room_list : List node → Nat
  | [] => 0
  | n :: rest => node.room n + node.room_list rest
end

/-- The upstream numbering of the tags (the ASCII characters
`r { } [ ] " l u d t f n`), used as a concrete instance of the table. -/
def ascii_tags : tape_type → Nat
  | .ROOT => 114
  | .START_OBJECT => 123
  | .END_OBJECT => 125
  | .START_ARRAY => 91
  | .END_ARRAY => 93
  | .STRING => 34
  | .INT64 => 108
  | .UINT64 => 117
  | .DOUBLE => 100
  | .TRUE_VALUE => 116
  | .FALSE_VALUE => 102
  | .NULL_VALUE => 110

/-- A parser state with an all-zero tape, string buffer and scope array, as a
concrete instance for evaluating the callbacks. -/
def blank : parser :=
  { tape := fun _ => 0
    string_buf := fun _ => 0
    current_string_buf_loc := 0
    current_loc := 0
    containing_scope := fun _ => { tape_index := 0, count := 0 }
    valid := false
    error := error_code.UNINITIALIZED }

/-- A parser state as a failed parse could leave it: non-zero tape words,
buffer bytes, scope descriptors and cursors, and an error code. -/
def dirty : parser :=
  { tape := fun i => 0xAB00000000000000 + i
    string_buf := fun i => (i + 65) % 256
    current_string_buf_loc := 17
    current_loc := 9
    containing_scope := fun d => { tape_index := d + 3, count := 7 }
    valid := true
    error := error_code.other 5 }

/-- A blank parser state whose string cursor is at the last offset that fits
32 bits. -/
def at_buffer_end : parser :=
  { blank with current_string_buf_loc := 2 ^ 32 - 1 }

/-- Number of `increment_count` calls a list of nodes issues on its own
enclosing scope (the calls of nested containers go to deeper scopes). -/
def node.counts : List node → Nat
  | [] => 0
  | node.count :: rest => node.counts rest + 1
  | _ :: rest => node.counts rest

/-- The three kinds of scope: the document root, an object, an array. -/
inductive scope_kind where
  | document
  | object
  | array
  deriving DecidableEq, Repr

/-- The start callback of a scope kind. -/
def scope_kind.start_call : scope_kind → Nat → callback
  | .document, d => callback.start_document d
  | .object, d => callback.start_object d
  | .array, d => callback.start_array d

/-- The end callback of a scope kind. -/
def scope_kind.end_call : scope_kind → Nat → callback
  | .document, d => callback.end_document d
  | .object, d => callback.end_object d
  | .array, d => callback.end_array d

/-- The tag of the open word of a scope kind. -/
def scope_kind.open_tag : scope_kind → tape_type
  | .document => tape_type.ROOT
  | .object => tape_type.START_OBJECT
  | .array => tape_type.START_ARRAY

/-- The tag of the close word of a scope kind. -/
def scope_kind.close_tag : scope_kind → tape_type
  | .document => tape_type.ROOT
  | .object => tape_type.END_OBJECT
  | .array => tape_type.END_ARRAY

/-- The calls of one whole scope at depth `depth`: its start callback, its
content (whose enclosing scope is `depth`), its end callback. -/
def scope_calls (k : scope_kind) (depth : Nat) (body : List node) : List callback :=
  k.start_call depth :: (node.calls_list depth body ++ [k.end_call depth])

/-- What running the content of a scope at depth `d` does to the tape cursor,
the tape and the scope descriptors: `w` words are appended at the cursor, no
word outside them changes, the scopes below `d` are untouched and the scope at
`d` keeps its tape index and has its `uint32_t` count advanced `n` times. -/
structure appends (d w n : Nat) (s s' : parser) : Prop where
  loc : s'.current_loc = s.current_loc + w
  tape_below : ∀ i, i < s.current_loc → s'.tape i = s.tape i
  tape_above : ∀ i, s.current_loc + w ≤ i → s'.tape i = s.tape i
  scope_below : ∀ k, k < d → s'.containing_scope k = s.containing_scope k
  scope_index : (s'.containing_scope d).tape_index = (s.containing_scope d).tape_index
  scope_count :
    (s'.containing_scope d).count % 2 ^ 32 = ((s.containing_scope d).count + n) % 2 ^ 32
  count_typed : (s.containing_scope d).count < 2 ^ 32 → (s'.containing_scope d).count < 2 ^ 32

/-- Two parser states that agree on everything a parse has produced so far: the
two cursors, the tape below the tape cursor, the string buffer below the
string cursor, and the scope descriptors at depths below `m`, each of which
points at a word already written. -/
structure agree (m : Nat) (a b : parser) : Prop where
  loc : a.current_loc = b.current_loc
  buf_loc : a.current_string_buf_loc = b.current_string_buf_loc
  tape : ∀ i, i < a.current_loc → a.tape i = b.tape i
  buf : ∀ j, j < a.current_string_buf_loc → a.string_buf j = b.string_buf j
  scope : ∀ k, k < m → a.containing_scope k = b.containing_scope k
  index : ∀ k, k < m → (a.containing_scope k).tape_index < a.current_loc

/-! ## Documents as value trees, and a reference decoder -/

/-- A JSON value tree. Numbers carry the argument of their callback: an
`int64_t`, a `uint64_t`, or the 64-bit pattern of a `double`. -/
inductive value where
  | null_atom
  | true_atom
  | false_atom
  | int64 (v : Int)
  | uint64 (v : Nat)
  | double (bits : Nat)
  | string (bytes : List (Fin 256))
  | array (elements : List value)
  | object (members : List (List (Fin 256) × value))

mutual
/-- Every number of the tree is in the range of its machine type. -/
def value.typed : value → Bool
  | .int64 v => decide (-2 ^ 63 ≤ v) && decide (v < 2 ^ 63)
  | .uint64 v => decide (v < 2 ^ 64)
  | .double bits => decide (bits < 2 ^ 64)
  | .array xs => value.typed_elements xs
  | .object ms => value.typed_members ms
  | _ => true
/-- Every element is typed. -/
def value.typed_elements : List value → Bool
  | [] => true
  | x :: xs => x.typed && value.typed_elements xs
/-- Every member value is typed. -/
def value.typed_members : List (List (Fin 256) × value) → Bool
  | [] => true
  | (_, v) :: ms => v.typed && value.typed_members ms
end

mutual
/-- The calls that encode a value (section 4.5 of the spec), as a content node:
a leaf for an atom, a number or a string; for a container its elements in
document order. -/
def value.node : value → node
  | .null_atom => node.leaf leaf.null_atom
  | .true_atom => node.leaf leaf.true_atom
  | .false_atom => node.leaf leaf.false_atom
  | .int64 v => node.leaf (leaf.number_s64 v)
  | .uint64 v => node.leaf (leaf.number_u64 v)
  | .double bits => node.leaf (leaf.number_double bits)
  | .string bytes => node.leaf (leaf.string bytes)
  | .array xs => node.array (value.element_nodes xs)
  | .object ms => node.object (value.member_nodes ms)
/-- Each array element is followed by one `increment_count` on the array. -/
def value.element_nodes : List value → List node
  | [] => []
  | x :: xs => x.node :: node.count :: value.element_nodes xs
/-- Each key and each member value is followed by one `increment_count` on the
object. -/
def value.member_nodes : List (List (Fin 256) × value) → List node
  | [] => []
  | (k, v) :: ms =>
      node.leaf (leaf.string k) :: node.count :: v.node :: node.count :: value.member_nodes ms
end

/-- The callback sequence of the document whose root value is `v`:
`on_start_document(0)`, the calls of `v`, `increment_count(0)`,
`on_end_document(0)`. -/
def value.document (v : value) : List callback :=
  document_calls [v.node, node.count]

/-- The tag byte `char(t)` of an enumerator. -/
def tag_code (tc : tape_type → Nat) (t : tape_type) : Nat := tc t % 256

/-- The enumerator whose tag byte is `tag`, if any. -/
def tag_lookup (tc : tape_type → Nat) (tag : Nat) : Option tape_type :=
  [tape_type.ROOT, tape_type.START_OBJECT, tape_type.END_OBJECT, tape_type.START_ARRAY,
    tape_type.END_ARRAY, tape_type.STRING, tape_type.INT64, tape_type.UINT64, tape_type.DOUBLE,
    tape_type.TRUE_VALUE, tape_type.FALSE_VALUE, tape_type.NULL_VALUE].find?
    (fun t => tag_code tc t == tag)

/-- The `n` bytes of the string buffer from offset `p` on. -/
def read_bytes (buf : Nat → Nat) : Nat → Nat → List (Fin 256)
  | _, 0 => []
  | p, n + 1 => ⟨buf p % 256, Nat.mod_lt _ (by decide)⟩ :: read_bytes buf (p + 1) n

/-- Reference decoder, length of a string from its `STRING` word `w`: bits 32-54
when bit 55 is clear; otherwise those 23 bits are the high part and the two
bytes before the offset, each minus 32, give bits 4-8 and 0-3. -/
def decode_length (buf : Nat → Nat) (w : Nat) : Nat :=
  if (w >>> 32) &&& 0x800000 = 0 then (w >>> 32) &&& 0x7fffff
  else
    ((((w >>> 32) &&& 0x7fffff) <<< 9) ||| ((buf ((w &&& 0xFFFFFFFF) - 2) - 32) <<< 4))
      ||| (buf ((w &&& 0xFFFFFFFF) - 1) - 32)

/-- Reference decoder, content of a string from its `STRING` word `w`: the bytes
at the offset held in the low 32 bits. -/
def decode_string (buf : Nat → Nat) (w : Nat) : List (Fin 256) :=
  read_bytes buf (w &&& 0xFFFFFFFF) (decode_length buf w)

mutual
/-- Reference decoder: the value whose first word is at tape index `i`, and the
index after its last word. The tag is the top 8 bits; a number is the following
word; the extent of a container is the low 32 bits of its open word, the index
after its close word. The first argument bounds the recursion. -/
def decode_value (tc : tape_type → Nat) (tape buf : Nat → Nat) :
    Nat → Nat → Option (value × Nat)
  | 0, _ => none
  | fuel + 1, i =>
    match tag_lookup tc (tape i >>> 56) with
    | some tape_type.NULL_VALUE => some (value.null_atom, i + 1)
    | some tape_type.TRUE_VALUE => some (value.true_atom, i + 1)
    | some tape_type.FALSE_VALUE => some (value.false_atom, i + 1)
    | some tape_type.INT64 => some (value.int64 (int64_of_bits (tape (i + 1))), i + 2)
    | some tape_type.UINT64 => some (value.uint64 (tape (i + 1)), i + 2)
    | some tape_type.DOUBLE => some (value.double (tape (i + 1)), i + 2)
    | some tape_type.STRING => some (value.string (decode_string buf (tape i)), i + 1)
    | some tape_type.START_ARRAY =>
      match decode_elements tc tape buf fuel (i + 1) ((tape i &&& 0xFFFFFFFF) - 1) with
      | some xs => some (value.array xs, tape i &&& 0xFFFFFFFF)
      | none => none
    | some tape_type.START_OBJECT =>
      match decode_members tc tape buf fuel (i + 1) ((tape i &&& 0xFFFFFFFF) - 1) with
      | some ms => some (value.object ms, tape i &&& 0xFFFFFFFF)
      | none => none
    | _ => none
termination_by structural fuel => fuel
/-- Reference decoder: the values from index `i` up to the close word at `stop`. -/
def decode_elements (tc : tape_type → Nat) (tape buf : Nat → Nat) :
    Nat → Nat → Nat → Option (List value)
  | 0, _, _ => none
  | fuel + 1, i, stop =>
    if i = stop then some []
    else
      match decode_value tc tape buf fuel i with
      | some (x, j) =>
        match decode_elements tc tape buf fuel j stop with
        | some xs => some (x :: xs)
        | none => none
      | none => none
termination_by structural fuel => fuel
/-- Reference decoder: the key and value pairs from index `i` up to the close
word at `stop`. -/
def decode_members (tc : tape_type → Nat) (tape buf : Nat → Nat) :
    Nat → Nat → Nat → Option (List (List (Fin 256) × value))
  | 0, _, _ => none
  | fuel + 1, i, stop =>
    if i = stop then some []
    else
      match tag_lookup tc (tape i >>> 56) with
      | some tape_type.STRING =>
        match decode_value tc tape buf fuel (i + 1) with
        | some (v, j) =>
          match decode_members tc tape buf fuel j stop with
          | some ms => some ((decode_string buf (tape i), v) :: ms)
          | none => none
        | none => none
      | _ => none
termination_by structural fuel => fuel
end

/-- Reference decoder of a finished tape: the word at index 0 is the opening
`ROOT`, the root value starts at index 1 and ends just before the closing `ROOT`
word, whose index plus one is held in the low 32 bits of the opening word. -/
def decode_document (tc : tape_type → Nat) (tape buf : Nat → Nat) (fuel : Nat) : Option value :=
  match tag_lookup tc (tape 0 >>> 56) with
  | some tape_type.ROOT =>
    match decode_value tc tape buf fuel 1 with
    | some (v, j) =>
      if j + 1 = (tape 0 &&& 0xFFFFFFFF) ∧ tag_lookup tc (tape j >>> 56) = some tape_type.ROOT
      then some v else none
    | none => none
  | _ => none

mutual
/-- Recursion bound that is enough to decode a value. -/
def value.fuel : value → Nat
  | .array xs => value.fuel_elements xs + 1
  | .object ms => value.fuel_members ms + 1
  | _ => 1
/-- Recursion bound that is enough to decode a list of elements. -/
def value.fuel_elements : List value → Nat
  | [] => 1
  | x :: xs => x.fuel + value.fuel_elements xs + 1
/-- Recursion bound that is enough to decode a list of members. -/
def value.fuel_members : List (List (Fin 256) × value) → Nat
  | [] => 1
  | (_, v) :: ms => v.fuel + value.fuel_members ms + 1
end

/-- The `STRING` word `w` denotes the content `bytes` using only string-buffer
bytes below offset `q`: the reference decoder reads `bytes` from every buffer
that agrees with `buf` below `q`. -/
def string_at (buf : Nat → Nat) (q : Nat) (w : Nat) (bytes : List (Fin 256)) : Prop :=
  ∀ buf' : Nat → Nat, (∀ j, j < q → buf' j = buf j) → decode_string buf' w = bytes

mutual
/-- The words of `tape` from index `i` on are the encoding of the value: its tag,
for a number the following word, for a string a word that denotes its content
below `q`, for a container the extent in the open word and the encodings of
its elements one after the other. -/
def value.on_tape (tc : tape_type → Nat) (tape buf : Nat → Nat) (q : Nat) : value → Nat → Prop
  | .null_atom, i => tape i >>> 56 = tag_code tc tape_type.NULL_VALUE
  | .true_atom, i => tape i >>> 56 = tag_code tc tape_type.TRUE_VALUE
  | .false_atom, i => tape i >>> 56 = tag_code tc tape_type.FALSE_VALUE
  | .int64 v, i => tape i >>> 56 = tag_code tc tape_type.INT64 ∧ tape (i + 1) = bits_of_int64 v
  | .uint64 v, i => tape i >>> 56 = tag_code tc tape_type.UINT64 ∧ tape (i + 1) = v
  | .double bits, i => tape i >>> 56 = tag_code tc tape_type.DOUBLE ∧ tape (i + 1) = bits
  | .string bytes, i =>
      tape i >>> 56 = tag_code tc tape_type.STRING ∧ string_at buf q (tape i) bytes
  | .array xs, i =>
      tape i >>> 56 = tag_code tc tape_type.START_ARRAY ∧
      tape i &&& 0xFFFFFFFF = i + (node.words_list (value.element_nodes xs) + 2) ∧
      value.elements_on_tape tc tape buf q xs (i + 1)
  | .object ms, i =>
      tape i >>> 56 = tag_code tc tape_type.START_OBJECT ∧
      tape i &&& 0xFFFFFFFF = i + (node.words_list (value.member_nodes ms) + 2) ∧
      value.members_on_tape tc tape buf q ms (i + 1)
/-- The encodings of the elements follow one another from index `i` on. -/
def value.elements_on_tape (tc : tape_type → Nat) (tape buf : Nat → Nat) (q : Nat) :
    List value → Nat → Prop
  | [], _ => True
  | x :: xs, i =>
      value.on_tape tc tape buf q x i ∧
      value.elements_on_tape tc tape buf q xs (i + node.words x.node)
/-- The encodings of the keys and member values follow one another from index
`i` on. -/
def value.members_on_tape (tc : tape_type → Nat) (tape buf : Nat → Nat) (q : Nat) :
    List (List (Fin 256) × value) → Nat → Prop
  | [], _ => True
  | (k, v) :: ms, i =>
      (tape i >>> 56 = tag_code tc tape_type.STRING ∧ string_at buf q (tape i) k) ∧
      value.on_tape tc tape buf q v (i + 1) ∧
      value.members_on_tape tc tape buf q ms (i + 1 + node.words v.node)
end

/-- What running a content does to the string buffer: `r` bytes are taken at the
string cursor and no byte below the old cursor changes. -/
structure fills (r : Nat) (s s' : parser) : Prop where
  cur : s'.current_string_buf_loc = s.current_string_buf_loc + r
  below : ∀ j, j < s.current_string_buf_loc → s'.string_buf j = s.string_buf j

/-- A small document with every kind of value:
`{"k": [-5, "abc", null, true], "": 1.5 (as bits), "ab": {}, "u": 2^64 - 1, "f": false}`. -/
def sample_document : value :=
  value.object
    [([107], value.array [value.int64 (-5), value.string [97, 98, 99], value.null_atom,
        value.true_atom]),
      ([], value.double 0x3FF8000000000000),
      ([97, 98], value.object []),
      ([117], value.uint64 (2 ^ 64 - 1)),
      ([102], value.false_atom)]

/-! ## Further readers of the tape, and sequences of calls -/

/-- Bit 55 of a tape word: in a `STRING` word, the overflow marker. -/
def word_bit55 (w : Nat) : Bool := w.testBit 55

/-- Bits 32 to 54 of a tape word: in a `STRING` word, the 23-bit length field. -/
def word_bits_32_54 (w : Nat) : Nat := (w >>> 32) &&& 0x7fffff

/-- A call sequence that uses the two status callbacks as the scanning stage
does: `on_success` is called with the success code, `on_error` with any other
code. -/
def status_codes_proper : List callback → Bool
  | [] => true
  | callback.success e :: rest => decide (e = error_code.SUCCESS) && status_codes_proper rest
  | callback.error e :: rest => decide (e ≠ error_code.SUCCESS) && status_codes_proper rest
  | _ :: rest => status_codes_proper rest

/-- No `on_error` call occurs in the sequence. -/
def no_error_call : List callback → Bool
  | [] => true
  | callback.error _ :: _ => false
  | _ :: rest => no_error_call rest

/-- No `on_error` call follows an `on_success` call in the sequence. -/
def no_error_after_success : List callback → Bool
  | [] => true
  | callback.success _ :: rest => no_error_call rest
  | _ :: rest => no_error_after_success rest

/-! ## The callbacks one by one -/

/-- The callbacks of the source, one constructor each (`on_start_string` and
`on_end_string` apart, the latter with the final pointer it is given). -/
inductive primitive where
  | error (code : error_code)
  | success (code : error_code)
  | start_document (depth : Nat)
  | start_object (depth : Nat)
  | start_array (depth : Nat)
  | end_document (depth : Nat)
  | end_object (depth : Nat)
  | end_array (depth : Nat)
  | true_atom
  | false_atom
  | null_atom
  | start_string
  | end_string (dst : Nat)
  | number_s64 (value : Int)
  | number_u64 (value : Nat)
  | number_double (value : Nat)
  | count (depth : Nat)
  deriving DecidableEq, Repr

/-- The effect of one callback of the source on the parser state. -/
def primitive.apply (tc : tape_type → Nat) (s : parser) : primitive → parser
  | .error e => (on_error s e).1
  | .success e => (on_success s e).1
  | .start_document d => on_start_document tc s d
  | .start_object d => on_start_object tc s d
  | .start_array d => on_start_array tc s d
  | .end_document d => on_end_document tc s d
  | .end_object d => on_end_object tc s d
  | .end_array d => on_end_array tc s d
  | .true_atom => on_true_atom tc s
  | .false_atom => on_false_atom tc s
  | .null_atom => on_null_atom tc s
  | .start_string => (on_start_string tc s).1
  | .end_string dst => on_end_string tc s dst
  | .number_s64 v => on_number_s64 tc s v
  | .number_u64 v => on_number_u64 tc s v
  | .number_double v => on_number_double tc s v
  | .count d => increment_count s d

/-- Number of tape words a callback appends: two for a number, one for a start
or end callback, an atom and `on_start_string`, none for the others. -/
def primitive.words : primitive → Nat
  | .number_s64 _ => 2
  | .number_u64 _ => 2
  | .number_double _ => 2
  | .error _ => 0
  | .success _ => 0
  | .end_string _ => 0
  | .count _ => 0
  | _ => 1

/-- The precondition of `on_end_string`: the final pointer is not before the
string cursor. The other callbacks have none. -/
def primitive.pointer_ok (s : parser) : primitive → Bool
  | .end_string dst => decide (s.current_string_buf_loc ≤ dst)
  | _ => true

/-- A blank parser state whose tape cursor is at the last index that fits 32
bits. -/
def at_tape_end : parser :=
  { blank with current_loc := 2 ^ 32 - 1 }

/-- A blank parser state whose string cursor is two bytes before the end of the
32-bit offset range. -/
def near_buffer_end : parser :=
  { blank with current_string_buf_loc := 2 ^ 32 - 2 }

/-- The call `c`, issued in the state `t`, writes the tape word at index `i`:
the tape cursor is at or below `i` before the call and beyond `i` after it, and
the word the call leaves at `i` is the same whatever the tape held before. -/
def writes_word (tc : tape_type → Nat) (t : parser) (c : callback) (i : Nat) : Prop :=
  t.current_loc ≤ i ∧ i < (step tc t c).current_loc ∧
    ∀ f : Nat → Nat, (step tc { t with tape := f } c).tape i = (step tc t c).tape i

theorem or_shift_eq_add (a b k : Nat) (h : a < 2 ^ k) : a ||| (b <<< k) = a + b * 2 ^ k := by
  rw [Nat.shiftLeft_eq]
  apply Nat.eq_of_testBit_eq
  intro i
  rw [Nat.testBit_or, Nat.add_comm, Nat.mul_comm, Nat.testBit_mul_pow_two_add _ h,
    Nat.testBit_mul_pow_two]
  by_cases hi : i < k
  · simp [hi, Nat.not_le.mpr hi]
  · have hk : k ≤ i := Nat.le_of_not_lt hi
    have : a.testBit i = false :=
      Nat.testBit_lt_two_pow (Nat.lt_of_lt_of_le h (Nat.pow_le_pow_right (by decide) hk))
    simp [hi, hk, this]

theorem word_tag_eq (w : Nat) : word_tag w = w / 2 ^ 56 := by
  simp [word_tag, Nat.shiftRight_eq_div_pow]

theorem word_payload_eq (w : Nat) : word_payload w = w % 2 ^ 56 := by
  have h : (0xFFFFFFFFFFFFFF : Nat) = 2 ^ 56 - 1 := by norm_num
  rw [word_payload, h, Nat.and_pow_two_sub_one_eq_mod]

theorem word_low32_eq (w : Nat) : word_low32 w = w % 2 ^ 32 := by
  have h : (0xFFFFFFFF : Nat) = 2 ^ 32 - 1 := by norm_num
  rw [word_low32, h, Nat.and_pow_two_sub_one_eq_mod]

theorem word_count_eq (w : Nat) : word_count w = w / 2 ^ 32 % 2 ^ 24 := by
  have h : (0xFFFFFF : Nat) = 2 ^ 24 - 1 := by norm_num
  rw [word_count, h, Nat.and_pow_two_sub_one_eq_mod, Nat.shiftRight_eq_div_pow]

theorem tag_word_eq (tc : tape_type → Nat) (t : tape_type) :
    tag_word tc t = (tc t % 256) * 2 ^ 56 := by
  have h : tc t % 256 < 256 := Nat.mod_lt _ (by decide)
  rw [tag_word, Nat.shiftLeft_eq]
  norm_num
  omega

theorem or_tag_word (tc : tape_type → Nat) (t : tape_type) (v : Nat) (h : v < 2 ^ 56) :
    v ||| tag_word tc t = v + (tc t % 256) * 2 ^ 56 := by
  rw [tag_word_eq, ← Nat.shiftLeft_eq, or_shift_eq_add _ _ _ h, Nat.shiftLeft_eq]

theorem int64_of_bits_of_int64 (v : Int) (h1 : -2 ^ 63 ≤ v) (h2 : v < 2 ^ 63) :
    int64_of_bits (bits_of_int64 v) = v := by
  unfold int64_of_bits bits_of_int64
  have hnn : 0 ≤ v % 2 ^ 64 := Int.emod_nonneg _ (by norm_num)
  have hlt : v % 2 ^ 64 < 2 ^ 64 := Int.emod_lt_of_pos _ (by norm_num)
  have hc : ((v % 2 ^ 64).toNat : Int) = v % 2 ^ 64 := Int.toNat_of_nonneg hnn
  by_cases hv : 0 ≤ v
  · have e : v % 2 ^ 64 = v := Int.emod_eq_of_lt hv (by omega)
    have : (v % 2 ^ 64).toNat < 2 ^ 63 := by omega
    rw [if_pos this, hc, e]
  · have e : v % 2 ^ 64 = v + 2 ^ 64 := by
      have := Int.emod_emod_of_dvd v (dvd_refl (2 ^ 64 : Int))
      rw [← Int.add_emod_self, Int.emod_eq_of_lt (by omega) (by omega)]
    have : ¬ (v % 2 ^ 64).toNat < 2 ^ 63 := by omega
    rw [if_neg this, hc, e]
    omega

/-! ## Status flags along a callback sequence -/

theorem on_end_string_flags (tc : tape_type → Nat) (s : parser) (dst : Nat) :
    (on_end_string tc s dst).valid = s.valid ∧ (on_end_string tc s dst).error = s.error := by
  by_cases h : str_length_of s dst ≤ 0x7fffff <;> simp [on_end_string, h]

/-- A call other than `on_error` and `on_success`. -/
theorem step_flags (tc : tape_type → Nat) (s : parser) (c : callback)
    (h1 : ∀ e, c ≠ callback.error e) (h2 : ∀ e, c ≠ callback.success e) :
    (step tc s c).valid = s.valid ∧ (step tc s c).error = s.error := by
  cases c with
  | error e => exact absurd rfl (h1 e)
  | success e => exact absurd rfl (h2 e)
  | string bytes => exact on_end_string_flags tc _ _
  | _ => exact ⟨rfl, rfl⟩

theorem run_flags (tc : tape_type → Nat) (cs : List callback) :
    ∀ s : parser, (∀ c ∈ cs, (∀ e, c ≠ callback.error e) ∧ (∀ e, c ≠ callback.success e)) →
      (run tc s cs).valid = s.valid ∧ (run tc s cs).error = s.error := by
  induction cs with
  | nil => intro s _; exact ⟨rfl, rfl⟩
  | cons c cs ih =>
    intro s h
    have hc := h c (List.mem_cons_self _ _)
    have hs := step_flags tc s c hc.1 hc.2
    have hr := ih (step tc s c) (fun c' hc' => h c' (List.mem_cons_of_mem _ hc'))
    simp only [run, List.foldl_cons] at hr ⊢
    exact ⟨hr.1.trans hs.1, hr.2.trans hs.2⟩

theorem leaf_call_plain (l : leaf) :
    (∀ e, l.call ≠ callback.error e) ∧ (∀ e, l.call ≠ callback.success e) := by
  cases l <;> simp [leaf.call]

mutual
theorem node_calls_plain (parent : Nat) : ∀ (n : node), ∀ c ∈ node.calls parent n,
    (∀ e, c ≠ callback.error e) ∧ (∀ e, c ≠ callback.success e)
  | .leaf l, c, hc => by
    simp only [node.calls, List.mem_singleton] at hc
    subst hc
    exact leaf_call_plain l
  | .count, c, hc => by
    simp only [node.calls, List.mem_singleton] at hc
    subst hc
    simp
  | .object body, c, hc => by
    simp only [node.calls, List.mem_cons, List.mem_append, List.mem_singleton, List.not_mem_nil,
      or_false] at hc
    rcases hc with h | h | h
    · subst h; simp
    · exact node_calls_list_plain (parent + 1) body c h
    · subst h; simp
  | .array body, c, hc => by
    simp only [node.calls, List.mem_cons, List.mem_append, List.mem_singleton, List.not_mem_nil,
      or_false] at hc
    rcases hc with h | h | h
    · subst h; simp
    · exact node_calls_list_plain (parent + 1) body c h
    · subst h; simp
theorem node_calls_list_plain (parent : Nat) : ∀ (ns : List node), ∀ c ∈ node.calls_list parent ns,
    (∀ e, c ≠ callback.error e) ∧ (∀ e, c ≠ callback.success e)
  | [], c, hc => by simp [node.calls_list] at hc
  | n :: rest, c, hc => by
    simp only [node.calls_list, List.mem_append] at hc
    rcases hc with h | h
    · exact node_calls_plain parent n c h
    · exact node_calls_list_plain parent rest c h
end

theorem document_calls_plain (body : List node) : ∀ c ∈ document_calls body,
    (∀ e, c ≠ callback.error e) ∧ (∀ e, c ≠ callback.success e) := by
  intro c hc
  simp only [document_calls, List.mem_cons, List.mem_append, List.mem_singleton,
    List.not_mem_nil, or_false] at hc
  rcases hc with h | h | h
  · subst h; simp
  · exact node_calls_list_plain 0 body c h
  · subst h; simp

/-! ## Reset and success flag -/

/-- C9 (idempotent reset): for every parser state, `init_stage2` gives tape cursor 0,
string cursor at the buffer base (offset 0), `valid = false` and
`error = UNINITIALIZED`, leaves the tape words, the string-buffer bytes and the
scope descriptors unchanged, and a second `init_stage2` gives the same state as
the first. -/
theorem init_stage2_idempotent (s : parser) :
    (init_stage2 s).current_loc = 0 ∧
    (init_stage2 s).current_string_buf_loc = 0 ∧
    (init_stage2 s).valid = false ∧
    (init_stage2 s).error = error_code.UNINITIALIZED ∧
    (init_stage2 s).tape = s.tape ∧
    (init_stage2 s).string_buf = s.string_buf ∧
    (init_stage2 s).containing_scope = s.containing_scope ∧
    init_stage2 (init_stage2 s) = init_stage2 s :=
  ⟨rfl, rfl, rfl, rfl, rfl, rfl, rfl, rfl⟩

/-- C10, as stated, fails: after `init_stage2` and the well-formed sequence
`on_start_document(0)`, `on_null_atom`, `increment_count(0)`, `on_end_document(0)`,
with no `on_error` call, the parse is not marked successful: `valid` is still
`false` (and `error` is still `UNINITIALIZED`). -/
theorem on_end_document_does_not_mark_success :
    ¬ ((run ascii_tags (init_stage2 blank)
          (document_calls [node.leaf leaf.null_atom, node.count])).valid = true ∧
       (run ascii_tags (init_stage2 blank)
          (document_calls [node.leaf leaf.null_atom, node.count])).error = error_code.SUCCESS) := by
  intro h
  have hv := (run_flags ascii_tags _ (init_stage2 blank)
    (document_calls_plain [node.leaf leaf.null_atom, node.count])).1
  rw [hv] at h
  exact absurd h.1 (by decide)

/-- C10, amended: after `init_stage2` and a well-formed callback sequence (which
contains neither `on_error` nor `on_success`), ending with `on_end_document(0)`,
the flags are as `init_stage2` left them, `valid = false` and
`error = UNINITIALIZED`; the separate call `on_success(SUCCESS)` is what marks
the parse successful, setting `valid = true` and `error = SUCCESS` and returning
`SUCCESS`. -/
theorem success_is_marked_by_on_success (tc : tape_type → Nat) (s : parser) (body : List node) :
    (run tc (init_stage2 s) (document_calls body)).valid = false ∧
    (run tc (init_stage2 s) (document_calls body)).error = error_code.UNINITIALIZED ∧
    (on_success (run tc (init_stage2 s) (document_calls body)) error_code.SUCCESS).1.valid = true ∧
    (on_success (run tc (init_stage2 s) (document_calls body)) error_code.SUCCESS).1.error
      = error_code.SUCCESS ∧
    (on_success (run tc (init_stage2 s) (document_calls body)) error_code.SUCCESS).2
      = error_code.SUCCESS := by
  have h := run_flags tc _ (init_stage2 s) (document_calls_plain body)
  exact ⟨h.1, h.2, rfl, rfl, rfl⟩

/-! ## Numbers -/

theorem next_loc_ne (c : Nat) : (c + 1) % 2 ^ 32 ≠ c := by
  omega

theorem number_words (tc : tape_type → Nat) (s : parser) (t : tape_type) (w : Nat) :
    let s' : parser :=
      { write_tape tc s 0 t with
        tape := Function.update (write_tape tc s 0 t).tape (write_tape tc s 0 t).current_loc w
        current_loc := ((write_tape tc s 0 t).current_loc + 1) % 2 ^ 32 }
    s'.current_loc = (s.current_loc + 2) % 2 ^ 32 ∧
    word_tag (s'.tape s.current_loc) = tc t % 256 ∧
    word_payload (s'.tape s.current_loc) = 0 ∧
    s'.tape ((s.current_loc + 1) % 2 ^ 32) = w ∧
    (∀ i, i ≠ s.current_loc → i ≠ (s.current_loc + 1) % 2 ^ 32 → s'.tape i = s.tape i) ∧
    s'.string_buf = s.string_buf ∧
    s'.current_string_buf_loc = s.current_string_buf_loc := by
  intro s'
  have hne := next_loc_ne s.current_loc
  have hw : s'.tape s.current_loc = tag_word tc t := by
    simp only [s', write_tape, Nat.zero_or]
    rw [Function.update_noteq hne.symm, Function.update_same]
  refine ⟨?_, ?_, ?_, ?_, ?_, rfl, rfl⟩
  · simp only [s', write_tape]
    omega
  · rw [hw, word_tag_eq, tag_word_eq]
    have : tc t % 256 < 256 := Nat.mod_lt _ (by decide)
    norm_num
  · rw [hw, word_payload_eq, tag_word_eq]
    norm_num
  · simp only [s', write_tape]
    rw [Function.update_same]
  · intro i h1 h2
    simp only [s', write_tape]
    rw [Function.update_noteq h2, Function.update_noteq h1]

/-- C7, as stated, fails at the end of the 32-bit tape index range: with the tape
cursor at `2 ^ 32 - 1`, `on_number_s64(-1)` writes its tag word at index
`2 ^ 32 - 1` and its second word (the pattern `2 ^ 64 - 1`) at index 0, and
leaves the `uint32_t` cursor at 1: the two words are not appended one after the
other and the cursor has not advanced by two. -/
theorem number_second_word_wraps :
    at_tape_end.current_loc = 2 ^ 32 - 1 ∧
    (on_number_s64 ascii_tags at_tape_end (-1)).current_loc = 1 ∧
    (on_number_s64 ascii_tags at_tape_end (-1)).current_loc ≠ at_tape_end.current_loc + 2 ∧
    (on_number_s64 ascii_tags at_tape_end (-1)).tape 0 = 2 ^ 64 - 1 ∧
    (on_number_s64 ascii_tags at_tape_end (-1)).tape (at_tape_end.current_loc + 1)
      = at_tape_end.tape (at_tape_end.current_loc + 1) ∧
    at_tape_end.tape (at_tape_end.current_loc + 1) = 0 := by
  refine ⟨rfl, by decide, by decide, by decide, by decide, rfl⟩

/-- C7, amended (number word pairing): for every parser state with room on the
tape for two words (the tape cursor plus 2 is below `2 ^ 32`), every `int64_t`
value `i` and all 64-bit patterns `u` (a `uint64_t`) and `d` (a `double`), each
of `on_number_s64(i)`, `on_number_u64(u)`, `on_number_double(d)` advances the
tape cursor by exactly two, writes at the old cursor a word with tag `INT64`,
`UINT64`, `DOUBLE` respectively and payload zero, writes at the old cursor plus
one the unchanged 64-bit pattern of the value (which read back as an `int64_t`
is `i`, resp. is `u`, is `d`), and changes no other tape word, nor the string
buffer and its cursor. -/
theorem number_word_pairing (tc : tape_type → Nat) (s : parser) (i : Int) (u d : Nat)
    (hroom : s.current_loc + 2 < 2 ^ 32) (hlo : -2 ^ 63 ≤ i) (hhi : i < 2 ^ 63) :
    ((on_number_s64 tc s i).current_loc = s.current_loc + 2 ∧
      word_tag ((on_number_s64 tc s i).tape s.current_loc) = tc tape_type.INT64 % 256 ∧
      word_payload ((on_number_s64 tc s i).tape s.current_loc) = 0 ∧
      (on_number_s64 tc s i).tape (s.current_loc + 1) = bits_of_int64 i ∧
      int64_of_bits ((on_number_s64 tc s i).tape (s.current_loc + 1)) = i ∧
      (∀ k, k ≠ s.current_loc → k ≠ s.current_loc + 1 →
        (on_number_s64 tc s i).tape k = s.tape k) ∧
      (on_number_s64 tc s i).string_buf = s.string_buf ∧
      (on_number_s64 tc s i).current_string_buf_loc = s.current_string_buf_loc) ∧
    ((on_number_u64 tc s u).current_loc = s.current_loc + 2 ∧
      word_tag ((on_number_u64 tc s u).tape s.current_loc) = tc tape_type.UINT64 % 256 ∧
      word_payload ((on_number_u64 tc s u).tape s.current_loc) = 0 ∧
      (on_number_u64 tc s u).tape (s.current_loc + 1) = u ∧
      (∀ k, k ≠ s.current_loc → k ≠ s.current_loc + 1 →
        (on_number_u64 tc s u).tape k = s.tape k) ∧
      (on_number_u64 tc s u).string_buf = s.string_buf ∧
      (on_number_u64 tc s u).current_string_buf_loc = s.current_string_buf_loc) ∧
    ((on_number_double tc s d).current_loc = s.current_loc + 2 ∧
      word_tag ((on_number_double tc s d).tape s.current_loc) = tc tape_type.DOUBLE % 256 ∧
      word_payload ((on_number_double tc s d).tape s.current_loc) = 0 ∧
      (on_number_double tc s d).tape (s.current_loc + 1) = d ∧
      (∀ k, k ≠ s.current_loc → k ≠ s.current_loc + 1 →
        (on_number_double tc s d).tape k = s.tape k) ∧
      (on_number_double tc s d).string_buf = s.string_buf ∧
      (on_number_double tc s d).current_string_buf_loc = s.current_string_buf_loc) := by
  have m1 : (s.current_loc + 1) % 2 ^ 32 = s.current_loc + 1 := Nat.mod_eq_of_lt (by omega)
  have m2 : (s.current_loc + 2) % 2 ^ 32 = s.current_loc + 2 := Nat.mod_eq_of_lt hroom
  have a := number_words tc s tape_type.INT64 (bits_of_int64 i)
  have b := number_words tc s tape_type.UINT64 u
  have c := number_words tc s tape_type.DOUBLE d
  rw [m1, m2] at a b c
  obtain ⟨a1, a2, a3, a4, a5, a6, a7⟩ := a
  refine ⟨⟨a1, a2, a3, a4, ?_, a5, a6, a7⟩, b, c⟩
  have e : (on_number_s64 tc s i).tape (s.current_loc + 1) = bits_of_int64 i := a4
  rw [e]
  exact int64_of_bits_of_int64 i hlo hhi

/-- Witness for C7 amended on the state `dirty` (tape cursor 9): the `int64_t`
value `-1`, the `uint64_t` value `2 ^ 64 - 1` and the bit pattern of a NaN. -/
theorem number_word_pairing_witness :
    (dirty.current_loc + 2 < 2 ^ 32 ∧ (-2 : Int) ^ 63 ≤ -1 ∧ (-1 : Int) < 2 ^ 63) ∧
    int64_of_bits ((on_number_s64 ascii_tags dirty (-1)).tape 10) = -1 ∧
    (on_number_u64 ascii_tags dirty (2 ^ 64 - 1)).tape 10 = 2 ^ 64 - 1 ∧
    (on_number_double ascii_tags dirty 0x7FF8000000000000).tape 10 = 0x7FF8000000000000 ∧
    (on_number_s64 ascii_tags dirty (-1)).current_loc = 11 :=
  have h := number_word_pairing ascii_tags dirty (-1) (2 ^ 64 - 1) 0x7FF8000000000000
    (by decide) (by norm_num) (by norm_num)
  ⟨⟨by decide, by norm_num, by norm_num⟩, h.1.2.2.2.2.1, h.2.1.2.2.2.1, h.2.2.2.2.2.1, h.1.1⟩

/-! ## Strings -/

theorem store_bytes_outside (bs : List (Fin 256)) :
    ∀ (buf : Nat → Nat) (p i : Nat), (i < p ∨ p + bs.length ≤ i) → store_bytes buf p bs i = buf i := by
  induction bs with
  | nil => intro buf p i _; rfl
  | cons b rest ih =>
    intro buf p i h
    simp only [store_bytes, List.length_cons] at h ⊢
    rw [ih _ _ _ (by omega), Function.update_noteq (by omega)]

theorem store_bytes_inside (bs : List (Fin 256)) :
    ∀ (buf : Nat → Nat) (p k : Nat) (h : k < bs.length),
      store_bytes buf p bs (p + k) = (bs.get ⟨k, h⟩).val := by
  induction bs with
  | nil => intro buf p k h; exact absurd h (Nat.not_lt_zero _)
  | cons b rest ih =>
    intro buf p k h
    cases k with
    | zero =>
      simp only [store_bytes, Nat.add_zero]
      rw [store_bytes_outside _ _ _ _ (Or.inl (Nat.lt_succ_self p)), Function.update_same]
      rfl
    | succ k =>
      simp only [store_bytes]
      have h' : k < rest.length := by simpa using h
      have e : p + (k + 1) = (p + 1) + k := by omega
      rw [e, ih _ _ _ h']
      rfl

theorem prev_loc_write_tape (tc : tape_type → Nat) (s : parser) (v : Nat) (t : tape_type)
    (hc : s.current_loc < 2 ^ 32) : prev_loc (write_tape tc s v t) = s.current_loc := by
  simp only [prev_loc, write_tape]
  omega

theorem str_length_of_add (s : parser) (n : Nat) (h : n < 2 ^ 32) :
    str_length_of s (s.current_string_buf_loc + n) = n := by
  unfold str_length_of
  have e : ((s.current_string_buf_loc + n : Nat) : Int) - (s.current_string_buf_loc : Int) = (n : Int) := by
    push_cast
    omega
  rw [e]
  have : (n : Int) % 2 ^ 32 = (n : Int) := Int.emod_eq_of_lt (by omega) (by exact_mod_cast h)
  rw [this]
  exact Int.toNat_ofNat n

theorem or_three_fields (lo mid hi : Nat) (h1 : lo < 2 ^ 32) (h2 : mid < 2 ^ 24) :
    (lo ||| (hi <<< 56)) ||| (mid <<< 32) = lo + mid * 2 ^ 32 + hi * 2 ^ 56 := by
  have e : (lo ||| (hi <<< 56)) ||| (mid <<< 32) = (lo ||| (mid <<< 32)) ||| (hi <<< 56) := by
    rw [Nat.or_assoc, Nat.or_comm (hi <<< 56), ← Nat.or_assoc]
  rw [e, or_shift_eq_add lo mid 32 h1, or_shift_eq_add _ hi 56 (by omega)]

theorem on_end_string_short (tc : tape_type → Nat) (s : parser) (dst : Nat)
    (h : str_length_of s dst ≤ 0x7fffff) :
    on_end_string tc s dst =
      { s with
        tape := Function.update s.tape (prev_loc s)
          (s.tape (prev_loc s) ||| (str_length_of s dst <<< 32))
        string_buf := Function.update s.string_buf dst 0
        current_string_buf_loc := dst + 1 } := by
  simp [on_end_string, h]

theorem on_end_string_long (tc : tape_type → Nat) (s : parser) (dst : Nat)
    (h : 0x7fffff < str_length_of s dst) :
    on_end_string tc s dst =
      { s with
        tape := Function.update s.tape (prev_loc s)
          ((((s.tape (prev_loc s) &&& 0xFFFFFFFF) + 2) % 2 ^ 64
              ||| ((0x800000 ||| (str_length_of s dst >>> 9)) <<< 32))
            ||| tag_word tc tape_type.STRING)
        string_buf := Function.update
          (Function.update
            (Function.update
              (memmove s.string_buf (s.current_string_buf_loc + 2) s.current_string_buf_loc
                (str_length_of s dst))
              s.current_string_buf_loc ((32 + ((str_length_of s dst &&& 0x1f0) >>> 4)) % 256))
            (s.current_string_buf_loc + 1) ((32 + (str_length_of s dst &&& 0xf)) % 256))
          (dst + 2) 0
        current_string_buf_loc := dst + 2 + 1 } := by
  have h' : ¬ str_length_of s dst ≤ 0x7fffff := Nat.not_le.mpr h
  simp only [on_end_string, h', if_false]

theorem short_string_state (tc : tape_type → Nat) (s : parser) (bs : List (Fin 256))
    (hc : s.current_loc < 2 ^ 32) (hlen : bs.length ≤ 0x7fffff) :
    on_string tc s bs =
      { s with
        tape := Function.update s.tape s.current_loc
          ((s.current_string_buf_loc % 2 ^ 32 ||| tag_word tc tape_type.STRING)
            ||| (bs.length <<< 32))
        string_buf := Function.update (store_bytes s.string_buf s.current_string_buf_loc bs)
          (s.current_string_buf_loc + bs.length) 0
        current_string_buf_loc := s.current_string_buf_loc + bs.length + 1
        current_loc := (s.current_loc + 1) % 2 ^ 32 } := by
  have hl : str_length_of (unescape (on_start_string tc s).1 (on_start_string tc s).2 bs)
      ((on_start_string tc s).2 + bs.length) = bs.length :=
    str_length_of_add (unescape (on_start_string tc s).1 (on_start_string tc s).2 bs) _ (by omega)
  have hprev : prev_loc (unescape (on_start_string tc s).1 (on_start_string tc s).2 bs)
      = s.current_loc := prev_loc_write_tape tc s (s.current_string_buf_loc % 2 ^ 32) tape_type.STRING hc
  unfold on_string
  rw [on_end_string_short tc _ _ (by rw [hl]; exact hlen), hl, hprev]
  simp [unescape, on_start_string, write_tape]

theorem long_string_state (tc : tape_type → Nat) (s : parser) (bs : List (Fin 256))
    (hc : s.current_loc < 2 ^ 32) (hlen : 0x7fffff < bs.length) (hlt : bs.length < 2 ^ 32) :
    on_string tc s bs =
      { s with
        tape := Function.update s.tape s.current_loc
          (((((s.current_string_buf_loc % 2 ^ 32 ||| tag_word tc tape_type.STRING)
                &&& 0xFFFFFFFF) + 2) % 2 ^ 64
              ||| ((0x800000 ||| (bs.length >>> 9)) <<< 32))
            ||| tag_word tc tape_type.STRING)
        string_buf := Function.update
          (Function.update
            (Function.update
              (memmove (store_bytes s.string_buf s.current_string_buf_loc bs)
                (s.current_string_buf_loc + 2) s.current_string_buf_loc bs.length)
              s.current_string_buf_loc ((32 + ((bs.length &&& 0x1f0) >>> 4)) % 256))
            (s.current_string_buf_loc + 1) ((32 + (bs.length &&& 0xf)) % 256))
          (s.current_string_buf_loc + bs.length + 2) 0
        current_string_buf_loc := s.current_string_buf_loc + bs.length + 3
        current_loc := (s.current_loc + 1) % 2 ^ 32 } := by
  have hl : str_length_of (unescape (on_start_string tc s).1 (on_start_string tc s).2 bs)
      ((on_start_string tc s).2 + bs.length) = bs.length :=
    str_length_of_add (unescape (on_start_string tc s).1 (on_start_string tc s).2 bs) _ hlt
  have hprev : prev_loc (unescape (on_start_string tc s).1 (on_start_string tc s).2 bs)
      = s.current_loc :=
    prev_loc_write_tape tc s (s.current_string_buf_loc % 2 ^ 32) tape_type.STRING hc
  unfold on_string
  rw [on_end_string_long tc _ _ (by rw [hl]; exact hlen), hl, hprev]
  simp [unescape, on_start_string, write_tape]

theorem long_word_eq (tc : tape_type → Nat) (p len : Nat) (hp : p + 2 < 2 ^ 32)
    (hlt : len < 2 ^ 32) :
    ((((p % 2 ^ 32 ||| tag_word tc tape_type.STRING) &&& 0xFFFFFFFF) + 2) % 2 ^ 64
        ||| ((0x800000 ||| (len >>> 9)) <<< 32))
      ||| tag_word tc tape_type.STRING
      = (p + 2) + (2 ^ 23 + len / 2 ^ 9) * 2 ^ 32 + (tc tape_type.STRING % 256) * 2 ^ 56 := by
  have hc : tc tape_type.STRING % 256 < 256 := Nat.mod_lt _ (by decide)
  have h1 : p % 2 ^ 32 = p := Nat.mod_eq_of_lt (by omega)
  have h2 : (p ||| tag_word tc tape_type.STRING) &&& 0xFFFFFFFF = p := by
    rw [or_tag_word tc _ p (by omega)]
    exact (word_low32_eq _).trans (by omega)
  have h3 : (0x800000 : Nat) ||| (len >>> 9) = 2 ^ 23 + len / 2 ^ 9 := by
    have e : (0x800000 : Nat) = 1 <<< 23 := by decide
    rw [e, Nat.or_comm, Nat.shiftRight_eq_div_pow, or_shift_eq_add _ _ _ (by omega)]
    omega
  rw [h1, h2, h3, Nat.mod_eq_of_lt (by omega), or_shift_eq_add _ _ _ hp,
    or_tag_word tc _ _ (by omega)]

theorem and_0x1f0_shift (len : Nat) : (len &&& 0x1f0) >>> 4 = len / 2 ^ 4 % 2 ^ 5 := by
  apply Nat.eq_of_testBit_eq
  intro i
  have e : (0x1f0 : Nat) = (2 ^ 5 - 1) <<< 4 := by decide
  rw [Nat.testBit_shiftRight, Nat.testBit_and, e, Nat.testBit_shiftLeft,
    Nat.testBit_two_pow_sub_one, Nat.testBit_mod_two_pow, ← Nat.shiftRight_eq_div_pow,
    Nat.testBit_shiftRight]
  have h4 : 4 + i ≥ 4 := by omega
  have h5 : 4 + i - 4 = i := by omega
  simp only [h4, h5, decide_True, Bool.true_and]
  exact Bool.and_comm _ _

theorem and_0xf (len : Nat) : len &&& 0xf = len % 2 ^ 4 := by
  have h : (0xf : Nat) = 2 ^ 4 - 1 := by norm_num
  rw [h, Nat.and_pow_two_sub_one_eq_mod]

theorem and_0x7fffff (w : Nat) : w &&& 0x7fffff = w % 2 ^ 23 := by
  have h : (0x7fffff : Nat) = 2 ^ 23 - 1 := by norm_num
  rw [h, Nat.and_pow_two_sub_one_eq_mod]

theorem length_from_parts (hi mid lo : Nat) (h1 : lo < 2 ^ 4) (h2 : mid < 2 ^ 5) :
    ((hi <<< 9) ||| (mid <<< 4)) ||| lo = lo + mid * 2 ^ 4 + hi * 2 ^ 9 := by
  rw [Nat.or_comm, Nat.or_comm (hi <<< 9), ← Nat.or_assoc, or_shift_eq_add lo mid 4 h1,
    or_shift_eq_add _ hi 9 (by omega)]

/-- C5, as stated, fails at the end of the 32-bit offset range: with the string
cursor at `p = 2 ^ 32 - 1` (below `2 ^ 32`) and the empty string (`len = 0`),
the string cursor after `on_end_string` is `p + len + 1 = 2 ^ 32`, but the offset
the next `on_start_string` records in its `STRING` word is `0`. -/
theorem next_string_offset_wraps :
    at_buffer_end.current_string_buf_loc < 2 ^ 32 ∧
    ([] : List (Fin 256)).length ≤ 0x7fffff ∧
    (on_string ascii_tags at_buffer_end []).current_string_buf_loc = 2 ^ 32 ∧
    word_low32 ((on_start_string ascii_tags (on_string ascii_tags at_buffer_end [])).1.tape
      (on_string ascii_tags at_buffer_end []).current_loc) = 0 ∧
    word_low32 ((on_start_string ascii_tags (on_string ascii_tags at_buffer_end [])).1.tape
      (on_string ascii_tags at_buffer_end []).current_loc)
      ≠ (on_string ascii_tags at_buffer_end []).current_string_buf_loc := by
  decide

/-- C5, amended (short string encoding): for every state whose tape cursor is a
`uint32_t`, every string cursor offset `p < 2 ^ 32` and every content of length
`len ≤ 0x7fffff` (0 and 100 included), `on_start_string`, the collaborator
writing the content at `p`, and `on_end_string(p + len)` leave the `STRING`
word equal to `(STRING tag << 56) | (len << 32) | p` (tag `STRING`, bits 32-55
`len`, low 32 bits `p`), the content at offsets `[p, p + len)`, a zero byte at
`p + len`, and the string cursor at `p + len + 1`; when moreover
`p + len + 1 < 2 ^ 32`, that is the offset the next `on_start_string` records. -/
theorem short_string_encoding (tc : tape_type → Nat) (s : parser) (bs : List (Fin 256))
    (hc : s.current_loc < 2 ^ 32) (hp : s.current_string_buf_loc < 2 ^ 32)
    (hlen : bs.length ≤ 0x7fffff) :
    (on_string tc s bs).tape s.current_loc
      = (tag_word tc tape_type.STRING ||| (bs.length <<< 32)) ||| s.current_string_buf_loc ∧
    word_tag ((on_string tc s bs).tape s.current_loc) = tc tape_type.STRING % 256 ∧
    word_count ((on_string tc s bs).tape s.current_loc) = bs.length ∧
    word_low32 ((on_string tc s bs).tape s.current_loc) = s.current_string_buf_loc ∧
    (∀ k (h : k < bs.length),
      (on_string tc s bs).string_buf (s.current_string_buf_loc + k) = (bs.get ⟨k, h⟩).val) ∧
    (on_string tc s bs).string_buf (s.current_string_buf_loc + bs.length) = 0 ∧
    (on_string tc s bs).current_string_buf_loc = s.current_string_buf_loc + bs.length + 1 ∧
    (s.current_string_buf_loc + bs.length + 1 < 2 ^ 32 →
      word_low32 ((on_start_string tc (on_string tc s bs)).1.tape (on_string tc s bs).current_loc)
        = s.current_string_buf_loc + bs.length + 1) := by
  have hst := short_string_state tc s bs hc hlen
  have hmod : s.current_string_buf_loc % 2 ^ 32 = s.current_string_buf_loc := Nat.mod_eq_of_lt hp
  have htag : tc tape_type.STRING % 256 < 256 := Nat.mod_lt _ (by decide)
  have hw : (on_string tc s bs).tape s.current_loc
      = s.current_string_buf_loc + bs.length * 2 ^ 32 + (tc tape_type.STRING % 256) * 2 ^ 56 := by
    rw [hst]
    simp only [Function.update_same]
    rw [hmod, tag_word_eq, ← Nat.shiftLeft_eq, or_three_fields _ _ _ hp (by omega),
      Nat.shiftLeft_eq]
  refine ⟨?_, ?_, ?_, ?_, ?_, ?_, ?_, ?_⟩
  · rw [hst]
    simp only [Function.update_same]
    rw [hmod, Nat.or_comm (tag_word tc tape_type.STRING ||| bs.length <<< 32), Nat.or_assoc]
  · rw [hw, word_tag_eq]
    omega
  · rw [hw, word_count_eq]
    omega
  · rw [hw, word_low32_eq]
    omega
  · intro k h
    rw [hst]
    simp only []
    rw [Function.update_noteq (by omega), store_bytes_inside]
  · rw [hst]
    simp only [Function.update_same]
  · rw [hst]
  · intro hnext
    rw [hst]
    simp only [on_start_string, write_tape, Function.update_same]
    rw [or_tag_word tc _ _ (by omega), word_low32_eq]
    omega

/-- Witness for C5: a string of 100 bytes written at string cursor 17 on the
state `dirty`. -/
theorem short_string_encoding_witness :
    (dirty.current_loc < 2 ^ 32 ∧ dirty.current_string_buf_loc < 2 ^ 32 ∧
      (List.replicate 100 (7 : Fin 256)).length ≤ 0x7fffff) ∧
    word_count ((on_string ascii_tags dirty (List.replicate 100 (7 : Fin 256))).tape 9) = 100 ∧
    word_low32 ((on_string ascii_tags dirty (List.replicate 100 (7 : Fin 256))).tape 9) = 17 ∧
    (on_string ascii_tags dirty (List.replicate 100 (7 : Fin 256))).string_buf 117 = 0 ∧
    (on_string ascii_tags dirty (List.replicate 100 (7 : Fin 256))).current_string_buf_loc = 118 ∧
    word_low32 ((on_start_string ascii_tags
        (on_string ascii_tags dirty (List.replicate 100 (7 : Fin 256)))).1.tape
      (on_string ascii_tags dirty (List.replicate 100 (7 : Fin 256))).current_loc) = 118 :=
  have h := short_string_encoding ascii_tags dirty (List.replicate 100 (7 : Fin 256))
    (by decide) (by decide) (by decide)
  ⟨⟨by decide, by decide, by decide⟩, h.2.2.1, h.2.2.2.1, h.2.2.2.2.2.1, h.2.2.2.2.2.2.1,
    h.2.2.2.2.2.2.2 (by decide)⟩

/-- C6 (long string round trip): for every state whose tape cursor is a
`uint32_t`, every start offset `p` and every content of length `len` with
`0x7fffff < len` and `p + len + 3 ≤ 2 ^ 32`, after `on_start_string`, the
content written at `p`, and `on_end_string(p + len)`: the `STRING` word keeps its
tag and has low 32 bits `p + 2`; the length recomputed as
`((bits 32-54) << 9) | ((buffer[p] - 32) << 4) | (buffer[p+1] - 32)` is `len`;
the bytes at `[p + 2, p + 2 + len)` are the content in order;
`buffer[p + 2 + len] = 0`; every byte below `p` is unchanged; and the string
cursor is `p + len + 3`. -/
theorem long_string_round_trip (tc : tape_type → Nat) (s : parser) (bs : List (Fin 256))
    (hc : s.current_loc < 2 ^ 32) (hlen : 0x7fffff < bs.length)
    (hb : s.current_string_buf_loc + bs.length + 3 ≤ 2 ^ 32) :
    word_tag ((on_string tc s bs).tape s.current_loc) = tc tape_type.STRING % 256 ∧
    word_low32 ((on_string tc s bs).tape s.current_loc) = s.current_string_buf_loc + 2 ∧
    ((((((on_string tc s bs).tape s.current_loc) >>> 32) &&& 0x7fffff) <<< 9)
        ||| (((on_string tc s bs).string_buf s.current_string_buf_loc - 32) <<< 4))
      ||| ((on_string tc s bs).string_buf (s.current_string_buf_loc + 1) - 32) = bs.length ∧
    (∀ k (h : k < bs.length),
      (on_string tc s bs).string_buf (s.current_string_buf_loc + 2 + k) = (bs.get ⟨k, h⟩).val) ∧
    (on_string tc s bs).string_buf (s.current_string_buf_loc + 2 + bs.length) = 0 ∧
    (∀ i, i < s.current_string_buf_loc → (on_string tc s bs).string_buf i = s.string_buf i) ∧
    (on_string tc s bs).current_string_buf_loc = s.current_string_buf_loc + bs.length + 3 := by
  have hst := long_string_state tc s bs hc hlen (by omega)
  have htag : tc tape_type.STRING % 256 < 256 := Nat.mod_lt _ (by decide)
  have hw : (on_string tc s bs).tape s.current_loc
      = (s.current_string_buf_loc + 2) + (2 ^ 23 + bs.length / 2 ^ 9) * 2 ^ 32
        + (tc tape_type.STRING % 256) * 2 ^ 56 := by
    rw [hst]
    simp only [Function.update_same]
    exact long_word_eq tc _ _ (by omega) (by omega)
  have hb0 : (on_string tc s bs).string_buf s.current_string_buf_loc
      = 32 + bs.length / 2 ^ 4 % 2 ^ 5 := by
    rw [hst]
    simp only []
    rw [Function.update_noteq (by omega), Function.update_noteq (by omega),
      Function.update_same, and_0x1f0_shift]
    omega
  have hb1 : (on_string tc s bs).string_buf (s.current_string_buf_loc + 1)
      = 32 + bs.length % 2 ^ 4 := by
    rw [hst]
    simp only []
    rw [Function.update_noteq (by omega), Function.update_same, and_0xf]
    omega
  refine ⟨?_, ?_, ?_, ?_, ?_, ?_, ?_⟩
  · rw [hw, word_tag_eq]
    omega
  · rw [hw, word_low32_eq]
    omega
  · rw [hb0, hb1, hw, Nat.shiftRight_eq_div_pow, and_0x7fffff,
      Nat.add_sub_cancel_left, Nat.add_sub_cancel_left,
      length_from_parts _ _ _ (Nat.mod_lt _ (by decide)) (Nat.mod_lt _ (by decide))]
    omega
  · intro k h
    rw [hst]
    simp only []
    rw [Function.update_noteq (by omega), Function.update_noteq (by omega),
      Function.update_noteq (by omega)]
    unfold memmove
    rw [if_pos (by omega)]
    have e : s.current_string_buf_loc + 2 + k - (s.current_string_buf_loc + 2) = k := by omega
    rw [e, store_bytes_inside]
  · rw [hst]
    simp only []
    have e : s.current_string_buf_loc + 2 + bs.length = s.current_string_buf_loc + bs.length + 2 := by
      omega
    rw [e, Function.update_same]
  · intro i hi
    rw [hst]
    simp only []
    rw [Function.update_noteq (by omega), Function.update_noteq (by omega),
      Function.update_noteq (by omega)]
    unfold memmove
    rw [if_neg (by omega), store_bytes_outside _ _ _ _ (Or.inl hi)]
  · rw [hst]

/-- Witness for C6: a string of `0x800000` bytes, one more than the inline limit,
written at string cursor 17 on the state `dirty`. -/
theorem long_string_round_trip_witness :
    (dirty.current_loc < 2 ^ 32 ∧ 0x7fffff < (List.replicate 0x800000 (7 : Fin 256)).length ∧
      dirty.current_string_buf_loc + (List.replicate 0x800000 (7 : Fin 256)).length + 3
        ≤ 2 ^ 32) ∧
    word_low32 ((on_string ascii_tags dirty (List.replicate 0x800000 (7 : Fin 256))).tape
      dirty.current_loc) = dirty.current_string_buf_loc + 2 ∧
    (on_string ascii_tags dirty (List.replicate 0x800000 (7 : Fin 256))).current_string_buf_loc
      = dirty.current_string_buf_loc + (List.replicate 0x800000 (7 : Fin 256)).length + 3 :=
  have h1 : dirty.current_loc < 2 ^ 32 := by decide
  have h2 : 0x7fffff < (List.replicate 0x800000 (7 : Fin 256)).length := by
    rw [List.length_replicate]; decide
  have h3 : dirty.current_string_buf_loc + (List.replicate 0x800000 (7 : Fin 256)).length + 3
      ≤ 2 ^ 32 := by
    rw [List.length_replicate]; decide
  have h := long_string_round_trip ascii_tags dirty (List.replicate 0x800000 (7 : Fin 256))
    h1 h2 h3
  ⟨⟨h1, h2, h3⟩, h.2.1, h.2.2.2.2.2.2⟩

/-! ## The effect of a well-formed content on tape and scopes -/

theorem run_append (tc : tape_type → Nat) (s : parser) (cs cs' : List callback) :
    run tc s (cs ++ cs') = run tc (run tc s cs) cs' := by
  simp [run, List.foldl_append]

theorem run_cons (tc : tape_type → Nat) (s : parser) (c : callback) (cs : List callback) :
    run tc s (c :: cs) = run tc (step tc s c) cs := rfl

theorem run_nil (tc : tape_type → Nat) (s : parser) : run tc s [] = s := rfl

theorem on_end_string_tape (tc : tape_type → Nat) (s : parser) (dst : Nat) :
    (on_end_string tc s dst).current_loc = s.current_loc ∧
    (on_end_string tc s dst).containing_scope = s.containing_scope ∧
    (∀ i, i ≠ prev_loc s → (on_end_string tc s dst).tape i = s.tape i) := by
  by_cases h : str_length_of s dst ≤ 0x7fffff
  · rw [on_end_string_short tc s dst h]
    refine ⟨rfl, rfl, fun i hi => ?_⟩
    dsimp only
    rw [Function.update_noteq hi]
  · rw [on_end_string_long tc s dst (Nat.lt_of_not_le h)]
    refine ⟨rfl, rfl, fun i hi => ?_⟩
    dsimp only
    rw [Function.update_noteq hi]

theorem on_string_tape (tc : tape_type → Nat) (s : parser) (bs : List (Fin 256))
    (hc : s.current_loc < 2 ^ 32) :
    (on_string tc s bs).current_loc = (s.current_loc + 1) % 2 ^ 32 ∧
    (on_string tc s bs).containing_scope = s.containing_scope ∧
    (∀ i, i ≠ s.current_loc → (on_string tc s bs).tape i = s.tape i) := by
  have h := on_end_string_tape tc (unescape (on_start_string tc s).1 (on_start_string tc s).2 bs)
    ((on_start_string tc s).2 + bs.length)
  have hprev : prev_loc (unescape (on_start_string tc s).1 (on_start_string tc s).2 bs)
      = s.current_loc :=
    prev_loc_write_tape tc s (s.current_string_buf_loc % 2 ^ 32) tape_type.STRING hc
  rw [hprev] at h
  refine ⟨h.1, h.2.1, fun i hi => ?_⟩
  have := h.2.2 i hi
  unfold on_string
  rw [this]
  exact Function.update_noteq hi _ _

theorem appends_word (tc : tape_type → Nat) (d : Nat) (s : parser) (v : Nat) (t : tape_type)
    (hc : s.current_loc + 1 < 2 ^ 32) : appends d 1 0 s (write_tape tc s v t) where
  loc := by simp only [write_tape]; omega
  tape_below := fun i hi => by
    simp only [write_tape]
    rw [Function.update_noteq (by omega)]
  tape_above := fun i hi => by
    simp only [write_tape]
    rw [Function.update_noteq (by omega)]
  scope_below := fun k _ => rfl
  scope_index := rfl
  scope_count := rfl
  count_typed := fun h => h

theorem appends_number (tc : tape_type → Nat) (d : Nat) (s : parser) (t : tape_type) (w : Nat)
    (hc : s.current_loc + 2 < 2 ^ 32) :
    appends d 2 0 s
      { write_tape tc s 0 t with
        tape := Function.update (write_tape tc s 0 t).tape (write_tape tc s 0 t).current_loc w
        current_loc := ((write_tape tc s 0 t).current_loc + 1) % 2 ^ 32 } where
  loc := by simp only [write_tape]; omega
  tape_below := fun i hi => by
    simp only [write_tape]
    rw [Function.update_noteq (by omega), Function.update_noteq (by omega)]
  tape_above := fun i hi => by
    simp only [write_tape]
    rw [Function.update_noteq (by omega), Function.update_noteq (by omega)]
  scope_below := fun k _ => rfl
  scope_index := rfl
  scope_count := rfl
  count_typed := fun h => h

theorem appends_leaf (tc : tape_type → Nat) (d : Nat) (l : leaf) (s : parser)
    (hc : s.current_loc + node.words (node.leaf l) < 2 ^ 32) :
    appends d (node.words (node.leaf l)) 0 s (step tc s l.call) := by
  cases l with
  | string bs =>
    have h := on_string_tape tc s bs (by omega)
    simp only [node.words] at hc ⊢
    exact
      { loc := by rw [leaf.call, step, h.1]; omega
        tape_below := fun i hi => h.2.2 i (by omega)
        tape_above := fun i hi => h.2.2 i (by omega)
        scope_below := fun k _ => by rw [leaf.call, step, h.2.1]
        scope_index := by rw [leaf.call, step, h.2.1]
        scope_count := by rw [leaf.call, step, h.2.1]; rfl
        count_typed := fun hk => by rw [leaf.call, step, h.2.1]; exact hk }
  | true_atom => exact appends_word tc d s 0 _ hc
  | false_atom => exact appends_word tc d s 0 _ hc
  | null_atom => exact appends_word tc d s 0 _ hc
  | number_s64 v => exact appends_number tc d s _ _ hc
  | number_u64 v => exact appends_number tc d s _ _ hc
  | number_double v => exact appends_number tc d s _ _ hc

theorem appends_refl (d : Nat) (s : parser) : appends d 0 0 s s where
  loc := rfl
  tape_below := fun _ _ => rfl
  tape_above := fun _ _ => rfl
  scope_below := fun _ _ => rfl
  scope_index := rfl
  scope_count := rfl
  count_typed := fun h => h

theorem appends_trans {d w1 n1 w2 n2 : Nat} {s1 s2 s3 : parser}
    (h1 : appends d w1 n1 s1 s2) (h2 : appends d w2 n2 s2 s3) :
    appends d (w1 + w2) (n1 + n2) s1 s3 where
  loc := by rw [h2.loc, h1.loc]; omega
  tape_below := fun i hi => by
    rw [h2.tape_below i (by rw [h1.loc]; omega), h1.tape_below i hi]
  tape_above := fun i hi => by
    rw [h2.tape_above i (by rw [h1.loc]; omega), h1.tape_above i (by omega)]
  scope_below := fun k hk => by rw [h2.scope_below k hk, h1.scope_below k hk]
  scope_index := by rw [h2.scope_index, h1.scope_index]
  scope_count := by
    have a := h1.scope_count
    have b := h2.scope_count
    omega
  count_typed := fun h => h2.count_typed (h1.count_typed h)

theorem appends_count (d : Nat) (s : parser) : appends d 0 1 s (increment_count s d) where
  loc := rfl
  tape_below := fun _ _ => rfl
  tape_above := fun _ _ => rfl
  scope_below := fun k hk => by
    simp only [increment_count]
    rw [Function.update_noteq (by omega)]
  scope_index := by simp [increment_count]
  scope_count := by simp [increment_count]
  count_typed := fun _ => by
    simp only [increment_count, Function.update_same]
    omega

theorem step_start (tc : tape_type → Nat) (s : parser) (k : scope_kind) (d : Nat) :
    step tc s (k.start_call d) = write_tape tc (open_scope s d) 0 k.open_tag := by
  cases k <;> rfl

theorem step_end (tc : tape_type → Nat) (s : parser) (k : scope_kind) (d : Nat) :
    step tc s (k.end_call d)
      = end_scope (write_tape tc s (s.containing_scope d).tape_index k.close_tag) d := by
  cases k <;> rfl

/-- The saturated count that `end_scope` computes from a `uint32_t` count. -/
theorem cntsat_eq (c : Nat) :
    (if c > 0xFFFFFF then 0xFFFFFF else c) = min c (2 ^ 24 - 1) := by
  split <;> omega

theorem close_scope (tc : tape_type → Nat) (k : scope_kind) (d w n : Nat) (s s2 : parser)
    (hcap : s.current_loc + (w + 2) < 2 ^ 32)
    (hb : appends d w n (step tc s (k.start_call d)) s2) :
    (step tc s2 (k.end_call d)).current_loc = s.current_loc + (w + 2) ∧
    (step tc s2 (k.end_call d)).tape (s.current_loc + w + 1)
      = s.current_loc ||| tag_word tc k.close_tag ∧
    (step tc s2 (k.end_call d)).tape s.current_loc
      = tag_word tc k.open_tag
        ||| ((s.current_loc + (w + 2)) ||| ((min (n % 2 ^ 32) (2 ^ 24 - 1)) <<< 32)) ∧
    (∀ i, i < s.current_loc → (step tc s2 (k.end_call d)).tape i = s.tape i) ∧
    (∀ i, s.current_loc + (w + 2) ≤ i → (step tc s2 (k.end_call d)).tape i = s.tape i) ∧
    (∀ i, s.current_loc < i → i < s.current_loc + w + 1 →
      (step tc s2 (k.end_call d)).tape i = s2.tape i) ∧
    (step tc s2 (k.end_call d)).containing_scope = s2.containing_scope ∧
    (step tc s2 (k.end_call d)).string_buf = s2.string_buf ∧
    (step tc s2 (k.end_call d)).current_string_buf_loc = s2.current_string_buf_loc := by
  rw [step_start] at hb
  have hloc : s2.current_loc = s.current_loc + 1 + w := by
    rw [hb.loc]
    simp only [write_tape, open_scope]
    omega
  have hidx : (s2.containing_scope d).tape_index = s.current_loc := by
    rw [hb.scope_index]
    simp [write_tape, open_scope]
  have hcnt : (s2.containing_scope d).count = n % 2 ^ 32 := by
    have h1 := hb.scope_count
    have h2 := hb.count_typed (by simp [write_tape, open_scope])
    simp only [write_tape, open_scope, Function.update_same, Nat.zero_add] at h1
    omega
  have hopen : s2.tape s.current_loc = tag_word tc k.open_tag := by
    rw [hb.tape_below _ (by simp only [write_tape, open_scope]; omega)]
    simp [write_tape, open_scope]
  have hs1 : ∀ i, i ≠ s.current_loc →
      (write_tape tc (open_scope s d) 0 k.open_tag).tape i = s.tape i := by
    intro i hi
    simp only [write_tape, open_scope]
    rw [Function.update_noteq hi]
  rw [step_end]
  simp only [end_scope, write_tape, hidx, hcnt, hloc, cntsat_eq]
  have hmod : (s.current_loc + 1 + w + 1) % 2 ^ 32 = s.current_loc + (w + 2) := by omega
  rw [hmod]
  refine ⟨rfl, ?_, ?_, ?_, ?_, ?_, by trivial⟩
  · rw [Function.update_noteq (by omega)]
    have e : s.current_loc + w + 1 = s.current_loc + 1 + w := by omega
    rw [e, Function.update_same]
  · rw [Function.update_same, Function.update_noteq (by omega), hopen]
  · intro i hi
    rw [Function.update_noteq (by omega), Function.update_noteq (by omega),
      hb.tape_below i (by simp only [write_tape, open_scope]; omega), hs1 i (by omega)]
  · intro i hi
    rw [Function.update_noteq (by omega), Function.update_noteq (by omega),
      hb.tape_above i (by simp only [write_tape, open_scope]; omega), hs1 i (by omega)]
  · intro i h1 h2
    rw [Function.update_noteq (by omega), Function.update_noteq (by omega)]

theorem appends_scope (tc : tape_type → Nat) (k : scope_kind) (p w n : Nat) (s s2 : parser)
    (hcap : s.current_loc + (w + 2) < 2 ^ 32)
    (hb : appends (p + 1) w n (step tc s (k.start_call (p + 1))) s2) :
    appends p (w + 2) 0 s (step tc s2 (k.end_call (p + 1))) := by
  obtain ⟨h1, _, _, h4, h5, _, h7, _, _⟩ := close_scope tc k (p + 1) w n s s2 hcap hb
  have hsc : ∀ j, j < p + 1 →
      (step tc s2 (k.end_call (p + 1))).containing_scope j = s.containing_scope j := by
    intro j hj
    rw [h7, hb.scope_below j hj, step_start]
    simp only [write_tape, open_scope]
    rw [Function.update_noteq (by omega)]
  exact
    { loc := h1
      tape_below := h4
      tape_above := h5
      scope_below := fun j hj => hsc j (by omega)
      scope_index := by rw [hsc p (by omega)]
      scope_count := by rw [hsc p (by omega)]; rfl
      count_typed := fun h => by rw [hsc p (by omega)]; exact h }

mutual
theorem appends_node (tc : tape_type → Nat) (p : Nat) :
    ∀ (n : node) (s : parser), s.current_loc + node.words n < 2 ^ 32 →
      appends p (node.words n) (node.counts [n]) s (run tc s (node.calls p n))
  | .leaf l, s, hc => by
    simp only [node.calls, run_cons, run_nil, node.counts]
    exact appends_leaf tc p l s hc
  | .count, s, _ => by
    simp only [node.calls, run_cons, run_nil, node.counts, node.words, step]
    exact appends_count p s
  | .object body, s, hc => by
    simp only [node.words] at hc
    simp only [node.calls, run_cons, run_append, run_nil, node.counts, node.words]
    have hb := appends_list tc (p + 1) body
      (step tc s (scope_kind.object.start_call (p + 1)))
      (by rw [step_start]; simp only [write_tape, open_scope]; omega)
    exact appends_scope tc scope_kind.object p _ _ s _ hc hb
  | .array body, s, hc => by
    simp only [node.words] at hc
    simp only [node.calls, run_cons, run_append, run_nil, node.counts, node.words]
    have hb := appends_list tc (p + 1) body
      (step tc s (scope_kind.array.start_call (p + 1)))
      (by rw [step_start]; simp only [write_tape, open_scope]; omega)
    exact appends_scope tc scope_kind.array p _ _ s _ hc hb
theorem appends_list (tc : tape_type → Nat) (p : Nat) :
    ∀ (ns : List node) (s : parser), s.current_loc + node.words_list ns < 2 ^ 32 →
      appends p (node.words_list ns) (node.counts ns) s (run tc s (node.calls_list p ns))
  | [], s, _ => by
    simp only [node.calls_list, run_nil, node.counts, node.words_list]
    exact appends_refl p s
  | n :: rest, s, hc => by
    simp only [node.words_list] at hc
    simp only [node.calls_list, run_append, node.words_list]
    have h1 := appends_node tc p n s (by omega)
    have h2 := appends_list tc p rest (run tc s (node.calls p n)) (by rw [h1.loc]; omega)
    have h := appends_trans h1 h2
    have e : node.counts (n :: rest) = node.counts [n] + node.counts rest := by
      cases n <;> simp [node.counts]
      omega
    rw [e]
    exact h
end

/-- The tape after one whole scope (start callback, content, end callback) run
from a state with room for its words: where the cursor ends, and the numeric
value of the close word and of the patched open word. -/
theorem scope_words (tc : tape_type → Nat) (k : scope_kind) (d : Nat) (body : List node)
    (s : parser) (hcap : s.current_loc + (node.words_list body + 2) < 2 ^ 32) :
    (run tc s (k.start_call d :: node.calls_list d body)).current_loc
      = s.current_loc + node.words_list body + 1 ∧
    (run tc s (scope_calls k d body)).current_loc = s.current_loc + node.words_list body + 2 ∧
    (run tc s (scope_calls k d body)).tape (s.current_loc + node.words_list body + 1)
      = s.current_loc + (tc k.close_tag % 256) * 2 ^ 56 ∧
    (run tc s (scope_calls k d body)).tape s.current_loc
      = (s.current_loc + node.words_list body + 2)
        + (min (node.counts body % 2 ^ 32) (2 ^ 24 - 1)) * 2 ^ 32
        + (tc k.open_tag % 256) * 2 ^ 56 ∧
    (∀ i, i < s.current_loc → (run tc s (scope_calls k d body)).tape i = s.tape i) ∧
    (∀ i, s.current_loc + (node.words_list body + 2) ≤ i →
      (run tc s (scope_calls k d body)).tape i = s.tape i) := by
  have hs1 : (step tc s (k.start_call d)).current_loc = s.current_loc + 1 := by
    rw [step_start]
    simp only [write_tape, open_scope]
    omega
  have hb := appends_list tc d body (step tc s (k.start_call d)) (by rw [hs1]; omega)
  obtain ⟨h1, h2, h3, h4, h5, _⟩ :=
    close_scope tc k d (node.words_list body) (node.counts body) s _ hcap hb
  have hrun : run tc s (scope_calls k d body)
      = step tc (run tc (step tc s (k.start_call d)) (node.calls_list d body)) (k.end_call d) := by
    simp only [scope_calls, run_cons, run_append, run_nil]
  rw [hrun]
  refine ⟨?_, ?_, ?_, ?_, h4, h5⟩
  · rw [run_cons, hb.loc, hs1]
    omega
  · rw [h1]
    omega
  · rw [h2, or_tag_word tc _ _ (by omega)]
  · rw [h3, Nat.or_comm, or_shift_eq_add _ _ _ (by omega), or_tag_word tc _ _ (by omega)]
    omega

theorem counts_replicate (n : Nat) : node.counts (List.replicate n node.count) = n := by
  induction n with
  | zero => rfl
  | succ n ih => simp [List.replicate_succ, node.counts, ih]

theorem words_replicate (n : Nat) : node.words_list (List.replicate n node.count) = 0 := by
  induction n with
  | zero => rfl
  | succ n ih => simp [List.replicate_succ, node.words_list, node.words, ih]

/-- C3, amended (backward link of a container): after `init_stage2` and any
calls `pre`, for a scope of any kind (document, object, array) opened at any
depth `d` with any well-formed content that fits the tape (the cursor at the
start callback plus the words of the scope stays below `2 ^ 32`), the end
callback is called with the cursor at `open + words + 1`, and
the word it appends there carries the tag `ROOT`, `END_OBJECT` or `END_ARRAY`
of its kind and the 56-bit payload `open`, the index at which the matching
start callback wrote the open word, whatever was opened and closed inside. -/
theorem close_word_links_back (tc : tape_type → Nat) (s0 : parser) (pre : List callback)
    (k : scope_kind) (d : Nat) (body : List node)
    (hcap : (run tc (init_stage2 s0) pre).current_loc + (node.words_list body + 2) < 2 ^ 32) :
    (run tc (run tc (init_stage2 s0) pre) (k.start_call d :: node.calls_list d body)).current_loc
      = (run tc (init_stage2 s0) pre).current_loc + node.words_list body + 1 ∧
    word_tag ((run tc (run tc (init_stage2 s0) pre) (scope_calls k d body)).tape
        ((run tc (init_stage2 s0) pre).current_loc + node.words_list body + 1))
      = tc k.close_tag % 256 ∧
    word_payload ((run tc (run tc (init_stage2 s0) pre) (scope_calls k d body)).tape
        ((run tc (init_stage2 s0) pre).current_loc + node.words_list body + 1))
      = (run tc (init_stage2 s0) pre).current_loc ∧
    word_tag ((run tc (run tc (init_stage2 s0) pre) (scope_calls k d body)).tape
        (run tc (init_stage2 s0) pre).current_loc)
      = tc k.open_tag % 256 := by
  obtain ⟨h1, _, h3, h4, _, _⟩ := scope_words tc k d body (run tc (init_stage2 s0) pre) hcap
  have ht1 : tc k.close_tag % 256 < 256 := Nat.mod_lt _ (by decide)
  have ht2 : tc k.open_tag % 256 < 256 := Nat.mod_lt _ (by decide)
  refine ⟨h1, ?_, ?_, ?_⟩
  · rw [h3, word_tag_eq]
    omega
  · rw [h3, word_payload_eq]
    omega
  · rw [h4, word_tag_eq]
    have := Nat.min_le_right (node.counts body % 2 ^ 32) (2 ^ 24 - 1)
    omega

/-- Witness for C3 amended: inside an open document, an array at depth 1 holding `null`
and an empty object. -/
theorem close_word_links_back_witness :
    (run ascii_tags (init_stage2 dirty) [callback.start_document 0]).current_loc
      + (node.words_list [node.leaf leaf.null_atom, node.count, node.object [], node.count] + 2)
      < 2 ^ 32 ∧
    word_payload ((run ascii_tags (run ascii_tags (init_stage2 dirty) [callback.start_document 0])
        (scope_calls scope_kind.array 1
          [node.leaf leaf.null_atom, node.count, node.object [], node.count])).tape
        ((run ascii_tags (init_stage2 dirty) [callback.start_document 0]).current_loc
          + node.words_list [node.leaf leaf.null_atom, node.count, node.object [], node.count]
          + 1))
      = (run ascii_tags (init_stage2 dirty) [callback.start_document 0]).current_loc :=
  ⟨by decide,
    (close_word_links_back ascii_tags dirty [callback.start_document 0] scope_kind.array 1
      [node.leaf leaf.null_atom, node.count, node.object [], node.count] (by decide)).2.2.1⟩

/-- C2, as stated, fails: in the document `null` (`on_start_document(0)`,
`on_null_atom`, `increment_count(0)`, `on_end_document(0)` after `init_stage2`)
the closing `ROOT` word is at tape index 2, and the low 32 bits of the open word
at index 0 are 3, the index after the close word. -/
theorem open_word_does_not_hold_close_index :
    word_tag ((run ascii_tags (init_stage2 blank)
      (document_calls [node.leaf leaf.null_atom, node.count])).tape 2)
        = ascii_tags tape_type.ROOT ∧
    (run ascii_tags (init_stage2 blank)
      (document_calls [node.leaf leaf.null_atom, node.count])).current_loc = 3 ∧
    word_low32 ((run ascii_tags (init_stage2 blank)
      (document_calls [node.leaf leaf.null_atom, node.count])).tape 0) = 3 ∧
    word_low32 ((run ascii_tags (init_stage2 blank)
      (document_calls [node.leaf leaf.null_atom, node.count])).tape 0) ≠ 2 := by
  decide

/-- C2, amended (forward link of a container): after `init_stage2` and any calls
`pre`, for a scope of any kind (document, object, array) opened at any depth `d`
with any well-formed content that fits the tape, once its end callback has run
the low 32 bits of its open word equal the tape index of its close word plus
one, which is the tape cursor after the end callback; the close word itself,
with the tag of its kind, is at the index just below. -/
theorem open_word_links_past_close (tc : tape_type → Nat) (s0 : parser) (pre : List callback)
    (k : scope_kind) (d : Nat) (body : List node)
    (hcap : (run tc (init_stage2 s0) pre).current_loc + (node.words_list body + 2) < 2 ^ 32) :
    word_tag ((run tc (run tc (init_stage2 s0) pre) (scope_calls k d body)).tape
        (run tc (init_stage2 s0) pre).current_loc)
      = tc k.open_tag % 256 ∧
    word_low32 ((run tc (run tc (init_stage2 s0) pre) (scope_calls k d body)).tape
        (run tc (init_stage2 s0) pre).current_loc)
      = ((run tc (init_stage2 s0) pre).current_loc + node.words_list body + 1) + 1 ∧
    (run tc (run tc (init_stage2 s0) pre) (scope_calls k d body)).current_loc
      = ((run tc (init_stage2 s0) pre).current_loc + node.words_list body + 1) + 1 ∧
    word_tag ((run tc (run tc (init_stage2 s0) pre) (scope_calls k d body)).tape
        ((run tc (init_stage2 s0) pre).current_loc + node.words_list body + 1))
      = tc k.close_tag % 256 := by
  obtain ⟨_, h2, h3, h4, _, _⟩ := scope_words tc k d body (run tc (init_stage2 s0) pre) hcap
  have ht1 : tc k.close_tag % 256 < 256 := Nat.mod_lt _ (by decide)
  have ht2 : tc k.open_tag % 256 < 256 := Nat.mod_lt _ (by decide)
  have hm := Nat.min_le_right (node.counts body % 2 ^ 32) (2 ^ 24 - 1)
  refine ⟨?_, ?_, h2, ?_⟩
  · rw [h4, word_tag_eq]
    omega
  · rw [h4, word_low32_eq]
    omega
  · rw [h3, word_tag_eq]
    omega

/-- Witness for C2 amended: inside an open document, an object at depth 1 with
one key and a nested array. -/
theorem open_word_links_past_close_witness :
    (run ascii_tags (init_stage2 dirty) [callback.start_document 0]).current_loc
      + (node.words_list [node.leaf (leaf.string [107]), node.count, node.array [], node.count]
        + 2) < 2 ^ 32 ∧
    word_low32 ((run ascii_tags (run ascii_tags (init_stage2 dirty) [callback.start_document 0])
        (scope_calls scope_kind.object 1
          [node.leaf (leaf.string [107]), node.count, node.array [], node.count])).tape
        (run ascii_tags (init_stage2 dirty) [callback.start_document 0]).current_loc)
      = ((run ascii_tags (init_stage2 dirty) [callback.start_document 0]).current_loc
          + node.words_list [node.leaf (leaf.string [107]), node.count, node.array [], node.count]
          + 1) + 1 :=
  ⟨by decide,
    (open_word_links_past_close ascii_tags dirty [callback.start_document 0] scope_kind.object 1
      [node.leaf (leaf.string [107]), node.count, node.array [], node.count] (by decide)).2.1⟩

/-- The count field of the patched open word of a scope, for any number of
`increment_count` calls: the `uint32_t` count, saturated at `2 ^ 24 - 1`. -/
theorem scope_count_field (tc : tape_type → Nat) (k : scope_kind) (d : Nat) (body : List node)
    (s : parser) (hcap : s.current_loc + (node.words_list body + 2) < 2 ^ 32) :
    word_count ((run tc s (scope_calls k d body)).tape s.current_loc)
      = min (node.counts body % 2 ^ 32) (2 ^ 24 - 1) := by
  obtain ⟨_, _, _, h4, _, _⟩ := scope_words tc k d body s hcap
  have ht : tc k.open_tag % 256 < 256 := Nat.mod_lt _ (by decide)
  have hm := Nat.min_le_right (node.counts body % 2 ^ 32) (2 ^ 24 - 1)
  rw [h4, word_count_eq]
  omega

/-- C4, as stated, fails: an array whose start and end callbacks at depth 0 have
exactly `2 ^ 32` calls of `increment_count(0)` between them reports the count 0
in bits 32-55 of its open word, not the saturated `2 ^ 24 - 1`: the `uint32_t`
count has wrapped around. -/
theorem count_wraps_at_two_pow_32 :
    node.counts (List.replicate (2 ^ 32) node.count) = 2 ^ 32 ∧
    (2 : Nat) ^ 24 ≤ 2 ^ 32 ∧
    word_count ((run ascii_tags (init_stage2 blank)
      (scope_calls scope_kind.array 0 (List.replicate (2 ^ 32) node.count))).tape 0) = 0 ∧
    word_count ((run ascii_tags (init_stage2 blank)
      (scope_calls scope_kind.array 0 (List.replicate (2 ^ 32) node.count))).tape 0)
      ≠ 2 ^ 24 - 1 := by
  have hcap : (init_stage2 blank).current_loc
      + (node.words_list (List.replicate (2 ^ 32) node.count) + 2) < 2 ^ 32 := by
    rw [words_replicate]
    decide
  have h := scope_count_field ascii_tags scope_kind.array 0
    (List.replicate (2 ^ 32) node.count) (init_stage2 blank) hcap
  have hc0 : (init_stage2 blank).current_loc = 0 := rfl
  rw [counts_replicate, hc0] at h
  have h0 : word_count ((run ascii_tags (init_stage2 blank)
      (scope_calls scope_kind.array 0 (List.replicate (2 ^ 32) node.count))).tape 0) = 0 := by
    exact h.trans (by decide)
  refine ⟨counts_replicate _, by decide, h0, ?_⟩
  rw [h0]
  decide

/-- C4, amended (count saturation): after `init_stage2` and any calls `pre`, for
a scope of any kind opened at any depth `d` with a well-formed content that fits
the tape and in which `increment_count(d)` is called exactly `n` times with
`n < 2 ^ 32` (the count is a `uint32_t`), bits 32-55 of the patched open word
equal `n` when `n ≤ 2 ^ 24 - 1` and `2 ^ 24 - 1` when `n ≥ 2 ^ 24`. -/
theorem count_saturates (tc : tape_type → Nat) (s0 : parser) (pre : List callback)
    (k : scope_kind) (d : Nat) (body : List node)
    (hcap : (run tc (init_stage2 s0) pre).current_loc + (node.words_list body + 2) < 2 ^ 32)
    (hn : node.counts body < 2 ^ 32) :
    (node.counts body ≤ 2 ^ 24 - 1 →
      word_count ((run tc (run tc (init_stage2 s0) pre) (scope_calls k d body)).tape
        (run tc (init_stage2 s0) pre).current_loc) = node.counts body) ∧
    (2 ^ 24 ≤ node.counts body →
      word_count ((run tc (run tc (init_stage2 s0) pre) (scope_calls k d body)).tape
        (run tc (init_stage2 s0) pre).current_loc) = 2 ^ 24 - 1) := by
  have h := scope_count_field tc k d body (run tc (init_stage2 s0) pre) hcap
  rw [h, Nat.mod_eq_of_lt hn]
  constructor
  · intro hle
    exact Nat.min_eq_left hle
  · intro hge
    exact Nat.min_eq_right (by omega)

/-- Witness for C4 amended: an array at depth 1 with exactly `2 ^ 24` calls of
`increment_count(1)` reports the saturated count `2 ^ 24 - 1`. -/
theorem count_saturates_witness :
    ((run ascii_tags (init_stage2 dirty) [callback.start_document 0]).current_loc
        + (node.words_list (List.replicate (2 ^ 24) node.count) + 2) < 2 ^ 32 ∧
      node.counts (List.replicate (2 ^ 24) node.count) < 2 ^ 32) ∧
    word_count ((run ascii_tags (run ascii_tags (init_stage2 dirty) [callback.start_document 0])
        (scope_calls scope_kind.array 1 (List.replicate (2 ^ 24) node.count))).tape
        (run ascii_tags (init_stage2 dirty) [callback.start_document 0]).current_loc)
      = 2 ^ 24 - 1 :=
  have h1 : (run ascii_tags (init_stage2 dirty) [callback.start_document 0]).current_loc
      + (node.words_list (List.replicate (2 ^ 24) node.count) + 2) < 2 ^ 32 := by
    rw [words_replicate]; decide
  have h2 : node.counts (List.replicate (2 ^ 24) node.count) < 2 ^ 32 := by
    rw [counts_replicate]; decide
  ⟨⟨h1, h2⟩,
    (count_saturates ascii_tags dirty [callback.start_document 0] scope_kind.array 1
      (List.replicate (2 ^ 24) node.count) h1 h2).2 (by rw [counts_replicate])⟩

/-! ## Two parses of the same callback sequence -/

theorem agree_mono {m m' : Nat} {a b : parser} (h : agree m a b) (hm : m' ≤ m) :
    agree m' a b where
  loc := h.loc
  buf_loc := h.buf_loc
  tape := h.tape
  buf := h.buf
  scope := fun k hk => h.scope k (by omega)
  index := fun k hk => h.index k (by omega)

theorem agree_write_tape (tc : tape_type → Nat) {m : Nat} {a b : parser} (h : agree m a b)
    (v : Nat) (t : tape_type) (hc : a.current_loc + 1 < 2 ^ 32) :
    agree m (write_tape tc a v t) (write_tape tc b v t) where
  loc := by simp only [write_tape, h.loc]
  buf_loc := h.buf_loc
  tape := fun i hi => by
    simp only [write_tape] at hi ⊢
    rw [← h.loc]
    by_cases e : i = a.current_loc
    · rw [e, Function.update_same, Function.update_same]
    · rw [Function.update_noteq e, Function.update_noteq e]
      exact h.tape i (by omega)
  buf := h.buf
  scope := h.scope
  index := fun k hk => by
    have := h.index k hk
    simp only [write_tape]
    omega

theorem agree_number (tc : tape_type → Nat) {m : Nat} {a b : parser} (h : agree m a b)
    (t : tape_type) (w : Nat) (hc : a.current_loc + 2 < 2 ^ 32) :
    agree m
      { write_tape tc a 0 t with
        tape := Function.update (write_tape tc a 0 t).tape (write_tape tc a 0 t).current_loc w
        current_loc := ((write_tape tc a 0 t).current_loc + 1) % 2 ^ 32 }
      { write_tape tc b 0 t with
        tape := Function.update (write_tape tc b 0 t).tape (write_tape tc b 0 t).current_loc w
        current_loc := ((write_tape tc b 0 t).current_loc + 1) % 2 ^ 32 } := by
  have h1 := agree_write_tape tc h 0 t (by omega)
  have hl : (write_tape tc a 0 t).current_loc = a.current_loc + 1 := by
    simp only [write_tape]; omega
  exact
    { loc := by simp only [h1.loc]
      buf_loc := h1.buf_loc
      tape := fun i hi => by
        have hb : (write_tape tc b 0 t).current_loc = (write_tape tc a 0 t).current_loc :=
          h1.loc.symm
        have hi' : i < a.current_loc + 2 := by
          have := hi
          simp only [write_tape] at this
          omega
        show Function.update (write_tape tc a 0 t).tape (write_tape tc a 0 t).current_loc w i
          = Function.update (write_tape tc b 0 t).tape (write_tape tc b 0 t).current_loc w i
        rw [hb]
        by_cases e : i = (write_tape tc a 0 t).current_loc
        · rw [e, Function.update_same, Function.update_same]
        · rw [Function.update_noteq e, Function.update_noteq e]
          exact h1.tape i (by omega)
      buf := h1.buf
      scope := h1.scope
      index := fun k hk => by
        have := h1.index k hk
        simp only [hl] at this ⊢
        omega }

theorem store_bytes_agree (bs : List (Fin 256)) (f g : Nat → Nat) (p : Nat)
    (h : ∀ j, j < p → f j = g j) :
    ∀ j, j < p + bs.length → store_bytes f p bs j = store_bytes g p bs j := by
  intro j hj
  by_cases hlt : j < p
  · rw [store_bytes_outside _ _ _ _ (Or.inl hlt), store_bytes_outside _ _ _ _ (Or.inl hlt)]
    exact h j hlt
  · have e : j = p + (j - p) := by omega
    have hk : j - p < bs.length := by omega
    rw [e, store_bytes_inside bs f p _ hk, store_bytes_inside bs g p _ hk]

theorem agree_string (tc : tape_type → Nat) {m : Nat} {a b : parser} (h : agree m a b)
    (bs : List (Fin 256)) (hc : a.current_loc + 1 < 2 ^ 32) (hlen : bs.length < 2 ^ 32) :
    agree m (on_string tc a bs) (on_string tc b bs) := by
  have hca : a.current_loc < 2 ^ 32 := by omega
  have hcb : b.current_loc < 2 ^ 32 := by rw [← h.loc]; exact hca
  have hsb := store_bytes_agree bs a.string_buf b.string_buf a.current_string_buf_loc h.buf
  by_cases hs : bs.length ≤ 0x7fffff
  · rw [short_string_state tc a bs hca hs, short_string_state tc b bs hcb hs]
    exact
      { loc := by simp only [h.loc]
        buf_loc := by simp only [h.buf_loc]
        tape := fun i hi => by
          simp only [] at hi ⊢
          rw [← h.loc, ← h.buf_loc]
          by_cases e : i = a.current_loc
          · rw [e, Function.update_same, Function.update_same]
          · rw [Function.update_noteq e, Function.update_noteq e]
            exact h.tape i (by omega)
        buf := fun j hj => by
          simp only [] at hj ⊢
          rw [← h.buf_loc]
          by_cases e : j = a.current_string_buf_loc + bs.length
          · rw [e, Function.update_same, Function.update_same]
          · rw [Function.update_noteq e, Function.update_noteq e]
            exact hsb j (by omega)
        scope := h.scope
        index := fun k hk => by
          have := h.index k hk
          simp only []
          omega }
  · have hl : 0x7fffff < bs.length := Nat.lt_of_not_le hs
    rw [long_string_state tc a bs hca hl hlen, long_string_state tc b bs hcb hl hlen]
    exact
      { loc := by simp only [h.loc]
        buf_loc := by simp only [h.buf_loc]
        tape := fun i hi => by
          simp only [] at hi ⊢
          rw [← h.loc, ← h.buf_loc]
          by_cases e : i = a.current_loc
          · rw [e, Function.update_same, Function.update_same]
          · rw [Function.update_noteq e, Function.update_noteq e]
            exact h.tape i (by omega)
        buf := fun j hj => by
          simp only [] at hj ⊢
          rw [← h.buf_loc]
          by_cases e1 : j = a.current_string_buf_loc + bs.length + 2
          · rw [e1, Function.update_same, Function.update_same]
          · rw [Function.update_noteq e1, Function.update_noteq e1]
            by_cases e2 : j = a.current_string_buf_loc + 1
            · rw [e2, Function.update_same, Function.update_same]
            · rw [Function.update_noteq e2, Function.update_noteq e2]
              by_cases e3 : j = a.current_string_buf_loc
              · rw [e3, Function.update_same, Function.update_same]
              · rw [Function.update_noteq e3, Function.update_noteq e3]
                unfold memmove
                by_cases e4 : a.current_string_buf_loc + 2 ≤ j ∧
                    j < a.current_string_buf_loc + 2 + bs.length
                · rw [if_pos e4, if_pos e4]
                  exact hsb _ (by omega)
                · rw [if_neg e4, if_neg e4]
                  exact hsb _ (by omega)
        scope := h.scope
        index := fun k hk => by
          have := h.index k hk
          simp only []
          omega }

theorem agree_leaf (tc : tape_type → Nat) {m : Nat} {a b : parser} (h : agree m a b) (l : leaf)
    (hc : a.current_loc + node.words (node.leaf l) < 2 ^ 32)
    (hr : node.room (node.leaf l) ≤ 2 ^ 32) :
    agree m (step tc a l.call) (step tc b l.call) := by
  cases l with
  | string bs =>
    simp only [node.room, string_room] at hr
    exact agree_string tc h bs hc (by split at hr <;> omega)
  | true_atom => exact agree_write_tape tc h 0 _ hc
  | false_atom => exact agree_write_tape tc h 0 _ hc
  | null_atom => exact agree_write_tape tc h 0 _ hc
  | number_s64 v => exact agree_number tc h _ _ hc
  | number_u64 v => exact agree_number tc h _ _ hc
  | number_double v => exact agree_number tc h _ _ hc

theorem agree_count {p : Nat} {a b : parser} (h : agree (p + 1) a b) :
    agree (p + 1) (increment_count a p) (increment_count b p) where
  loc := h.loc
  buf_loc := h.buf_loc
  tape := h.tape
  buf := h.buf
  scope := fun k hk => by
    simp only [increment_count]
    by_cases e : k = p
    · rw [e, Function.update_same, Function.update_same, h.scope p (by omega)]
    · rw [Function.update_noteq e, Function.update_noteq e]
      exact h.scope k hk
  index := fun k hk => by
    simp only [increment_count]
    by_cases e : k = p
    · rw [e, Function.update_same]
      exact h.index p (by omega)
    · rw [Function.update_noteq e]
      exact h.index k hk

theorem agree_start (tc : tape_type → Nat) (k : scope_kind) {d : Nat} {a b : parser}
    (h : agree d a b) (hc : a.current_loc + 1 < 2 ^ 32) :
    agree (d + 1) (step tc a (k.start_call d)) (step tc b (k.start_call d)) := by
  rw [step_start, step_start]
  exact
    { loc := by simp only [write_tape, open_scope, h.loc]
      buf_loc := h.buf_loc
      tape := fun i hi => by
        simp only [write_tape, open_scope] at hi ⊢
        rw [← h.loc]
        by_cases e : i = a.current_loc
        · rw [e, Function.update_same, Function.update_same]
        · rw [Function.update_noteq e, Function.update_noteq e]
          exact h.tape i (by omega)
      buf := h.buf
      scope := fun j hj => by
        simp only [write_tape, open_scope]
        by_cases e : j = d
        · rw [e, Function.update_same, Function.update_same, h.loc]
        · rw [Function.update_noteq e, Function.update_noteq e]
          exact h.scope j (by omega)
      index := fun j hj => by
        simp only [write_tape, open_scope]
        by_cases e : j = d
        · rw [e, Function.update_same]
          dsimp only
          omega
        · rw [Function.update_noteq e]
          have := h.index j (by omega)
          omega }

theorem agree_end (tc : tape_type → Nat) (k : scope_kind) {d : Nat} {a b : parser}
    (h : agree (d + 1) a b) (hc : a.current_loc + 1 < 2 ^ 32) :
    agree (d + 1) (step tc a (k.end_call d)) (step tc b (k.end_call d)) := by
  rw [step_end, step_end, ← h.scope d (by omega)]
  have h1 := agree_write_tape tc h (a.containing_scope d).tape_index k.close_tag hc
  have hsc := h1.scope d (by omega)
  have hix := h1.index d (by omega)
  exact
    { loc := h1.loc
      buf_loc := h1.buf_loc
      tape := fun i hi => by
        simp only [end_scope] at hi ⊢
        rw [← hsc, ← h1.loc]
        by_cases e : i = ((write_tape tc a (a.containing_scope d).tape_index
            k.close_tag).containing_scope d).tape_index
        · rw [e, Function.update_same, Function.update_same, h1.tape _ hix]
        · rw [Function.update_noteq e, Function.update_noteq e]
          exact h1.tape i hi
      buf := h1.buf
      scope := h1.scope
      index := h1.index }

mutual
theorem agree_node (tc : tape_type → Nat) (p : Nat) :
    ∀ (n : node) (a b : parser), agree (p + 1) a b →
      a.current_loc + node.words n < 2 ^ 32 → node.room n ≤ 2 ^ 32 →
      agree (p + 1) (run tc a (node.calls p n)) (run tc b (node.calls p n))
  | .leaf l, a, b, h, hc, hr => by
    simp only [node.calls, run_cons, run_nil]
    exact agree_leaf tc h l hc hr
  | .count, a, b, h, _, _ => by
    simp only [node.calls, run_cons, run_nil, step]
    exact agree_count h
  | .object body, a, b, h, hc, hr => by
    simp only [node.words] at hc
    simp only [node.room] at hr
    simp only [node.calls, run_cons, run_append, run_nil]
    have h1 : agree (p + 1 + 1) (step tc a (callback.start_object (p + 1)))
        (step tc b (callback.start_object (p + 1))) := agree_start tc scope_kind.object h (by omega)
    have l1 : (step tc a (callback.start_object (p + 1))).current_loc = a.current_loc + 1 := by
      simp only [step, on_start_object, write_tape, open_scope]; omega
    have h2 := agree_list tc (p + 1) body _ _ h1 (by rw [l1]; omega) hr
    have l2 := (appends_list tc (p + 1) body
      (step tc a (callback.start_object (p + 1))) (by rw [l1]; omega)).loc
    exact agree_mono (agree_end tc scope_kind.object h2 (by rw [l2, l1]; omega)) (by omega)
  | .array body, a, b, h, hc, hr => by
    simp only [node.words] at hc
    simp only [node.room] at hr
    simp only [node.calls, run_cons, run_append, run_nil]
    have h1 : agree (p + 1 + 1) (step tc a (callback.start_array (p + 1)))
        (step tc b (callback.start_array (p + 1))) := agree_start tc scope_kind.array h (by omega)
    have l1 : (step tc a (callback.start_array (p + 1))).current_loc = a.current_loc + 1 := by
      simp only [step, on_start_array, write_tape, open_scope]; omega
    have h2 := agree_list tc (p + 1) body _ _ h1 (by rw [l1]; omega) hr
    have l2 := (appends_list tc (p + 1) body
      (step tc a (callback.start_array (p + 1))) (by rw [l1]; omega)).loc
    exact agree_mono (agree_end tc scope_kind.array h2 (by rw [l2, l1]; omega)) (by omega)
theorem agree_list (tc : tape_type → Nat) (p : Nat) :
    ∀ (ns : List node) (a b : parser), agree (p + 1) a b →
      a.current_loc + node.words_list ns < 2 ^ 32 → node.room_list ns ≤ 2 ^ 32 →
      agree (p + 1) (run tc a (node.calls_list p ns)) (run tc b (node.calls_list p ns))
  | [], a, b, h, _, _ => by
    simp only [node.calls_list, run_nil]
    exact h
  | n :: rest, a, b, h, hc, hr => by
    simp only [node.words_list] at hc
    simp only [node.room_list] at hr
    simp only [node.calls_list, run_append]
    have h1 := agree_node tc p n a b h (by omega) (by omega)
    have l1 := (appends_node tc p n a (by omega)).loc
    exact agree_list tc p rest _ _ h1 (by rw [l1]; omega) (by omega)
end

theorem and_0x800000 (x : Nat) : x &&& 0x800000 = 0 ↔ x / 2 ^ 23 % 2 = 0 := by
  have e : (0x800000 : Nat) = 2 ^ 23 := by norm_num
  rw [e, Nat.and_two_pow, Nat.testBit_to_div_mod]
  by_cases h : x / 2 ^ 23 % 2 = 1
  · simp [h]
  · have : x / 2 ^ 23 % 2 = 0 := by omega
    simp [this]

theorem read_bytes_eq (bs : List (Fin 256)) :
    ∀ (buf : Nat → Nat) (p : Nat),
      (∀ k (h : k < bs.length), buf (p + k) = (bs.get ⟨k, h⟩).val) →
      read_bytes buf p bs.length = bs := by
  induction bs with
  | nil => intro buf p _; rfl
  | cons b rest ih =>
    intro buf p h
    simp only [List.length_cons, read_bytes]
    have h0 := h 0 (by simp)
    simp only [Nat.add_zero, List.get_eq_getElem, List.getElem_cons_zero] at h0
    have hrest : read_bytes buf (p + 1) rest.length = rest := by
      apply ih
      intro k hk
      have := h (k + 1) (by simp; omega)
      simp only [List.get_eq_getElem, List.getElem_cons_succ] at this ⊢
      rw [← this]
      congr 1
      omega
    rw [hrest]
    congr 1
    apply Fin.ext
    simp only [h0]
    exact Nat.mod_eq_of_lt b.isLt

theorem short_string_at (tc : tape_type → Nat) (s : parser) (bs : List (Fin 256))
    (hc : s.current_loc < 2 ^ 32) (hlen : bs.length ≤ 0x7fffff)
    (hp : s.current_string_buf_loc + bs.length + 1 ≤ 2 ^ 32) :
    (on_string tc s bs).tape s.current_loc >>> 56 = tag_code tc tape_type.STRING ∧
    string_at (on_string tc s bs).string_buf (s.current_string_buf_loc + bs.length + 1)
      ((on_string tc s bs).tape s.current_loc) bs := by
  have hst := short_string_state tc s bs hc hlen
  have hmod : s.current_string_buf_loc % 2 ^ 32 = s.current_string_buf_loc :=
    Nat.mod_eq_of_lt (by omega)
  have htag : tc tape_type.STRING % 256 < 256 := Nat.mod_lt _ (by decide)
  have hw : (on_string tc s bs).tape s.current_loc
      = s.current_string_buf_loc + bs.length * 2 ^ 32 + (tc tape_type.STRING % 256) * 2 ^ 56 := by
    rw [hst]
    simp only [Function.update_same]
    rw [hmod, tag_word_eq, ← Nat.shiftLeft_eq, or_three_fields _ _ _ (by omega) (by omega),
      Nat.shiftLeft_eq]
  have hbuf : ∀ k (h : k < bs.length),
      (on_string tc s bs).string_buf (s.current_string_buf_loc + k) = (bs.get ⟨k, h⟩).val := by
    intro k h
    rw [hst]
    simp only []
    rw [Function.update_noteq (by omega), store_bytes_inside]
  constructor
  · rw [hw, Nat.shiftRight_eq_div_pow, tag_code]
    omega
  · intro buf' hb
    have hlo : (on_string tc s bs).tape s.current_loc &&& 0xFFFFFFFF
        = s.current_string_buf_loc := by
      rw [hw]
      exact (word_low32_eq _).trans (by omega)
    have hlen' : decode_length buf' ((on_string tc s bs).tape s.current_loc) = bs.length := by
      unfold decode_length
      rw [if_pos ((and_0x800000 _).mpr (by rw [hw, Nat.shiftRight_eq_div_pow]; omega)),
        and_0x7fffff, hw, Nat.shiftRight_eq_div_pow]
      omega
    unfold decode_string
    rw [hlen', hlo]
    apply read_bytes_eq
    intro k h
    rw [hb _ (by omega), hbuf k h]

theorem long_string_at (tc : tape_type → Nat) (s : parser) (bs : List (Fin 256))
    (hc : s.current_loc < 2 ^ 32) (hlen : 0x7fffff < bs.length)
    (hp : s.current_string_buf_loc + bs.length + 3 ≤ 2 ^ 32) :
    (on_string tc s bs).tape s.current_loc >>> 56 = tag_code tc tape_type.STRING ∧
    string_at (on_string tc s bs).string_buf (s.current_string_buf_loc + bs.length + 3)
      ((on_string tc s bs).tape s.current_loc) bs := by
  have hst := long_string_state tc s bs hc hlen (by omega)
  have htag : tc tape_type.STRING % 256 < 256 := Nat.mod_lt _ (by decide)
  have hw : (on_string tc s bs).tape s.current_loc
      = (s.current_string_buf_loc + 2) + (2 ^ 23 + bs.length / 2 ^ 9) * 2 ^ 32
        + (tc tape_type.STRING % 256) * 2 ^ 56 := by
    rw [hst]
    simp only [Function.update_same]
    exact long_word_eq tc _ _ (by omega) (by omega)
  have hb0 : (on_string tc s bs).string_buf s.current_string_buf_loc
      = 32 + bs.length / 2 ^ 4 % 2 ^ 5 := by
    rw [hst]
    simp only []
    rw [Function.update_noteq (by omega), Function.update_noteq (by omega),
      Function.update_same, and_0x1f0_shift]
    omega
  have hb1 : (on_string tc s bs).string_buf (s.current_string_buf_loc + 1)
      = 32 + bs.length % 2 ^ 4 := by
    rw [hst]
    simp only []
    rw [Function.update_noteq (by omega), Function.update_same, and_0xf]
    omega
  have hbuf : ∀ k (h : k < bs.length),
      (on_string tc s bs).string_buf (s.current_string_buf_loc + 2 + k)
        = (bs.get ⟨k, h⟩).val := by
    intro k h
    rw [hst]
    simp only []
    rw [Function.update_noteq (by omega), Function.update_noteq (by omega),
      Function.update_noteq (by omega)]
    unfold memmove
    rw [if_pos (by omega)]
    have e : s.current_string_buf_loc + 2 + k - (s.current_string_buf_loc + 2) = k := by omega
    rw [e, store_bytes_inside]
  constructor
  · rw [hw, Nat.shiftRight_eq_div_pow, tag_code]
    omega
  · intro buf' hb
    have hlo : (on_string tc s bs).tape s.current_loc &&& 0xFFFFFFFF
        = s.current_string_buf_loc + 2 := by
      rw [hw]
      exact (word_low32_eq _).trans (by omega)
    have hlen' : decode_length buf' ((on_string tc s bs).tape s.current_loc) = bs.length := by
      unfold decode_length
      have hbit : ¬ (((on_string tc s bs).tape s.current_loc >>> 32) &&& 0x800000 = 0) := by
        rw [and_0x800000, hw, Nat.shiftRight_eq_div_pow]
        omega
      rw [if_neg hbit, hlo, and_0x7fffff]
      have e2 : s.current_string_buf_loc + 2 - 2 = s.current_string_buf_loc := by omega
      have e1 : s.current_string_buf_loc + 2 - 1 = s.current_string_buf_loc + 1 := by omega
      rw [e2, e1, hb _ (by omega), hb _ (by omega), hb0, hb1, hw, Nat.shiftRight_eq_div_pow,
        Nat.add_sub_cancel_left, Nat.add_sub_cancel_left,
        length_from_parts _ _ _ (Nat.mod_lt _ (by decide)) (Nat.mod_lt _ (by decide))]
      omega
    unfold decode_string
    rw [hlen', hlo]
    apply read_bytes_eq
    intro k h
    rw [hb _ (by omega), hbuf k h]

/-! ## The encoding of a value on the tape -/

theorem words_element_nodes (x : value) (xs : List value) :
    node.words_list (value.element_nodes (x :: xs))
      = node.words x.node + node.words_list (value.element_nodes xs) := by
  simp [value.element_nodes, node.words_list, node.words]

theorem words_member_nodes (k : List (Fin 256)) (v : value)
    (ms : List (List (Fin 256) × value)) :
    node.words_list (value.member_nodes ((k, v) :: ms))
      = 1 + node.words v.node + node.words_list (value.member_nodes ms) := by
  simp [value.member_nodes, node.words_list, node.words]
  omega

theorem room_element_nodes (x : value) (xs : List value) :
    node.room_list (value.element_nodes (x :: xs))
      = node.room x.node + node.room_list (value.element_nodes xs) := by
  simp [value.element_nodes, node.room_list, node.room]

theorem room_member_nodes (k : List (Fin 256)) (v : value)
    (ms : List (List (Fin 256) × value)) :
    node.room_list (value.member_nodes ((k, v) :: ms))
      = string_room k + node.room v.node + node.room_list (value.member_nodes ms) := by
  simp [value.member_nodes, node.room_list, node.room]
  omega

theorem words_pos (v : value) : 0 < node.words v.node := by
  cases v <;> simp [value.node, node.words]

theorem string_at_frame {buf buf' : Nat → Nat} {q q' w : Nat} {bs : List (Fin 256)}
    (hb : ∀ j, j < q → buf' j = buf j) (hq : q ≤ q') (h : string_at buf q w bs) :
    string_at buf' q' w bs := by
  intro buf'' hb''
  apply h
  intro j hj
  rw [hb'' j (by omega), hb j hj]

mutual
theorem on_tape_frame (tc : tape_type → Nat) (tape tape' buf buf' : Nat → Nat) (q q' : Nat)
    (hb : ∀ j, j < q → buf' j = buf j) (hq : q ≤ q') :
    ∀ (v : value) (i : Nat),
      (∀ x, i ≤ x → x < i + node.words v.node → tape' x = tape x) →
      value.on_tape tc tape buf q v i → value.on_tape tc tape' buf' q' v i
  | .null_atom, i, ht, h => by
    simp only [value.on_tape, value.node, node.words] at ht h ⊢
    rw [ht i (by omega) (by omega)]; exact h
  | .true_atom, i, ht, h => by
    simp only [value.on_tape, value.node, node.words] at ht h ⊢
    rw [ht i (by omega) (by omega)]; exact h
  | .false_atom, i, ht, h => by
    simp only [value.on_tape, value.node, node.words] at ht h ⊢
    rw [ht i (by omega) (by omega)]; exact h
  | .int64 v, i, ht, h => by
    simp only [value.on_tape, value.node, node.words] at ht h ⊢
    rw [ht i (by omega) (by omega), ht (i + 1) (by omega) (by omega)]; exact h
  | .uint64 v, i, ht, h => by
    simp only [value.on_tape, value.node, node.words] at ht h ⊢
    rw [ht i (by omega) (by omega), ht (i + 1) (by omega) (by omega)]; exact h
  | .double v, i, ht, h => by
    simp only [value.on_tape, value.node, node.words] at ht h ⊢
    rw [ht i (by omega) (by omega), ht (i + 1) (by omega) (by omega)]; exact h
  | .string bs, i, ht, h => by
    simp only [value.on_tape, value.node, node.words] at ht h ⊢
    rw [ht i (by omega) (by omega)]
    exact ⟨h.1, string_at_frame hb hq h.2⟩
  | .array xs, i, ht, h => by
    simp only [value.on_tape, value.node, node.words] at ht h ⊢
    rw [ht i (by omega) (by omega)]
    exact ⟨h.1, h.2.1,
      elements_on_tape_frame tc tape tape' buf buf' q q' hb hq xs (i + 1)
        (fun x h1 h2 => ht x (by omega) (by omega)) h.2.2⟩
  | .object ms, i, ht, h => by
    simp only [value.on_tape, value.node, node.words] at ht h ⊢
    rw [ht i (by omega) (by omega)]
    exact ⟨h.1, h.2.1,
      members_on_tape_frame tc tape tape' buf buf' q q' hb hq ms (i + 1)
        (fun x h1 h2 => ht x (by omega) (by omega)) h.2.2⟩
theorem elements_on_tape_frame (tc : tape_type → Nat) (tape tape' buf buf' : Nat → Nat)
    (q q' : Nat) (hb : ∀ j, j < q → buf' j = buf j) (hq : q ≤ q') :
    ∀ (xs : List value) (i : Nat),
      (∀ x, i ≤ x → x < i + node.words_list (value.element_nodes xs) → tape' x = tape x) →
      value.elements_on_tape tc tape buf q xs i → value.elements_on_tape tc tape' buf' q' xs i
  | [], _, _, _ => by simp only [value.elements_on_tape]
  | x :: xs, i, ht, h => by
    rw [words_element_nodes] at ht
    simp only [value.elements_on_tape] at h ⊢
    exact ⟨on_tape_frame tc tape tape' buf buf' q q' hb hq x i
        (fun y h1 h2 => ht y h1 (by omega)) h.1,
      elements_on_tape_frame tc tape tape' buf buf' q q' hb hq xs _
        (fun y h1 h2 => ht y (by omega) (by omega)) h.2⟩
theorem members_on_tape_frame (tc : tape_type → Nat) (tape tape' buf buf' : Nat → Nat)
    (q q' : Nat) (hb : ∀ j, j < q → buf' j = buf j) (hq : q ≤ q') :
    ∀ (ms : List (List (Fin 256) × value)) (i : Nat),
      (∀ x, i ≤ x → x < i + node.words_list (value.member_nodes ms) → tape' x = tape x) →
      value.members_on_tape tc tape buf q ms i → value.members_on_tape tc tape' buf' q' ms i
  | [], _, _, _ => by simp only [value.members_on_tape]
  | (k, v) :: ms, i, ht, h => by
    rw [words_member_nodes] at ht
    simp only [value.members_on_tape] at h ⊢
    rw [ht i (by omega) (by omega)]
    exact ⟨⟨h.1.1, string_at_frame hb hq h.1.2⟩,
      on_tape_frame tc tape tape' buf buf' q q' hb hq v (i + 1)
        (fun y h1 h2 => ht y (by omega) (by omega)) h.2.1,
      members_on_tape_frame tc tape tape' buf buf' q q' hb hq ms _
        (fun y h1 h2 => ht y (by omega) (by omega)) h.2.2⟩
end

theorem tag_lookup_code (tc : tape_type → Nat) (h : Function.Injective (tag_code tc))
    (t : tape_type) : tag_lookup tc (tag_code tc t) = some t := by
  have e : ∀ a b : tape_type, a ≠ b → (tag_code tc a == tag_code tc b) = false := by
    intro a b hab
    simp [h.eq_iff, hab]
  cases t <;> simp [tag_lookup, List.find?, e]

mutual
theorem decode_value_on_tape (tc : tape_type → Nat) (hinj : Function.Injective (tag_code tc))
    (tape buf : Nat → Nat) (q : Nat) :
    ∀ (v : value) (i fuel : Nat), v.fuel ≤ fuel → v.typed = true →
      value.on_tape tc tape buf q v i →
      decode_value tc tape buf fuel i = some (v, i + node.words v.node)
  | .null_atom, i, fuel, hf, _, h => by
    simp only [value.fuel] at hf
    obtain ⟨f, rfl⟩ : ∃ f, fuel = f + 1 := ⟨fuel - 1, by omega⟩
    simp only [value.on_tape] at h
    simp only [decode_value, h, tag_lookup_code tc hinj, value.node, node.words]
  | .true_atom, i, fuel, hf, _, h => by
    simp only [value.fuel] at hf
    obtain ⟨f, rfl⟩ : ∃ f, fuel = f + 1 := ⟨fuel - 1, by omega⟩
    simp only [value.on_tape] at h
    simp only [decode_value, h, tag_lookup_code tc hinj, value.node, node.words]
  | .false_atom, i, fuel, hf, _, h => by
    simp only [value.fuel] at hf
    obtain ⟨f, rfl⟩ : ∃ f, fuel = f + 1 := ⟨fuel - 1, by omega⟩
    simp only [value.on_tape] at h
    simp only [decode_value, h, tag_lookup_code tc hinj, value.node, node.words]
  | .int64 v, i, fuel, hf, ht, h => by
    simp only [value.fuel] at hf
    obtain ⟨f, rfl⟩ : ∃ f, fuel = f + 1 := ⟨fuel - 1, by omega⟩
    simp only [value.on_tape] at h
    simp only [value.typed, Bool.and_eq_true, decide_eq_true_eq] at ht
    simp only [decode_value, h.1, h.2, tag_lookup_code tc hinj, value.node, node.words,
      int64_of_bits_of_int64 v ht.1 ht.2]
  | .uint64 v, i, fuel, hf, _, h => by
    simp only [value.fuel] at hf
    obtain ⟨f, rfl⟩ : ∃ f, fuel = f + 1 := ⟨fuel - 1, by omega⟩
    simp only [value.on_tape] at h
    simp only [decode_value, h.1, h.2, tag_lookup_code tc hinj, value.node, node.words]
  | .double v, i, fuel, hf, _, h => by
    simp only [value.fuel] at hf
    obtain ⟨f, rfl⟩ : ∃ f, fuel = f + 1 := ⟨fuel - 1, by omega⟩
    simp only [value.on_tape] at h
    simp only [decode_value, h.1, h.2, tag_lookup_code tc hinj, value.node, node.words]
  | .string bs, i, fuel, hf, _, h => by
    simp only [value.fuel] at hf
    obtain ⟨f, rfl⟩ : ∃ f, fuel = f + 1 := ⟨fuel - 1, by omega⟩
    simp only [value.on_tape] at h
    simp only [decode_value, h.1, tag_lookup_code tc hinj, value.node, node.words,
      h.2 buf (fun _ _ => rfl)]
  | .array xs, i, fuel, hf, ht, h => by
    simp only [value.fuel] at hf
    obtain ⟨f, rfl⟩ : ∃ f, fuel = f + 1 := ⟨fuel - 1, by omega⟩
    simp only [value.on_tape] at h
    simp only [value.typed] at ht
    have he := decode_elements_on_tape tc hinj tape buf q xs (i + 1) f (by omega) ht h.2.2
    have hs : i + (node.words_list (value.element_nodes xs) + 2) - 1
        = i + 1 + node.words_list (value.element_nodes xs) := by omega
    simp only [decode_value, h.1, h.2.1, tag_lookup_code tc hinj, value.node, node.words, hs, he]
  | .object ms, i, fuel, hf, ht, h => by
    simp only [value.fuel] at hf
    obtain ⟨f, rfl⟩ : ∃ f, fuel = f + 1 := ⟨fuel - 1, by omega⟩
    simp only [value.on_tape] at h
    simp only [value.typed] at ht
    have he := decode_members_on_tape tc hinj tape buf q ms (i + 1) f (by omega) ht h.2.2
    have hs : i + (node.words_list (value.member_nodes ms) + 2) - 1
        = i + 1 + node.words_list (value.member_nodes ms) := by omega
    simp only [decode_value, h.1, h.2.1, tag_lookup_code tc hinj, value.node, node.words, hs, he]
theorem decode_elements_on_tape (tc : tape_type → Nat)
    (hinj : Function.Injective (tag_code tc)) (tape buf : Nat → Nat) (q : Nat) :
    ∀ (xs : List value) (i fuel : Nat), value.fuel_elements xs ≤ fuel →
      value.typed_elements xs = true → value.elements_on_tape tc tape buf q xs i →
      decode_elements tc tape buf fuel i (i + node.words_list (value.element_nodes xs))
        = some xs
  | [], i, fuel, hf, _, _ => by
    simp only [value.fuel_elements] at hf
    obtain ⟨f, rfl⟩ : ∃ f, fuel = f + 1 := ⟨fuel - 1, by omega⟩
    simp [decode_elements, value.element_nodes, node.words_list]
  | x :: xs, i, fuel, hf, ht, h => by
    simp only [value.fuel_elements] at hf
    obtain ⟨f, rfl⟩ : ∃ f, fuel = f + 1 := ⟨fuel - 1, by omega⟩
    simp only [value.elements_on_tape] at h
    simp only [value.typed_elements, Bool.and_eq_true] at ht
    have hx := decode_value_on_tape tc hinj tape buf q x i f (by omega) ht.1 h.1
    have hr := decode_elements_on_tape tc hinj tape buf q xs (i + node.words x.node) f
      (by omega) ht.2 h.2
    have hpos := words_pos x
    have hne : ¬ i = i + node.words_list (value.element_nodes (x :: xs)) := by
      rw [words_element_nodes]; omega
    have hstop : i + node.words_list (value.element_nodes (x :: xs))
        = i + node.words x.node + node.words_list (value.element_nodes xs) := by
      rw [words_element_nodes]; omega
    rw [hstop] at hne ⊢
    simp only [decode_elements, if_neg hne, hx, hr]
theorem decode_members_on_tape (tc : tape_type → Nat)
    (hinj : Function.Injective (tag_code tc)) (tape buf : Nat → Nat) (q : Nat) :
    ∀ (ms : List (List (Fin 256) × value)) (i fuel : Nat), value.fuel_members ms ≤ fuel →
      value.typed_members ms = true → value.members_on_tape tc tape buf q ms i →
      decode_members tc tape buf fuel i (i + node.words_list (value.member_nodes ms))
        = some ms
  | [], i, fuel, hf, _, _ => by
    simp only [value.fuel_members] at hf
    obtain ⟨f, rfl⟩ : ∃ f, fuel = f + 1 := ⟨fuel - 1, by omega⟩
    simp [decode_members, value.member_nodes, node.words_list]
  | (k, v) :: ms, i, fuel, hf, ht, h => by
    simp only [value.fuel_members] at hf
    obtain ⟨f, rfl⟩ : ∃ f, fuel = f + 1 := ⟨fuel - 1, by omega⟩
    simp only [value.members_on_tape] at h
    simp only [value.typed_members, Bool.and_eq_true] at ht
    have hx := decode_value_on_tape tc hinj tape buf q v (i + 1) f (by omega) ht.1 h.2.1
    have hr := decode_members_on_tape tc hinj tape buf q ms (i + 1 + node.words v.node) f
      (by omega) ht.2 h.2.2
    have hne : ¬ i = i + node.words_list (value.member_nodes ((k, v) :: ms)) := by
      rw [words_member_nodes]; omega
    have hstop : i + node.words_list (value.member_nodes ((k, v) :: ms))
        = i + 1 + node.words v.node + node.words_list (value.member_nodes ms) := by
      rw [words_member_nodes]; omega
    rw [hstop] at hne ⊢
    simp only [decode_members, if_neg hne, h.1.1, tag_lookup_code tc hinj, hx, hr,
      h.1.2 buf (fun _ _ => rfl)]
end

theorem fills_refl (s : parser) : fills 0 s s where
  cur := rfl
  below := fun _ _ => rfl

theorem fills_trans {r1 r2 : Nat} {s1 s2 s3 : parser} (h1 : fills r1 s1 s2)
    (h2 : fills r2 s2 s3) : fills (r1 + r2) s1 s3 where
  cur := by rw [h2.cur, h1.cur]; omega
  below := fun j hj => by rw [h2.below j (by rw [h1.cur]; omega), h1.below j hj]

theorem fills_of_eq {s s' : parser} (h1 : s'.string_buf = s.string_buf)
    (h2 : s'.current_string_buf_loc = s.current_string_buf_loc) : fills 0 s s' where
  cur := h2
  below := fun j _ => by rw [h1]

theorem tag_word_shift (tc : tape_type → Nat) (t : tape_type) (v : Nat) (h : v < 2 ^ 56) :
    (v ||| tag_word tc t) >>> 56 = tag_code tc t := by
  have ht : tc t % 256 < 256 := Nat.mod_lt _ (by decide)
  rw [or_tag_word tc t v h, Nat.shiftRight_eq_div_pow, tag_code]
  omega

theorem string_encoded (tc : tape_type → Nat) (s : parser) (bs : List (Fin 256))
    (hc : s.current_loc + 1 < 2 ^ 32)
    (hr : s.current_string_buf_loc + string_room bs ≤ 2 ^ 32) :
    (on_string tc s bs).tape s.current_loc >>> 56 = tag_code tc tape_type.STRING ∧
    string_at (on_string tc s bs).string_buf (on_string tc s bs).current_string_buf_loc
      ((on_string tc s bs).tape s.current_loc) bs ∧
    fills (string_room bs) s (on_string tc s bs) := by
  by_cases hs : bs.length ≤ 0x7fffff
  · simp only [string_room, if_pos hs] at hr ⊢
    have h := short_string_at tc s bs (by omega) hs (by omega)
    have hst := short_string_state tc s bs (by omega) hs
    have hcur : (on_string tc s bs).current_string_buf_loc
        = s.current_string_buf_loc + (bs.length + 1) := by rw [hst]; rfl
    refine ⟨h.1, ?_, ⟨hcur, ?_⟩⟩
    · rw [hcur]; exact h.2
    · intro j hj
      rw [hst]
      simp only []
      rw [Function.update_noteq (by omega), store_bytes_outside _ _ _ _ (Or.inl hj)]
  · have hl : 0x7fffff < bs.length := Nat.lt_of_not_le hs
    simp only [string_room, if_neg hs] at hr ⊢
    have h := long_string_at tc s bs (by omega) hl (by omega)
    have hst := long_string_state tc s bs (by omega) hl (by omega)
    have hcur : (on_string tc s bs).current_string_buf_loc
        = s.current_string_buf_loc + (bs.length + 3) := by rw [hst]; rfl
    refine ⟨h.1, ?_, ⟨hcur, ?_⟩⟩
    · rw [hcur]; exact h.2
    · intro j hj
      rw [hst]
      simp only []
      rw [Function.update_noteq (by omega), Function.update_noteq (by omega),
        Function.update_noteq (by omega)]
      unfold memmove
      rw [if_neg (by omega), store_bytes_outside _ _ _ _ (Or.inl hj)]

theorem scope_encoded (tc : tape_type → Nat) (k : scope_kind) (d w n : Nat) (s s2 : parser)
    (hcap : s.current_loc + (w + 2) < 2 ^ 32)
    (hb : appends d w n (step tc s (k.start_call d)) s2) :
    (step tc s2 (k.end_call d)).tape s.current_loc >>> 56 = tag_code tc k.open_tag ∧
    (step tc s2 (k.end_call d)).tape s.current_loc &&& 0xFFFFFFFF = s.current_loc + (w + 2) ∧
    (∀ x, s.current_loc + 1 ≤ x → x < s.current_loc + 1 + w →
      (step tc s2 (k.end_call d)).tape x = s2.tape x) ∧
    (step tc s2 (k.end_call d)).string_buf = s2.string_buf ∧
    (step tc s2 (k.end_call d)).current_string_buf_loc = s2.current_string_buf_loc := by
  obtain ⟨_, _, h3, _, _, h6, _, h8, h9⟩ := close_scope tc k d w n s s2 hcap hb
  have ht : tc k.open_tag % 256 < 256 := Nat.mod_lt _ (by decide)
  have hm := Nat.min_le_right (n % 2 ^ 32) (2 ^ 24 - 1)
  have hw : (step tc s2 (k.end_call d)).tape s.current_loc
      = (s.current_loc + (w + 2)) + (min (n % 2 ^ 32) (2 ^ 24 - 1)) * 2 ^ 32
        + (tc k.open_tag % 256) * 2 ^ 56 := by
    rw [h3, Nat.or_comm, or_shift_eq_add _ _ _ (by omega), or_tag_word tc _ _ (by omega)]
  refine ⟨?_, ?_, fun x h1 h2 => h6 x (by omega) (by omega), h8, h9⟩
  · rw [hw, Nat.shiftRight_eq_div_pow, tag_code]
    omega
  · rw [hw]
    exact (word_low32_eq _).trans (by omega)

theorem atom_encoded (tc : tape_type → Nat) (s : parser) (t : tape_type) :
    (write_tape tc s 0 t).tape s.current_loc >>> 56 = tag_code tc t := by
  simp only [write_tape, Function.update_same]
  exact tag_word_shift tc t 0 (by norm_num)

theorem number_encoded (tc : tape_type → Nat) (s : parser) (t : tape_type) (w : Nat)
    (hc : s.current_loc + 2 < 2 ^ 32) :
    (Function.update (write_tape tc s 0 t).tape (write_tape tc s 0 t).current_loc w)
        s.current_loc >>> 56 = tag_code tc t ∧
    (Function.update (write_tape tc s 0 t).tape (write_tape tc s 0 t).current_loc w)
        (s.current_loc + 1) = w := by
  have hl : (write_tape tc s 0 t).current_loc = s.current_loc + 1 := by
    simp only [write_tape]; omega
  rw [hl, Function.update_same, Function.update_noteq (by omega)]
  exact ⟨atom_encoded tc s t, rfl⟩

mutual
theorem encode_value (tc : tape_type → Nat) (p : Nat) :
    ∀ (v : value) (s : parser), s.current_loc + node.words v.node < 2 ^ 32 →
      s.current_string_buf_loc + node.room v.node ≤ 2 ^ 32 →
      value.on_tape tc (run tc s (node.calls p v.node)).tape
        (run tc s (node.calls p v.node)).string_buf
        (run tc s (node.calls p v.node)).current_string_buf_loc v s.current_loc ∧
      fills (node.room v.node) s (run tc s (node.calls p v.node))
  | .null_atom, s, _, _ => by
    simp only [value.node, node.calls, leaf.call, run_cons, run_nil, step, node.room,
      value.on_tape]
    exact ⟨atom_encoded tc s _, fills_of_eq rfl rfl⟩
  | .true_atom, s, _, _ => by
    simp only [value.node, node.calls, leaf.call, run_cons, run_nil, step, node.room,
      value.on_tape]
    exact ⟨atom_encoded tc s _, fills_of_eq rfl rfl⟩
  | .false_atom, s, _, _ => by
    simp only [value.node, node.calls, leaf.call, run_cons, run_nil, step, node.room,
      value.on_tape]
    exact ⟨atom_encoded tc s _, fills_of_eq rfl rfl⟩
  | .int64 v, s, hc, _ => by
    simp only [value.node, node.words] at hc
    simp only [value.node, node.calls, leaf.call, run_cons, run_nil, step, node.room,
      value.on_tape]
    exact ⟨number_encoded tc s _ _ hc, fills_of_eq rfl rfl⟩
  | .uint64 v, s, hc, _ => by
    simp only [value.node, node.words] at hc
    simp only [value.node, node.calls, leaf.call, run_cons, run_nil, step, node.room,
      value.on_tape]
    exact ⟨number_encoded tc s _ _ hc, fills_of_eq rfl rfl⟩
  | .double v, s, hc, _ => by
    simp only [value.node, node.words] at hc
    simp only [value.node, node.calls, leaf.call, run_cons, run_nil, step, node.room,
      value.on_tape]
    exact ⟨number_encoded tc s _ _ hc, fills_of_eq rfl rfl⟩
  | .string bs, s, hc, hr => by
    simp only [value.node, node.words] at hc
    simp only [value.node, node.room] at hr
    simp only [value.node, node.calls, leaf.call, run_cons, run_nil, step, node.room,
      value.on_tape]
    obtain ⟨h1, h2, h3⟩ := string_encoded tc s bs hc hr
    exact ⟨⟨h1, h2⟩, h3⟩
  | .array xs, s, hc, hr => by
    simp only [value.node, node.words] at hc
    simp only [value.node, node.room] at hr
    simp only [value.node, node.calls, run_cons, run_append, run_nil, node.room, value.on_tape]
    have l1 : (step tc s (callback.start_array (p + 1))).current_loc = s.current_loc + 1 := by
      simp only [step, on_start_array, write_tape, open_scope]; omega
    have hb := appends_list tc (p + 1) (value.element_nodes xs)
      (step tc s (callback.start_array (p + 1))) (by rw [l1]; omega)
    obtain ⟨he, hf⟩ := encode_elements tc (p + 1) xs (step tc s (callback.start_array (p + 1)))
      (by rw [l1]; omega) hr
    obtain ⟨g1, g2, g3, g4, g5⟩ := scope_encoded tc scope_kind.array (p + 1) _ _ s _ hc hb
    rw [l1] at he
    refine ⟨⟨g1, g2, ?_⟩, ⟨?_, ?_⟩⟩
    · exact elements_on_tape_frame tc _ _ _ _ _ _ (fun j _ => congrFun g4 j) (Nat.le_of_eq g5.symm)
        xs (s.current_loc + 1) g3 he
    · exact g5.trans hf.cur
    · intro j hj
      exact (congrFun g4 j).trans (hf.below j hj)
  | .object ms, s, hc, hr => by
    simp only [value.node, node.words] at hc
    simp only [value.node, node.room] at hr
    simp only [value.node, node.calls, run_cons, run_append, run_nil, node.room, value.on_tape]
    have l1 : (step tc s (callback.start_object (p + 1))).current_loc = s.current_loc + 1 := by
      simp only [step, on_start_object, write_tape, open_scope]; omega
    have hb := appends_list tc (p + 1) (value.member_nodes ms)
      (step tc s (callback.start_object (p + 1))) (by rw [l1]; omega)
    obtain ⟨he, hf⟩ := encode_members tc (p + 1) ms (step tc s (callback.start_object (p + 1)))
      (by rw [l1]; omega) hr
    obtain ⟨g1, g2, g3, g4, g5⟩ := scope_encoded tc scope_kind.object (p + 1) _ _ s _ hc hb
    rw [l1] at he
    refine ⟨⟨g1, g2, ?_⟩, ⟨?_, ?_⟩⟩
    · exact members_on_tape_frame tc _ _ _ _ _ _ (fun j _ => congrFun g4 j) (Nat.le_of_eq g5.symm)
        ms (s.current_loc + 1) g3 he
    · exact g5.trans hf.cur
    · intro j hj
      exact (congrFun g4 j).trans (hf.below j hj)
theorem encode_elements (tc : tape_type → Nat) (p : Nat) :
    ∀ (xs : List value) (s : parser),
      s.current_loc + node.words_list (value.element_nodes xs) < 2 ^ 32 →
      s.current_string_buf_loc + node.room_list (value.element_nodes xs) ≤ 2 ^ 32 →
      value.elements_on_tape tc (run tc s (node.calls_list p (value.element_nodes xs))).tape
        (run tc s (node.calls_list p (value.element_nodes xs))).string_buf
        (run tc s (node.calls_list p (value.element_nodes xs))).current_string_buf_loc
        xs s.current_loc ∧
      fills (node.room_list (value.element_nodes xs)) s
        (run tc s (node.calls_list p (value.element_nodes xs)))
  | [], s, _, _ => by
    simp only [value.element_nodes, node.calls_list, run_nil, node.room_list,
      value.elements_on_tape]
    exact ⟨trivial, fills_refl s⟩
  | x :: xs, s, hc, hr => by
    rw [words_element_nodes] at hc
    rw [room_element_nodes] at hr
    rw [room_element_nodes]
    simp only [value.element_nodes, node.calls_list, node.calls, run_append, run_cons, run_nil,
      step, value.elements_on_tape]
    obtain ⟨hx, fx⟩ := encode_value tc p x s (by omega) (by omega)
    have ax := appends_node tc p x.node s (by omega)
    have lc : (increment_count (run tc s (node.calls p x.node)) p).current_loc
        = s.current_loc + node.words x.node := ax.loc
    have lq : (increment_count (run tc s (node.calls p x.node)) p).current_string_buf_loc
        = s.current_string_buf_loc + node.room x.node := fx.cur
    obtain ⟨hrest, frest⟩ := encode_elements tc p xs
      (increment_count (run tc s (node.calls p x.node)) p)
      (by rw [lc]; omega) (by rw [lq]; omega)
    have arest := appends_list tc p (value.element_nodes xs)
      (increment_count (run tc s (node.calls p x.node)) p) (by rw [lc]; omega)
    rw [lc] at hrest
    have fc : fills 0 (run tc s (node.calls p x.node))
        (increment_count (run tc s (node.calls p x.node)) p) := fills_of_eq rfl rfl
    have f2 := fills_trans fc frest
    rw [Nat.zero_add] at f2
    have fall := fills_trans fx f2
    refine ⟨⟨?_, hrest⟩, fall⟩
    exact on_tape_frame tc _ _ _ _ _ _
      (fun j hj => frest.below j hj) (by rw [frest.cur]; exact Nat.le_add_right _ _) x
      s.current_loc (fun y _ h2 => arest.tape_below y (by rw [lc]; exact h2)) hx
theorem encode_members (tc : tape_type → Nat) (p : Nat) :
    ∀ (ms : List (List (Fin 256) × value)) (s : parser),
      s.current_loc + node.words_list (value.member_nodes ms) < 2 ^ 32 →
      s.current_string_buf_loc + node.room_list (value.member_nodes ms) ≤ 2 ^ 32 →
      value.members_on_tape tc (run tc s (node.calls_list p (value.member_nodes ms))).tape
        (run tc s (node.calls_list p (value.member_nodes ms))).string_buf
        (run tc s (node.calls_list p (value.member_nodes ms))).current_string_buf_loc
        ms s.current_loc ∧
      fills (node.room_list (value.member_nodes ms)) s
        (run tc s (node.calls_list p (value.member_nodes ms)))
  | [], s, _, _ => by
    simp only [value.member_nodes, node.calls_list, run_nil, node.room_list,
      value.members_on_tape]
    exact ⟨trivial, fills_refl s⟩
  | (k, v) :: ms, s, hc, hr => by
    rw [words_member_nodes] at hc
    rw [room_member_nodes] at hr
    rw [room_member_nodes]
    simp only [value.member_nodes, node.calls_list, node.calls, leaf.call, run_append, run_cons,
      run_nil, step, value.members_on_tape]
    obtain ⟨k1, k2, fk⟩ := string_encoded tc s k (by omega) (by omega)
    have l0 : (increment_count (on_string tc s k) p).current_loc = s.current_loc + 1 := by
      have := (on_string_tape tc s k (by omega)).1
      simp only [increment_count]
      omega
    have q0 : (increment_count (on_string tc s k) p).current_string_buf_loc
        = s.current_string_buf_loc + string_room k := fk.cur
    obtain ⟨hv, fv⟩ := encode_value tc p v (increment_count (on_string tc s k) p)
      (by rw [l0]; omega) (by rw [q0]; omega)
    have av := appends_node tc p v.node (increment_count (on_string tc s k) p)
      (by rw [l0]; omega)
    have l1 : (increment_count (run tc (increment_count (on_string tc s k) p)
        (node.calls p v.node)) p).current_loc = s.current_loc + 1 + node.words v.node := by
      have h := av.loc
      rw [l0] at h
      exact h
    have q1 : (increment_count (run tc (increment_count (on_string tc s k) p)
        (node.calls p v.node)) p).current_string_buf_loc
        = s.current_string_buf_loc + string_room k + node.room v.node := by
      have h := fv.cur
      rw [q0] at h
      exact h
    obtain ⟨hrest, frest⟩ := encode_members tc p ms
      (increment_count (run tc (increment_count (on_string tc s k) p) (node.calls p v.node)) p)
      (by rw [l1]; omega) (by rw [q1]; omega)
    have arest := appends_list tc p (value.member_nodes ms)
      (increment_count (run tc (increment_count (on_string tc s k) p) (node.calls p v.node)) p)
      (by rw [l1]; omega)
    rw [l1] at hrest
    rw [l0] at hv
    have fc0 : fills 0 (on_string tc s k) (increment_count (on_string tc s k) p) :=
      fills_of_eq rfl rfl
    have fc1 : fills 0 (run tc (increment_count (on_string tc s k) p) (node.calls p v.node))
        (increment_count (run tc (increment_count (on_string tc s k) p) (node.calls p v.node)) p) :=
      fills_of_eq rfl rfl
    have f1 := fills_trans fc1 frest
    rw [Nat.zero_add] at f1
    have f2 := fills_trans fv f1
    have f3 := fills_trans fc0 f2
    rw [Nat.zero_add] at f3
    have fall := fills_trans fk f3
    rw [← Nat.add_assoc] at fall
    have tk : (run tc (increment_count (run tc (increment_count (on_string tc s k) p)
        (node.calls p v.node)) p) (node.calls_list p (value.member_nodes ms))).tape s.current_loc
        = (on_string tc s k).tape s.current_loc := by
      rw [arest.tape_below _ (by rw [l1]; omega)]
      exact av.tape_below _ (by rw [l0]; omega)
    refine ⟨⟨⟨?_, ?_⟩, ?_, hrest⟩, fall⟩
    · rw [tk]; exact k1
    · rw [tk]
      exact string_at_frame (fun j hj => f3.below j hj)
        (by rw [f3.cur]; exact Nat.le_add_right _ _) k2
    · exact on_tape_frame tc _ _ _ _ _ _
        (fun j hj => f1.below j hj) (by rw [f1.cur]; exact Nat.le_add_right _ _) v
        (s.current_loc + 1) (fun y _ h2 => arest.tape_below y (by rw [l1]; exact h2)) hv
end

theorem ascii_tags_injective : Function.Injective (tag_code ascii_tags) := by
  intro a b h
  cases a <;> cases b <;> first | rfl | exact absurd h (by decide)

theorem element_nodes_nulls (n : Nat) :
    value.element_nodes (List.replicate (n + 1) value.null_atom)
      = node.leaf leaf.null_atom :: node.count
        :: value.element_nodes (List.replicate n value.null_atom) := by
  simp [List.replicate_succ, value.element_nodes, value.node]

theorem typed_nulls (n : Nat) :
    value.typed_elements (List.replicate n value.null_atom) = true := by
  induction n with
  | zero => rfl
  | succ n ih => simp [List.replicate_succ, value.typed_elements, value.typed, ih]

theorem room_nulls (n : Nat) :
    node.room_list (value.element_nodes (List.replicate n value.null_atom)) = 0 := by
  induction n with
  | zero => rfl
  | succ n ih => rw [element_nodes_nulls]; simp [node.room_list, node.room, ih]

theorem run_nulls (tc : tape_type → Nat) (p : Nat) (n : Nat) :
    ∀ s : parser, s.current_loc < 2 ^ 32 →
      (run tc s (node.calls_list p
        (value.element_nodes (List.replicate n value.null_atom)))).current_loc
        = (s.current_loc + n) % 2 ^ 32 ∧
      (∀ i, (∃ k, k < n ∧ i = (s.current_loc + k) % 2 ^ 32) →
        (run tc s (node.calls_list p
          (value.element_nodes (List.replicate n value.null_atom)))).tape i
          = tag_word tc tape_type.NULL_VALUE) ∧
      (∀ i, (¬ ∃ k, k < n ∧ i = (s.current_loc + k) % 2 ^ 32) →
        (run tc s (node.calls_list p
          (value.element_nodes (List.replicate n value.null_atom)))).tape i = s.tape i) ∧
      (∀ d, d ≠ p →
        (run tc s (node.calls_list p
          (value.element_nodes (List.replicate n value.null_atom)))).containing_scope d
          = s.containing_scope d) ∧
      ((run tc s (node.calls_list p
          (value.element_nodes (List.replicate n value.null_atom)))).containing_scope p).tape_index
        = (s.containing_scope p).tape_index := by
  induction n with
  | zero =>
    intro s hs
    have e : run tc s (node.calls_list p
        (value.element_nodes (List.replicate 0 value.null_atom))) = s := rfl
    rw [e]
    refine ⟨by omega, ?_, fun _ _ => rfl, fun _ _ => rfl, rfl⟩
    rintro i ⟨k, hk, _⟩
    exact absurd hk (Nat.not_lt_zero k)
  | succ n ih =>
    intro s hs
    rw [element_nodes_nulls]
    simp only [node.calls_list, node.calls, leaf.call, run_append, run_cons, run_nil, step]
    have hl : (increment_count (on_null_atom tc s) p).current_loc
        = (s.current_loc + 1) % 2 ^ 32 := rfl
    have ht0 : (increment_count (on_null_atom tc s) p).tape s.current_loc
        = tag_word tc tape_type.NULL_VALUE := by
      simp only [increment_count, on_null_atom, write_tape, Function.update_same, Nat.zero_or]
    have htf : ∀ i, i ≠ s.current_loc →
        (increment_count (on_null_atom tc s) p).tape i = s.tape i := by
      intro i hi
      simp only [increment_count, on_null_atom, write_tape]
      rw [Function.update_noteq hi]
    obtain ⟨h1, h2, h3, h4, h5⟩ := ih (increment_count (on_null_atom tc s) p)
      (by rw [hl]; exact Nat.mod_lt _ (by decide))
    rw [hl] at h1 h2 h3
    refine ⟨?_, ?_, ?_, ?_, ?_⟩
    · rw [h1]; omega
    · rintro i ⟨k, hk, hi⟩
      by_cases hlater : ∃ k', k' < n ∧ i = ((s.current_loc + 1) % 2 ^ 32 + k') % 2 ^ 32
      · exact h2 i hlater
      · have hk0 : k = 0 := by
          by_contra hne
          exact hlater ⟨k - 1, by omega, by rw [hi]; omega⟩
        have hi0 : i = s.current_loc := by rw [hi, hk0]; omega
        rw [h3 i hlater, hi0, ht0]
    · intro i hnot
      have hlater : ¬ ∃ k', k' < n ∧ i = ((s.current_loc + 1) % 2 ^ 32 + k') % 2 ^ 32 := by
        rintro ⟨k', hk', hi⟩
        exact hnot ⟨k' + 1, by omega, by rw [hi]; omega⟩
      have hne : i ≠ s.current_loc := by
        intro hi
        exact hnot ⟨0, by omega, by rw [hi]; omega⟩
      rw [h3 i hlater, htf i hne]
    · intro d hd
      rw [h4 d hd]
      simp only [increment_count, on_null_atom, write_tape]
      rw [Function.update_noteq hd]
    · rw [h5]
      simp only [increment_count, on_null_atom, write_tape, Function.update_same]

theorem end_patch_tag (tc : tape_type → Nat) (k : scope_kind) (d : Nat) (s : parser)
    (t : tape_type) (h1 : s.tape (s.containing_scope d).tape_index = tag_word tc t)
    (h2 : (s.containing_scope d).tape_index ≠ s.current_loc) :
    (step tc s (k.end_call d)).tape (s.containing_scope d).tape_index >>> 56
      = tag_code tc t := by
  rw [step_end]
  simp only [end_scope, write_tape, Function.update_same]
  rw [Function.update_noteq h2, h1, cntsat_eq]
  have ht : tc t % 256 < 256 := Nat.mod_lt _ (by decide)
  have hm := Nat.min_le_right (s.containing_scope d).count (2 ^ 24 - 1)
  have hx : (s.current_loc + 1) % 2 ^ 32 < 2 ^ 32 := Nat.mod_lt _ (by decide)
  rw [Nat.or_comm, or_shift_eq_add _ _ _ hx, or_tag_word tc _ _ (by omega),
    Nat.shiftRight_eq_div_pow, tag_code]
  omega

theorem array_document_run (tc : tape_type → Nat) (s : parser) (xs : List value) :
    run tc s (value.array xs).document
      = step tc (increment_count (step tc
          (run tc (on_start_array tc (on_start_document tc s 0) 1)
            (node.calls_list 1 (value.element_nodes xs)))
          (scope_kind.array.end_call 1)) 0) (scope_kind.document.end_call 0) := by
  simp only [value.document, value.node, document_calls, node.calls_list,
    node.calls, run_cons, run_append, run_nil, step, List.append_nil,
    scope_kind.end_call]

theorem array_document_root_tag (tc : tape_type → Nat) (t : tape_type) (s3 : parser)
    (h0 : s3.tape 0 = tag_word tc t) (hc : s3.current_loc = 2)
    (hi0 : (s3.containing_scope 0).tape_index = 0)
    (hi1 : (s3.containing_scope 1).tape_index = 1) :
    (step tc (increment_count (step tc s3 (scope_kind.array.end_call 1)) 0)
      (scope_kind.document.end_call 0)).tape 0 >>> 56 = tag_code tc t := by
  have hidx : ((increment_count (step tc s3 (scope_kind.array.end_call 1)) 0).containing_scope
      0).tape_index = 0 := by
    rw [step_end]
    simp only [increment_count, end_scope, write_tape, Function.update_same]
    exact hi0
  have hcl : (increment_count (step tc s3 (scope_kind.array.end_call 1)) 0).current_loc = 3 := by
    rw [step_end]
    simp only [increment_count, end_scope, write_tape, hc]
    decide
  have ht0 : (increment_count (step tc s3 (scope_kind.array.end_call 1)) 0).tape 0
      = tag_word tc t := by
    rw [step_end]
    simp only [increment_count, end_scope, write_tape, hc, hi1]
    rw [Function.update_noteq (by decide), Function.update_noteq (by decide), h0]
  have htag := end_patch_tag tc scope_kind.document 0 _ t
    (by rw [hidx]; exact ht0) (by rw [hidx, hcl]; decide)
  rw [hidx] at htag
  exact htag

theorem typed_array (xs : List value) :
    (value.array xs).typed = value.typed_elements xs := by
  simp only [value.typed]

theorem room_array (xs : List value) :
    node.room (value.array xs).node = node.room_list (value.element_nodes xs) := by
  simp only [value.node, node.room]

theorem decode_document_other_tag (tc : tape_type → Nat)
    (hinj : Function.Injective (tag_code tc)) (tape buf : Nat → Nat) (fuel : Nat)
    (t : tape_type) (ht : t ≠ tape_type.ROOT) (h : tape 0 >>> 56 = tag_code tc t) :
    decode_document tc tape buf fuel = none := by
  simp only [decode_document, h, tag_lookup_code tc hinj]
  cases t <;> first | rfl | exact absurd rfl ht

/-- C1, as stated, fails: the array of `2 ^ 32` values `null` has nesting depth 1
and no string bytes, but its callback sequence writes more words than the
32-bit tape cursor can index; the cursor wraps, the opening `ROOT` word at
index 0 is overwritten by a `null` word, and the reference decoder does not
reconstruct the tree from the resulting tape, whatever its recursion bound. -/
theorem round_trip_fails_on_many_nulls :
    (value.array (List.replicate (2 ^ 32) value.null_atom)).typed = true ∧
    node.room (value.array (List.replicate (2 ^ 32) value.null_atom)).node = 0 ∧
    (run ascii_tags (init_stage2 blank)
      (value.array (List.replicate (2 ^ 32) value.null_atom)).document).tape 0 >>> 56
      = tag_code ascii_tags tape_type.NULL_VALUE ∧
    ∀ fuel, decode_document ascii_tags
      (run ascii_tags (init_stage2 blank)
        (value.array (List.replicate (2 ^ 32) value.null_atom)).document).tape
      (run ascii_tags (init_stage2 blank)
        (value.array (List.replicate (2 ^ 32) value.null_atom)).document).string_buf fuel
        ≠ some (value.array (List.replicate (2 ^ 32) value.null_atom)) := by
  have hc2 : (on_start_array ascii_tags (on_start_document ascii_tags (init_stage2 blank) 0)
      1).current_loc = 2 := by decide
  obtain ⟨n1, n2, _, n4, n5⟩ := run_nulls ascii_tags 1 (2 ^ 32)
    (on_start_array ascii_tags (on_start_document ascii_tags (init_stage2 blank) 0) 1)
    (by rw [hc2]; decide)
  rw [hc2] at n1 n2
  have t3 := n2 0 ⟨2 ^ 32 - 2, by decide, by decide⟩
  have i0 := congrArg scope_descriptor.tape_index (n4 0 (by decide))
  have htag := array_document_root_tag ascii_tags tape_type.NULL_VALUE _ t3
    (n1.trans (by decide)) (i0.trans (by decide)) (n5.trans (by decide))
  rw [← array_document_run] at htag
  refine ⟨?_, ?_, htag, ?_⟩
  · rw [typed_array, typed_nulls]
  · rw [room_array, room_nulls]
  · intro fuel
    rw [decode_document_other_tag ascii_tags ascii_tags_injective _ _ fuel
      tape_type.NULL_VALUE (by decide) htag]
    exact fun h => Option.noConfusion h

/-- C1, amended (round trip of a whole document): for every numbering of the tags
that gives the twelve tags distinct bytes, every parser state and every JSON
value tree whose numbers are in the range of their machine type, whose callback
sequence writes fewer than `2 ^ 32` tape words (the two `ROOT` words included)
and takes at most `2 ^ 32` bytes of string buffer (content, terminators and
length-extension bytes), `init_stage2` followed by the callback sequence of the
document produces a tape and a string buffer from which the reference decoder,
given a sufficient recursion bound, reconstructs exactly that tree. -/
theorem document_round_trip (tc : tape_type → Nat) (hinj : Function.Injective (tag_code tc))
    (s0 : parser) (v : value) (fuel : Nat) (ht : v.typed = true)
    (hw : node.words v.node + 2 < 2 ^ 32) (hr : node.room v.node ≤ 2 ^ 32)
    (hf : v.fuel ≤ fuel) :
    decode_document tc (run tc (init_stage2 s0) v.document).tape
      (run tc (init_stage2 s0) v.document).string_buf fuel = some v := by
  have hs : (init_stage2 s0).current_loc = 0 := rfl
  have hq : (init_stage2 s0).current_string_buf_loc = 0 := rfl
  generalize init_stage2 s0 = s at hs hq ⊢
  have hW : node.words_list [v.node, node.count] = node.words v.node := by
    simp [node.words_list, node.words]
  have l1 : (step tc s (scope_kind.document.start_call 0)).current_loc = 1 := by
    rw [step_start]; simp only [write_tape, open_scope, hs]; rfl
  have q1 : (step tc s (scope_kind.document.start_call 0)).current_string_buf_loc = 0 := by
    rw [step_start]; exact hq
  have hb := appends_list tc 0 [v.node, node.count] (step tc s (scope_kind.document.start_call 0))
    (by rw [l1, hW]; omega)
  have hcap : s.current_loc + (node.words_list [v.node, node.count] + 2) < 2 ^ 32 := by
    rw [hs, hW]; omega
  obtain ⟨g1, g2, g3, g4, g5⟩ := scope_encoded tc scope_kind.document 0 _ _ s _ hcap hb
  obtain ⟨_, c2, _⟩ := close_scope tc scope_kind.document 0 _ _ s _ hcap hb
  obtain ⟨hv, _⟩ := encode_value tc 0 v (step tc s (scope_kind.document.start_call 0))
    (by rw [l1]; omega) (by rw [q1]; omega)
  rw [l1] at hv
  have hrun : run tc s v.document
      = step tc (run tc (step tc s (scope_kind.document.start_call 0))
          (node.calls_list 0 [v.node, node.count])) (scope_kind.document.end_call 0) := by
    simp only [value.document, document_calls, run_cons, run_append, run_nil,
      scope_kind.start_call, scope_kind.end_call]
  have hbody : run tc (step tc s (scope_kind.document.start_call 0))
      (node.calls_list 0 [v.node, node.count])
      = increment_count (run tc (step tc s (scope_kind.document.start_call 0))
          (node.calls 0 v.node)) 0 := by
    simp only [node.calls_list, node.calls, run_append, run_cons, run_nil, step,
      List.append_nil]
  rw [hs, hW] at g2 g3 c2
  rw [hs] at g1
  rw [hbody] at g1 g2 g3 g4 g5 c2
  have hon : value.on_tape tc (run tc s v.document).tape (run tc s v.document).string_buf
      (run tc s v.document).current_string_buf_loc v 1 := by
    rw [hrun, hbody]
    exact on_tape_frame tc _ _ _ _ _ _ (fun j _ => congrFun g4 j) (Nat.le_of_eq g5.symm) v 1
      (fun y h1 h2 => g3 y (by omega) (by omega)) hv
  have hd := decode_value_on_tape tc hinj _ _ _ v 1 fuel hf ht hon
  have t0 : (run tc s v.document).tape 0 >>> 56 = tag_code tc tape_type.ROOT := by
    rw [hrun, hbody]; exact g1
  have e0 : (run tc s v.document).tape 0 &&& 0xFFFFFFFF = 1 + node.words v.node + 1 := by
    rw [hrun, hbody, g2]; omega
  have tj : (run tc s v.document).tape (1 + node.words v.node) >>> 56
      = tag_code tc tape_type.ROOT := by
    have e : 1 + node.words v.node = 0 + node.words v.node + 1 := by omega
    rw [hrun, hbody, e, c2]
    exact tag_word_shift tc _ 0 (by norm_num)
  simp only [decode_document, t0, tag_lookup_code tc hinj, hd, e0, tj, and_self, if_true]

/-- Witness for C1 amended: the document
`{"k": [-5, "abc", null, true], "": 1.5, "ab": {}, "u": 2^64 - 1, "f": false}`
parsed on the state `dirty`, with the upstream numbering of the tags. -/
theorem document_round_trip_witness :
    (Function.Injective (tag_code ascii_tags) ∧ sample_document.typed = true ∧
      node.words sample_document.node + 2 < 2 ^ 32 ∧ node.room sample_document.node ≤ 2 ^ 32 ∧
      sample_document.fuel ≤ sample_document.fuel) ∧
    decode_document ascii_tags (run ascii_tags (init_stage2 dirty) sample_document.document).tape
      (run ascii_tags (init_stage2 dirty) sample_document.document).string_buf
      sample_document.fuel = some sample_document :=
  ⟨⟨ascii_tags_injective, by decide, by decide, by decide, Nat.le_refl _⟩,
    document_round_trip ascii_tags ascii_tags_injective dirty sample_document
      sample_document.fuel (by decide) (by decide) (by decide) (Nat.le_refl _)⟩

/-! ## The two tape primitives -/

theorem or_low_shift (w x k : Nat) (h : x < 2 ^ k) : (w ||| x) >>> k = w >>> k := by
  apply Nat.eq_of_testBit_eq
  intro i
  rw [Nat.testBit_shiftRight, Nat.testBit_shiftRight, Nat.testBit_or]
  have : x.testBit (k + i) = false := by
    apply Nat.testBit_lt_two_pow
    calc x < 2 ^ k := h
      _ ≤ 2 ^ (k + i) := Nat.pow_le_pow_right (by decide) (Nat.le_add_right k i)
  rw [this, Bool.or_false]

/-- C14, amended (contract of `write_tape`): for every payload `v < 2 ^ 56`,
every tag `t` (whose byte is `tc t % 256`, which is `tc t` itself for an 8-bit
tag) and every parser state, `write_tape(v, t)` stores at index `current_loc` a
word whose top eight bits are the tag byte and whose low 56 bits are `v`, leaves
`current_loc` at `(current_loc + 1) mod 2 ^ 32`, which is an increase by exactly
one whenever `current_loc + 1` is below `2 ^ 32`, and leaves every other tape
word, the string buffer, the string cursor, the scope descriptors and the status
flags unchanged. -/
theorem write_tape_contract (tc : tape_type → Nat) (s : parser) (v : Nat) (t : tape_type)
    (hv : v < 2 ^ 56) :
    word_tag ((write_tape tc s v t).tape s.current_loc) = tc t % 256 ∧
    (tc t < 256 → word_tag ((write_tape tc s v t).tape s.current_loc) = tc t) ∧
    word_payload ((write_tape tc s v t).tape s.current_loc) = v ∧
    (write_tape tc s v t).current_loc = (s.current_loc + 1) % 2 ^ 32 ∧
    (s.current_loc + 1 < 2 ^ 32 → (write_tape tc s v t).current_loc = s.current_loc + 1) ∧
    (∀ i, i ≠ s.current_loc → (write_tape tc s v t).tape i = s.tape i) ∧
    (write_tape tc s v t).string_buf = s.string_buf ∧
    (write_tape tc s v t).current_string_buf_loc = s.current_string_buf_loc ∧
    (write_tape tc s v t).containing_scope = s.containing_scope ∧
    (write_tape tc s v t).valid = s.valid ∧
    (write_tape tc s v t).error = s.error := by
  have hw : (write_tape tc s v t).tape s.current_loc = v + (tc t % 256) * 2 ^ 56 := by
    simp only [write_tape, Function.update_same]
    exact or_tag_word tc t v hv
  have ht : tc t % 256 < 256 := Nat.mod_lt _ (by decide)
  have htag : word_tag ((write_tape tc s v t).tape s.current_loc) = tc t % 256 := by
    rw [hw, word_tag_eq]
    omega
  refine ⟨htag, fun h => ?_, ?_, rfl, fun h => ?_, fun i hi => ?_, rfl, rfl, rfl, rfl, rfl⟩
  · rw [htag]
    exact Nat.mod_eq_of_lt h
  · rw [hw, word_payload_eq]
    omega
  · exact Nat.mod_eq_of_lt h
  · exact Function.update_noteq hi _ _

/-- Witness for C14 amended: the payload `12345` with the tag `STRING` written on the
state `dirty` (tape cursor 9). -/
theorem write_tape_contract_witness :
    (12345 : Nat) < 2 ^ 56 ∧
    word_tag ((write_tape ascii_tags dirty 12345 tape_type.STRING).tape dirty.current_loc) = 34 ∧
    word_payload ((write_tape ascii_tags dirty 12345 tape_type.STRING).tape dirty.current_loc)
      = 12345 ∧
    (write_tape ascii_tags dirty 12345 tape_type.STRING).current_loc = 10 :=
  have h := write_tape_contract ascii_tags dirty 12345 tape_type.STRING (by decide)
  ⟨by decide, h.2.1 (by decide), h.2.2.1, h.2.2.2.2.1 (by decide)⟩

/-- C15 (`end_scope` is an in-place patch): for every parser state whose tape
cursor is a `uint32_t` value, `end_scope(depth)` leaves the tape cursor, the
string cursor, the string buffer, every scope descriptor, the status flags and
every tape word other than the one at `containing_scope[depth].tape_index`
unchanged; in that word the top eight (tag) bits are preserved, and when the
word has payload 0 (as written by the start callback) its low 32 bits become the
cursor value and its bits 32 to 55 become `min(count, 2 ^ 24 - 1)`. -/
theorem end_scope_patch (s : parser) (depth : Nat) (hc : s.current_loc < 2 ^ 32) :
    (end_scope s depth).current_loc = s.current_loc ∧
    (end_scope s depth).current_string_buf_loc = s.current_string_buf_loc ∧
    (end_scope s depth).string_buf = s.string_buf ∧
    (end_scope s depth).containing_scope = s.containing_scope ∧
    (end_scope s depth).valid = s.valid ∧
    (end_scope s depth).error = s.error ∧
    (∀ i, i ≠ (s.containing_scope depth).tape_index → (end_scope s depth).tape i = s.tape i) ∧
    word_tag ((end_scope s depth).tape (s.containing_scope depth).tape_index)
      = word_tag (s.tape (s.containing_scope depth).tape_index) ∧
    (word_payload (s.tape (s.containing_scope depth).tape_index) = 0 →
      word_low32 ((end_scope s depth).tape (s.containing_scope depth).tape_index)
        = s.current_loc ∧
      word_count ((end_scope s depth).tape (s.containing_scope depth).tape_index)
        = min (s.containing_scope depth).count (2 ^ 24 - 1)) := by
  have hcnt := cntsat_eq (s.containing_scope depth).count
  have hmin := Nat.min_le_right (s.containing_scope depth).count (2 ^ 24 - 1)
  have hx : s.current_loc |||
      ((if (s.containing_scope depth).count > 0xFFFFFF then 0xFFFFFF
        else (s.containing_scope depth).count) <<< 32)
      = s.current_loc + min (s.containing_scope depth).count (2 ^ 24 - 1) * 2 ^ 32 := by
    rw [hcnt, or_shift_eq_add _ _ _ hc]
  have hw : (end_scope s depth).tape (s.containing_scope depth).tape_index
      = s.tape (s.containing_scope depth).tape_index |||
        (s.current_loc + min (s.containing_scope depth).count (2 ^ 24 - 1) * 2 ^ 32) := by
    simp only [end_scope, Function.update_same]
    rw [hx]
  refine ⟨rfl, rfl, rfl, rfl, rfl, rfl, fun i hi => ?_, ?_, fun h0 => ?_⟩
  · simp only [end_scope]
    exact Function.update_noteq hi _ _
  · rw [hw]
    unfold word_tag
    exact or_low_shift _ _ 56 (by omega)
  · rw [word_payload_eq] at h0
    have hsplit : s.tape (s.containing_scope depth).tape_index
        = (s.tape (s.containing_scope depth).tape_index / 2 ^ 56) <<< 56 := by
      rw [Nat.shiftLeft_eq]
      omega
    have hw2 : (end_scope s depth).tape (s.containing_scope depth).tape_index
        = (s.current_loc + min (s.containing_scope depth).count (2 ^ 24 - 1) * 2 ^ 32)
          + (s.tape (s.containing_scope depth).tape_index / 2 ^ 56) * 2 ^ 56 := by
      rw [hw]
      nth_rewrite 1 [hsplit]
      rw [Nat.or_comm]
      exact or_shift_eq_add _ _ 56 (by omega)
    rw [hw2, word_low32_eq, word_count_eq]
    constructor <;> omega

/-- Witness for C15: closing the document scope right after
`on_start_document(0)`, two `increment_count(0)` and `on_null_atom` on a blank
parser: the open word at index 0 has payload 0, the cursor is 2, the count 2. -/
theorem end_scope_patch_witness :
    (run ascii_tags (init_stage2 blank)
      [callback.start_document 0, callback.count 0, callback.count 0,
        callback.null_atom]).current_loc < 2 ^ 32 ∧
    word_tag ((end_scope (run ascii_tags (init_stage2 blank)
      [callback.start_document 0, callback.count 0, callback.count 0,
        callback.null_atom]) 0).tape 0) = 114 ∧
    word_low32 ((end_scope (run ascii_tags (init_stage2 blank)
      [callback.start_document 0, callback.count 0, callback.count 0,
        callback.null_atom]) 0).tape 0) = 2 ∧
    word_count ((end_scope (run ascii_tags (init_stage2 blank)
      [callback.start_document 0, callback.count 0, callback.count 0,
        callback.null_atom]) 0).tape 0) = 2 :=
  have h := end_scope_patch (run ascii_tags (init_stage2 blank)
    [callback.start_document 0, callback.count 0, callback.count 0, callback.null_atom]) 0
    (by decide)
  ⟨by decide, h.2.2.2.2.2.2.2.1.trans (by decide), (h.2.2.2.2.2.2.2.2 (by decide)).1,
    (h.2.2.2.2.2.2.2.2 (by decide)).2⟩

/-! ## Counts per depth -/

theorem word_bit55_eq (w : Nat) : word_bit55 w = true ↔ w / 2 ^ 55 % 2 = 1 := by
  unfold word_bit55
  rw [Nat.testBit_to_div_mod]
  simp

theorem word_bits_32_54_eq (w : Nat) : word_bits_32_54 w = w / 2 ^ 32 % 2 ^ 23 := by
  unfold word_bits_32_54
  rw [and_0x7fffff, Nat.shiftRight_eq_div_pow]

theorem bit55_clear (x t : Nat) (hx : x < 2 ^ 55) : (x + t * 2 ^ 56) / 2 ^ 55 % 2 = 0 := by
  omega

theorem bit55_set (x t : Nat) (hx : x < 2 ^ 55) :
    (x + 2 ^ 55 + t * 2 ^ 56) / 2 ^ 55 % 2 = 1 := by
  omega

theorem short_word_value (tc : tape_type → Nat) (s : parser) (bs : List (Fin 256))
    (hc : s.current_loc < 2 ^ 32) (hlen : bs.length ≤ 0x7fffff) :
    (on_string tc s bs).tape s.current_loc
      = s.current_string_buf_loc % 2 ^ 32 + bs.length * 2 ^ 32
        + (tc tape_type.STRING % 256) * 2 ^ 56 := by
  have hp : s.current_string_buf_loc % 2 ^ 32 < 2 ^ 32 := Nat.mod_lt _ (by decide)
  rw [short_string_state tc s bs hc hlen]
  simp only [Function.update_same]
  have e : tag_word tc tape_type.STRING = (tc tape_type.STRING % 256) <<< 56 := by
    rw [tag_word_eq, Nat.shiftLeft_eq]
  rw [e, or_three_fields _ _ _ hp (by omega)]

theorem long_word_value (tc : tape_type → Nat) (s : parser) (bs : List (Fin 256))
    (hc : s.current_loc < 2 ^ 32) (hlen : 0x7fffff < bs.length) (hlt : bs.length < 2 ^ 32)
    (hp : s.current_string_buf_loc + 2 < 2 ^ 32) :
    (on_string tc s bs).tape s.current_loc
      = (s.current_string_buf_loc + 2) + (2 ^ 23 + bs.length / 2 ^ 9) * 2 ^ 32
        + (tc tape_type.STRING % 256) * 2 ^ 56 := by
  rw [long_string_state tc s bs hc hlen hlt]
  simp only [Function.update_same]
  exact long_word_eq tc _ _ hp hlt

/-- C18 (overflow marker): for every string-cursor offset `p` and every length
`len` with `p + len + 3 ≤ 2 ^ 32`, in any parser state whose tape cursor is a
`uint32_t` value, after `on_start_string`, the `len` bytes of the string and
`on_end_string` the word written at the old tape cursor still has the tag
`STRING`, its bit 55 is set exactly when `len > 0x7fffff`, and its bits 32-54
hold `len` itself when bit 55 is clear and `len >> 9` when bit 55 is set. -/
theorem overflow_marker (tc : tape_type → Nat) (s : parser) (bs : List (Fin 256))
    (hc : s.current_loc < 2 ^ 32)
    (hp : s.current_string_buf_loc + bs.length + 3 ≤ 2 ^ 32) :
    word_tag ((on_string tc s bs).tape s.current_loc) = tc tape_type.STRING % 256 ∧
    (word_bit55 ((on_string tc s bs).tape s.current_loc) = true ↔ 0x7fffff < bs.length) ∧
    (word_bit55 ((on_string tc s bs).tape s.current_loc) = false →
      word_bits_32_54 ((on_string tc s bs).tape s.current_loc) = bs.length) ∧
    (word_bit55 ((on_string tc s bs).tape s.current_loc) = true →
      word_bits_32_54 ((on_string tc s bs).tape s.current_loc) = bs.length >>> 9) := by
  have ht : tc tape_type.STRING % 256 < 256 := Nat.mod_lt _ (by decide)
  have hpm : s.current_string_buf_loc % 2 ^ 32 < 2 ^ 32 := Nat.mod_lt _ (by decide)
  by_cases hlen : bs.length ≤ 0x7fffff
  · have hw := short_word_value tc s bs hc hlen
    have hb : ¬ word_bit55 ((on_string tc s bs).tape s.current_loc) = true := by
      rw [word_bit55_eq, hw, bit55_clear _ _ (by omega)]
      decide
    refine ⟨?_, ⟨fun h => absurd h hb, fun h => absurd hlen (Nat.not_le.mpr h)⟩, fun _ => ?_,
      fun h => absurd h hb⟩
    · rw [hw, word_tag_eq]
      omega
    · rw [word_bits_32_54_eq, hw]
      omega
  · have hlen' : 0x7fffff < bs.length := Nat.lt_of_not_le hlen
    have hw := long_word_value tc s bs hc hlen' (by omega) (by omega)
    have hb : word_bit55 ((on_string tc s bs).tape s.current_loc) = true := by
      have e : s.current_string_buf_loc + 2 + (2 ^ 23 + bs.length / 2 ^ 9) * 2 ^ 32
          = (s.current_string_buf_loc + 2 + bs.length / 2 ^ 9 * 2 ^ 32) + 2 ^ 55 := by omega
      rw [word_bit55_eq, hw, e]
      exact bit55_set _ _ (by omega)
    refine ⟨?_, ⟨fun _ => hlen', fun _ => hb⟩, fun h => ?_, fun _ => ?_⟩
    · rw [hw, word_tag_eq]
      omega
    · rw [hb] at h
      exact absurd h (by decide)
    · rw [word_bits_32_54_eq, hw, Nat.shiftRight_eq_div_pow]
      omega

/-- Witness for C18: on the state `dirty` (string cursor 17), the three-byte
string `abc` leaves bit 55 clear and the length 3 in bits 32-54, and a string of
`0x800000` bytes sets bit 55. -/
theorem overflow_marker_witness :
    (dirty.current_loc < 2 ^ 32 ∧
      dirty.current_string_buf_loc + ([97, 98, 99] : List (Fin 256)).length + 3 ≤ 2 ^ 32) ∧
    word_bits_32_54 ((on_string ascii_tags dirty [97, 98, 99]).tape dirty.current_loc) = 3 ∧
    word_bit55 ((on_string ascii_tags dirty (List.replicate 0x800000 (7 : Fin 256))).tape
      dirty.current_loc) = true :=
  have h1 : dirty.current_loc < 2 ^ 32 := by decide
  have h2 : 0x7fffff < (List.replicate 0x800000 (7 : Fin 256)).length := by
    rw [List.length_replicate]; decide
  have h3 : dirty.current_string_buf_loc + (List.replicate 0x800000 (7 : Fin 256)).length + 3
      ≤ 2 ^ 32 := by
    rw [List.length_replicate]; decide
  have hs := overflow_marker ascii_tags dirty [97, 98, 99] h1 (by decide)
  have hl := overflow_marker ascii_tags dirty (List.replicate 0x800000 (7 : Fin 256)) h1 h3
  ⟨⟨h1, by decide⟩,
    hs.2.2.1 (Bool.eq_false_iff.mpr (fun h => absurd (hs.2.1.mp h) (by decide))),
    hl.2.1.mpr h2⟩

/-! ## The two length-extension bytes -/

/-- C20, amended (the length extension is ASCII-safe): for every string whose 32-bit
length `len` exceeds `0x7fffff`, written in any parser state whose tape cursor
is a `uint32_t` value, the two bytes that `on_end_string` leaves at the string's
original start are `32 + ((len & 0x1f0) >> 4)`, which lies in `[32, 63]`, and
`32 + (len & 0xf)`, which lies in `[32, 47]`, both below 128; `len >> 9` fits 23
bits; and `len >> 9`, the first byte minus 32 (five bits) and the second byte
minus 32 (four bits) are the digits of `len` at bit positions 9, 4 and 0, so
that `len` is both their bitwise OR and their sum after shifting: every bit of
`len` is in exactly one of the three parts. When the string's start offset plus
2 is below `2 ^ 32`, `len >> 9` is what bits 32-54 of the tape word hold. -/
theorem length_extension_ascii_safe (tc : tape_type → Nat) (s : parser) (bs : List (Fin 256))
    (hc : s.current_loc < 2 ^ 32) (hlen : 0x7fffff < bs.length) (hlt : bs.length < 2 ^ 32) :
    (on_string tc s bs).string_buf s.current_string_buf_loc
      = 32 + ((bs.length &&& 0x1f0) >>> 4) ∧
    (on_string tc s bs).string_buf (s.current_string_buf_loc + 1)
      = 32 + (bs.length &&& 0xf) ∧
    (32 ≤ (on_string tc s bs).string_buf s.current_string_buf_loc ∧
      (on_string tc s bs).string_buf s.current_string_buf_loc ≤ 63) ∧
    (32 ≤ (on_string tc s bs).string_buf (s.current_string_buf_loc + 1) ∧
      (on_string tc s bs).string_buf (s.current_string_buf_loc + 1) ≤ 47) ∧
    bs.length >>> 9 < 2 ^ 23 ∧
    (((bs.length >>> 9) <<< 9)
        ||| (((on_string tc s bs).string_buf s.current_string_buf_loc - 32) <<< 4))
      ||| ((on_string tc s bs).string_buf (s.current_string_buf_loc + 1) - 32) = bs.length ∧
    (bs.length >>> 9) * 2 ^ 9
        + ((on_string tc s bs).string_buf s.current_string_buf_loc - 32) * 2 ^ 4
        + ((on_string tc s bs).string_buf (s.current_string_buf_loc + 1) - 32) = bs.length ∧
    (s.current_string_buf_loc + 2 < 2 ^ 32 →
      word_bits_32_54 ((on_string tc s bs).tape s.current_loc) = bs.length >>> 9) := by
  have hst := long_string_state tc s bs hc hlen hlt
  have hm := and_0x1f0_shift bs.length
  have hl := and_0xf bs.length
  have h5 : bs.length / 2 ^ 4 % 2 ^ 5 < 2 ^ 5 := Nat.mod_lt _ (by decide)
  have h4 : bs.length % 2 ^ 4 < 2 ^ 4 := Nat.mod_lt _ (by decide)
  have hb0 : (on_string tc s bs).string_buf s.current_string_buf_loc
      = 32 + ((bs.length &&& 0x1f0) >>> 4) := by
    rw [hst]
    dsimp only
    rw [Function.update_noteq (by omega), Function.update_noteq (by omega),
      Function.update_same, hm]
    omega
  have hb1 : (on_string tc s bs).string_buf (s.current_string_buf_loc + 1)
      = 32 + (bs.length &&& 0xf) := by
    rw [hst]
    dsimp only
    rw [Function.update_noteq (by omega), Function.update_same, hl]
    omega
  refine ⟨hb0, hb1, ?_, ?_, ?_, ?_, ?_, fun hp => ?_⟩
  · rw [hb0, hm]
    omega
  · rw [hb1, hl]
    omega
  · rw [Nat.shiftRight_eq_div_pow]
    omega
  · rw [hb0, hb1, hm, hl, Nat.add_sub_cancel_left, Nat.add_sub_cancel_left,
      Nat.shiftRight_eq_div_pow, length_from_parts _ _ _ h4 h5]
    omega
  · rw [hb0, hb1, hm, hl, Nat.add_sub_cancel_left, Nat.add_sub_cancel_left,
      Nat.shiftRight_eq_div_pow]
    omega
  · rw [word_bits_32_54_eq, long_word_value tc s bs hc hlen hlt hp, Nat.shiftRight_eq_div_pow]
    omega

/-- Witness for C20 amended: a string of `0x8001ff` bytes written at string cursor 17 on
the state `dirty`: the two bytes left at offsets 17 and 18 are 63 and 47. -/
theorem length_extension_ascii_safe_witness :
    (dirty.current_loc < 2 ^ 32 ∧ 0x7fffff < (List.replicate 0x8001ff (7 : Fin 256)).length ∧
      (List.replicate 0x8001ff (7 : Fin 256)).length < 2 ^ 32) ∧
    (on_string ascii_tags dirty (List.replicate 0x8001ff (7 : Fin 256))).string_buf
      dirty.current_string_buf_loc = 63 ∧
    (on_string ascii_tags dirty (List.replicate 0x8001ff (7 : Fin 256))).string_buf
      (dirty.current_string_buf_loc + 1) = 47 :=
  have h1 : dirty.current_loc < 2 ^ 32 := by decide
  have h2 : 0x7fffff < (List.replicate 0x8001ff (7 : Fin 256)).length := by
    rw [List.length_replicate]; decide
  have h3 : (List.replicate 0x8001ff (7 : Fin 256)).length < 2 ^ 32 := by
    rw [List.length_replicate]; decide
  have h := length_extension_ascii_safe ascii_tags dirty (List.replicate 0x8001ff (7 : Fin 256))
    h1 h2 h3
  have e : (List.replicate 0x8001ff (7 : Fin 256)).length = 0x8001ff := List.length_replicate _ _
  ⟨⟨h1, h2, h3⟩, h.1.trans (by rw [e]; decide), h.2.1.trans (by rw [e]; decide)⟩

/-! ## Validity and the error code -/

theorem step_valid_of_not_success (tc : tape_type → Nat) (s : parser) (c : callback)
    (h : ∀ e, c ≠ callback.success e) : (step tc s c).valid = s.valid := by
  cases c with
  | success e => exact absurd rfl (h e)
  | error e => rfl
  | string bs => exact (on_end_string_flags tc _ _).1
  | _ => rfl

theorem success_then_no_error (tc : tape_type → Nat) :
    ∀ (cs : List callback) (s : parser), status_codes_proper cs = true →
      no_error_call cs = true → s.valid = true → s.error = error_code.SUCCESS →
      (run tc s cs).valid = true ∧ (run tc s cs).error = error_code.SUCCESS := by
  intro cs
  induction cs with
  | nil => intro s _ _ hv he; exact ⟨hv, he⟩
  | cons c cs ih =>
    intro s hp hn hv he
    rw [run_cons]
    cases c with
    | error e => simp [no_error_call] at hn
    | success e =>
      simp only [status_codes_proper, Bool.and_eq_true, decide_eq_true_eq] at hp
      simp only [no_error_call] at hn
      exact ih _ hp.2 hn rfl hp.1
    | string bs =>
      simp only [status_codes_proper] at hp
      simp only [no_error_call] at hn
      have hf := step_flags tc s (callback.string bs) (by intro e; simp) (by intro e; simp)
      exact ih _ hp hn (hf.1.trans hv) (hf.2.trans he)
    | _ =>
      simp only [status_codes_proper] at hp
      simp only [no_error_call] at hn
      exact ih _ hp hn hv he

theorem valid_iff_success_from (tc : tape_type → Nat) :
    ∀ (cs : List callback) (s : parser), status_codes_proper cs = true →
      no_error_after_success cs = true → s.valid = false → s.error ≠ error_code.SUCCESS →
      ((run tc s cs).valid = true ↔ (run tc s cs).error = error_code.SUCCESS) := by
  intro cs
  induction cs with
  | nil =>
    intro s _ _ hv he
    rw [run_nil, hv]
    exact ⟨fun h => absurd h (by decide), fun h => absurd h he⟩
  | cons c cs ih =>
    intro s hp hn hv he
    rw [run_cons]
    cases c with
    | error e =>
      simp only [status_codes_proper, Bool.and_eq_true, decide_eq_true_eq] at hp
      simp only [no_error_after_success] at hn
      exact ih _ hp.2 hn hv hp.1
    | success e =>
      simp only [status_codes_proper, Bool.and_eq_true, decide_eq_true_eq] at hp
      simp only [no_error_after_success] at hn
      have h := success_then_no_error tc cs (step tc s (callback.success e)) hp.2 hn rfl hp.1
      exact ⟨fun _ => h.2, fun _ => h.1⟩
    | string bs =>
      simp only [status_codes_proper] at hp
      simp only [no_error_after_success] at hn
      have hf := step_flags tc s (callback.string bs) (by intro e; simp) (by intro e; simp)
      exact ih _ hp hn (hf.1.trans hv) (by rw [hf.2]; exact he)
    | _ =>
      simp only [status_codes_proper] at hp
      simp only [no_error_after_success] at hn
      exact ih _ hp hn hv he

theorem success_gives_valid (tc : tape_type → Nat) :
    ∀ (cs : List callback) (s : parser), status_codes_proper cs = true →
      (s.error = error_code.SUCCESS → s.valid = true) →
      (run tc s cs).error = error_code.SUCCESS → (run tc s cs).valid = true := by
  intro cs
  induction cs with
  | nil => intro s _ h; exact h
  | cons c cs ih =>
    intro s hp h
    rw [run_cons]
    cases c with
    | error e =>
      simp only [status_codes_proper, Bool.and_eq_true, decide_eq_true_eq] at hp
      exact ih _ hp.2 (fun h' => absurd h' hp.1)
    | success e =>
      simp only [status_codes_proper, Bool.and_eq_true, decide_eq_true_eq] at hp
      exact ih _ hp.2 (fun _ => rfl)
    | string bs =>
      simp only [status_codes_proper] at hp
      have hf := step_flags tc s (callback.string bs) (by intro e; simp) (by intro e; simp)
      exact ih _ hp (fun h' => hf.1.trans (h (hf.2 ▸ h')))
    | _ =>
      simp only [status_codes_proper] at hp
      exact ih _ hp h

/-- C11, as stated, fails: after `init_stage2`, the two calls
`on_success(SUCCESS)` and `on_error(e)` with `e` a code other than `SUCCESS`, in
this order, leave `valid` true while `error` holds `e`: `on_error` stores the
code and does not touch `valid`. -/
theorem on_error_after_success_keeps_valid :
    status_codes_proper [callback.success error_code.SUCCESS,
      callback.error (error_code.other 5)] = true ∧
    (run ascii_tags (init_stage2 blank)
      [callback.success error_code.SUCCESS, callback.error (error_code.other 5)]).valid = true ∧
    (run ascii_tags (init_stage2 blank)
      [callback.success error_code.SUCCESS, callback.error (error_code.other 5)]).error
      = error_code.other 5 ∧
    ¬ ((run ascii_tags (init_stage2 blank)
        [callback.success error_code.SUCCESS, callback.error (error_code.other 5)]).valid = true ↔
      (run ascii_tags (init_stage2 blank)
        [callback.success error_code.SUCCESS, callback.error (error_code.other 5)]).error
        = error_code.SUCCESS) := by
  refine ⟨by decide, rfl, rfl, ?_⟩
  intro h
  exact absurd (h.mp rfl) (by decide)

/-- C11, amended (validity and the error code): in every state reached from
`init_stage2` by a sequence of callbacks in which `on_success` is only called
with the success code and `on_error` only with another code, `error` holding
the success code implies that `valid` is true; if moreover no `on_error` call
follows an `on_success` call (a failure ends the parse and success is marked
last), `valid` is true if and only if `error` holds the success code. `on_error`
itself stores the code and leaves `valid` as it was. -/
theorem valid_iff_success_code (tc : tape_type → Nat) (s0 : parser) (cs : List callback)
    (hp : status_codes_proper cs = true) :
    ((run tc (init_stage2 s0) cs).error = error_code.SUCCESS →
      (run tc (init_stage2 s0) cs).valid = true) ∧
    (no_error_after_success cs = true →
      ((run tc (init_stage2 s0) cs).valid = true ↔
        (run tc (init_stage2 s0) cs).error = error_code.SUCCESS)) ∧
    (∀ (s : parser) (e : error_code),
      (on_error s e).1.valid = s.valid ∧ (on_error s e).1.error = e) :=
  ⟨success_gives_valid tc cs (init_stage2 s0) hp (fun h => absurd h (by simp [init_stage2])),
    fun hn => valid_iff_success_from tc cs (init_stage2 s0) hp hn rfl (by simp [init_stage2]),
    fun _ _ => ⟨rfl, rfl⟩⟩

/-- Witness for C11 amended: a document that fails (`on_error` with code 3) and
a document that succeeds, both parsed on the state `dirty`. -/
theorem valid_iff_success_code_witness :
    (status_codes_proper [callback.start_document 0, callback.error (error_code.other 3)] = true ∧
      no_error_after_success
        [callback.start_document 0, callback.error (error_code.other 3)] = true) ∧
    ((run ascii_tags (init_stage2 dirty)
        [callback.start_document 0, callback.error (error_code.other 3)]).valid = true ↔
      (run ascii_tags (init_stage2 dirty)
        [callback.start_document 0, callback.error (error_code.other 3)]).error
        = error_code.SUCCESS) ∧
    ((run ascii_tags (init_stage2 dirty)
        [callback.start_document 0, callback.null_atom, callback.end_document 0,
          callback.success error_code.SUCCESS]).valid = true ↔
      (run ascii_tags (init_stage2 dirty)
        [callback.start_document 0, callback.null_atom, callback.end_document 0,
          callback.success error_code.SUCCESS]).error = error_code.SUCCESS) :=
  ⟨⟨by decide, by decide⟩,
    (valid_iff_success_code ascii_tags dirty
      [callback.start_document 0, callback.error (error_code.other 3)] (by decide)).2.1
      (by decide),
    (valid_iff_success_code ascii_tags dirty
      [callback.start_document 0, callback.null_atom, callback.end_document 0,
        callback.success error_code.SUCCESS] (by decide)).2.1 (by decide)⟩

/-! ## A document as one scope -/

theorem document_calls_run (tc : tape_type → Nat) (s : parser) (body : List node) :
    run tc s (document_calls body)
      = step tc (run tc (step tc s (scope_kind.document.start_call 0)) (node.calls_list 0 body))
          (scope_kind.document.end_call 0) := by
  simp only [document_calls, run_cons, run_append, run_nil, scope_kind.start_call,
    scope_kind.end_call]

/-! ## Where the two patches land -/

theorem on_end_string_buf (tc : tape_type → Nat) (s : parser) (dst : Nat)
    (h : s.current_string_buf_loc ≤ dst) :
    s.current_string_buf_loc ≤ (on_end_string tc s dst).current_string_buf_loc ∧
    (∀ j, j < s.current_string_buf_loc → (on_end_string tc s dst).string_buf j = s.string_buf j) := by
  by_cases hl : str_length_of s dst ≤ 0x7fffff
  · rw [on_end_string_short tc s dst hl]
    refine ⟨by dsimp only; omega, fun j hj => ?_⟩
    dsimp only
    rw [Function.update_noteq (by omega)]
  · rw [on_end_string_long tc s dst (Nat.lt_of_not_le hl)]
    refine ⟨by dsimp only; omega, fun j hj => ?_⟩
    dsimp only
    rw [Function.update_noteq (by omega), Function.update_noteq (by omega),
      Function.update_noteq (by omega)]
    unfold memmove
    rw [if_neg (by omega)]

theorem write_tape_frame (tc : tape_type → Nat) (s : parser) (v : Nat) (t : tape_type) :
    (write_tape tc s v t).current_loc = (s.current_loc + 1) % 2 ^ 32 ∧
    (write_tape tc s v t).current_string_buf_loc = s.current_string_buf_loc ∧
    (write_tape tc s v t).string_buf = s.string_buf ∧
    (write_tape tc s v t).containing_scope = s.containing_scope ∧
    (∀ i, i ≠ s.current_loc → (write_tape tc s v t).tape i = s.tape i) :=
  ⟨rfl, rfl, rfl, rfl, fun _ hi => Function.update_noteq hi _ _⟩

theorem end_callback_frame (tc : tape_type → Nat) (s : parser) (d : Nat) (t : tape_type) :
    (end_scope (write_tape tc s (s.containing_scope d).tape_index t) d).current_loc
      = (s.current_loc + 1) % 2 ^ 32 ∧
    (end_scope (write_tape tc s (s.containing_scope d).tape_index t) d).current_string_buf_loc
      = s.current_string_buf_loc ∧
    (end_scope (write_tape tc s (s.containing_scope d).tape_index t) d).string_buf
      = s.string_buf ∧
    (∀ i, i ≠ s.current_loc → i ≠ (s.containing_scope d).tape_index →
      (end_scope (write_tape tc s (s.containing_scope d).tape_index t) d).tape i = s.tape i) := by
  refine ⟨rfl, rfl, rfl, fun i h1 h2 => ?_⟩
  simp only [end_scope, write_tape]
  rw [Function.update_noteq h2, Function.update_noteq h1]

theorem start_callback_frame (tc : tape_type → Nat) (s : parser) (d : Nat) (t : tape_type) :
    (write_tape tc (open_scope s d) 0 t).current_loc = (s.current_loc + 1) % 2 ^ 32 ∧
    (write_tape tc (open_scope s d) 0 t).current_string_buf_loc = s.current_string_buf_loc ∧
    (write_tape tc (open_scope s d) 0 t).string_buf = s.string_buf ∧
    (∀ i, i ≠ s.current_loc → (write_tape tc (open_scope s d) 0 t).tape i = s.tape i) :=
  ⟨rfl, rfl, rfl, fun _ hi => Function.update_noteq hi _ _⟩

theorem primitive_buffer (tc : tape_type → Nat) (s : parser) (c : primitive)
    (hp : c.pointer_ok s = true) :
    s.current_string_buf_loc ≤ (c.apply tc s).current_string_buf_loc ∧
    (∀ j, j < s.current_string_buf_loc → (c.apply tc s).string_buf j = s.string_buf j) := by
  cases c with
  | end_string dst =>
    simp only [primitive.pointer_ok, decide_eq_true_eq] at hp
    exact on_end_string_buf tc s dst hp
  | number_s64 v =>
    obtain ⟨_, _, _, _, _, h6, h7⟩ := number_words tc s tape_type.INT64 (bits_of_int64 v)
    exact ⟨Nat.le_of_eq h7.symm, fun j _ => congrFun h6 j⟩
  | number_u64 v =>
    obtain ⟨_, _, _, _, _, h6, h7⟩ := number_words tc s tape_type.UINT64 v
    exact ⟨Nat.le_of_eq h7.symm, fun j _ => congrFun h6 j⟩
  | number_double v =>
    obtain ⟨_, _, _, _, _, h6, h7⟩ := number_words tc s tape_type.DOUBLE v
    exact ⟨Nat.le_of_eq h7.symm, fun j _ => congrFun h6 j⟩
  | _ => exact ⟨Nat.le_refl _, fun _ _ => rfl⟩

theorem primitive_tape (tc : tape_type → Nat) (s : parser) (c : primitive)
    (hcap : s.current_loc + c.words < 2 ^ 32) :
    (c.apply tc s).current_loc = s.current_loc + c.words ∧
    (∀ i, i < s.current_loc → (c.apply tc s).tape i ≠ s.tape i →
      (∃ d, (c = primitive.end_document d ∨ c = primitive.end_object d
          ∨ c = primitive.end_array d) ∧ i = (s.containing_scope d).tape_index) ∨
      (∃ dst, c = primitive.end_string dst ∧ i + 1 = s.current_loc)) := by
  cases c with
  | error e => exact ⟨rfl, fun i _ h => absurd rfl h⟩
  | success e => exact ⟨rfl, fun i _ h => absurd rfl h⟩
  | count d => exact ⟨rfl, fun i _ h => absurd rfl h⟩
  | start_document d =>
    simp only [primitive.words] at hcap
    obtain ⟨h1, _, _, h4⟩ := start_callback_frame tc s d tape_type.ROOT
    exact ⟨h1.trans (Nat.mod_eq_of_lt hcap), fun i hi h => absurd (h4 i (by omega)) h⟩
  | start_object d =>
    simp only [primitive.words] at hcap
    obtain ⟨h1, _, _, h4⟩ := start_callback_frame tc s d tape_type.START_OBJECT
    exact ⟨h1.trans (Nat.mod_eq_of_lt hcap), fun i hi h => absurd (h4 i (by omega)) h⟩
  | start_array d =>
    simp only [primitive.words] at hcap
    obtain ⟨h1, _, _, h4⟩ := start_callback_frame tc s d tape_type.START_ARRAY
    exact ⟨h1.trans (Nat.mod_eq_of_lt hcap), fun i hi h => absurd (h4 i (by omega)) h⟩
  | end_document d =>
    simp only [primitive.words] at hcap
    obtain ⟨h1, _, _, h4⟩ := end_callback_frame tc s d tape_type.ROOT
    refine ⟨h1.trans (Nat.mod_eq_of_lt hcap), fun i hi h => Or.inl ⟨d, Or.inl rfl, ?_⟩⟩
    by_contra hne
    exact h (h4 i (by omega) hne)
  | end_object d =>
    simp only [primitive.words] at hcap
    obtain ⟨h1, _, _, h4⟩ := end_callback_frame tc s d tape_type.END_OBJECT
    refine ⟨h1.trans (Nat.mod_eq_of_lt hcap),
      fun i hi h => Or.inl ⟨d, Or.inr (Or.inl rfl), ?_⟩⟩
    by_contra hne
    exact h (h4 i (by omega) hne)
  | end_array d =>
    simp only [primitive.words] at hcap
    obtain ⟨h1, _, _, h4⟩ := end_callback_frame tc s d tape_type.END_ARRAY
    refine ⟨h1.trans (Nat.mod_eq_of_lt hcap),
      fun i hi h => Or.inl ⟨d, Or.inr (Or.inr rfl), ?_⟩⟩
    by_contra hne
    exact h (h4 i (by omega) hne)
  | true_atom =>
    simp only [primitive.words] at hcap
    obtain ⟨h1, _, _, _, h5⟩ := write_tape_frame tc s 0 tape_type.TRUE_VALUE
    exact ⟨h1.trans (Nat.mod_eq_of_lt hcap), fun i hi h => absurd (h5 i (by omega)) h⟩
  | false_atom =>
    simp only [primitive.words] at hcap
    obtain ⟨h1, _, _, _, h5⟩ := write_tape_frame tc s 0 tape_type.FALSE_VALUE
    exact ⟨h1.trans (Nat.mod_eq_of_lt hcap), fun i hi h => absurd (h5 i (by omega)) h⟩
  | null_atom =>
    simp only [primitive.words] at hcap
    obtain ⟨h1, _, _, _, h5⟩ := write_tape_frame tc s 0 tape_type.NULL_VALUE
    exact ⟨h1.trans (Nat.mod_eq_of_lt hcap), fun i hi h => absurd (h5 i (by omega)) h⟩
  | start_string =>
    simp only [primitive.words] at hcap
    obtain ⟨h1, _, _, _, h5⟩ :=
      write_tape_frame tc s (s.current_string_buf_loc % 2 ^ 32) tape_type.STRING
    exact ⟨h1.trans (Nat.mod_eq_of_lt hcap), fun i hi h => absurd (h5 i (by omega)) h⟩
  | end_string dst =>
    simp only [primitive.words] at hcap
    obtain ⟨h1, _, h3⟩ := on_end_string_tape tc s dst
    refine ⟨h1, fun i hi h => Or.inr ⟨dst, rfl, ?_⟩⟩
    by_contra hne
    apply h
    apply h3
    unfold prev_loc
    omega
  | number_s64 v =>
    simp only [primitive.words] at hcap
    obtain ⟨h1, _, _, _, h5, _, _⟩ := number_words tc s tape_type.INT64 (bits_of_int64 v)
    exact ⟨h1.trans (Nat.mod_eq_of_lt hcap),
      fun i hi h => absurd (h5 i (by omega) (by omega)) h⟩
  | number_u64 v =>
    simp only [primitive.words] at hcap
    obtain ⟨h1, _, _, _, h5, _, _⟩ := number_words tc s tape_type.UINT64 v
    exact ⟨h1.trans (Nat.mod_eq_of_lt hcap),
      fun i hi h => absurd (h5 i (by omega) (by omega)) h⟩
  | number_double v =>
    simp only [primitive.words] at hcap
    obtain ⟨h1, _, _, _, h5, _, _⟩ := number_words tc s tape_type.DOUBLE v
    exact ⟨h1.trans (Nat.mod_eq_of_lt hcap),
      fun i hi h => absurd (h5 i (by omega) (by omega)) h⟩

/-- C19, as stated, fails at the end of the 32-bit tape index range: with the
tape cursor at `2 ^ 32 - 1`, `on_null_atom` (which has no precondition) leaves
the cursor at 0, a decrease; and `on_number_u64(7)` writes its second word at
index 0, an index below the cursor it started with, where neither `end_scope`
nor `on_end_string` is involved. -/
theorem tape_cursor_wraps_at_tape_end :
    primitive.pointer_ok at_tape_end primitive.null_atom = true ∧
    at_tape_end.current_loc = 2 ^ 32 - 1 ∧
    (primitive.apply ascii_tags at_tape_end primitive.null_atom).current_loc = 0 ∧
    (primitive.apply ascii_tags at_tape_end primitive.null_atom).current_loc
      < at_tape_end.current_loc ∧
    primitive.pointer_ok at_tape_end (primitive.number_u64 7) = true ∧
    0 < at_tape_end.current_loc ∧
    at_tape_end.tape 0 = 0 ∧
    (primitive.apply ascii_tags at_tape_end (primitive.number_u64 7)).tape 0 = 7 := by
  refine ⟨rfl, rfl, ?_, ?_, rfl, by decide, rfl, ?_⟩
  · decide
  · decide
  · decide

/-- C19, amended (append-only output): for every callback of the source in
every parser state, given that the final pointer passed to `on_end_string` is
not before the string cursor, the callback does not decrease the string cursor
and changes no string-buffer byte below the string cursor it started with; if
moreover the tape has room for the words the callback appends (the tape cursor
plus their number, which is 2 for a number, 1 for a start or end callback, an
atom and `on_start_string`, and 0 otherwise, stays below `2 ^ 32`), the callback
does not decrease the tape cursor (it advances it by exactly that number), and
the only tape words at indices below the tape cursor it started with that it
modifies are the open word at `containing_scope[depth].tape_index`, patched by
`end_scope` in an end callback, and the word at `current_loc - 1`, patched by
`on_end_string`. -/
theorem append_only (tc : tape_type → Nat) (s : parser) (c : primitive)
    (hp : c.pointer_ok s = true) :
    s.current_string_buf_loc ≤ (c.apply tc s).current_string_buf_loc ∧
    (∀ j, j < s.current_string_buf_loc → (c.apply tc s).string_buf j = s.string_buf j) ∧
    (s.current_loc + c.words < 2 ^ 32 →
      s.current_loc ≤ (c.apply tc s).current_loc ∧
      (c.apply tc s).current_loc = s.current_loc + c.words ∧
      (∀ i, i < s.current_loc → (c.apply tc s).tape i ≠ s.tape i →
        (∃ d, (c = primitive.end_document d ∨ c = primitive.end_object d
            ∨ c = primitive.end_array d) ∧ i = (s.containing_scope d).tape_index) ∨
        (∃ dst, c = primitive.end_string dst ∧ i + 1 = s.current_loc))) :=
  ⟨(primitive_buffer tc s c hp).1, (primitive_buffer tc s c hp).2,
    fun hcap => ⟨by rw [(primitive_tape tc s c hcap).1]; omega, (primitive_tape tc s c hcap).1,
      (primitive_tape tc s c hcap).2⟩⟩

/-- Witness for C19 amended: on the state `dirty` (string cursor 17, tape cursor
9), `on_end_string` with the final pointer 20 and `on_number_s64(-1)`. -/
theorem append_only_witness :
    (primitive.pointer_ok dirty (primitive.end_string 20) = true ∧
      dirty.current_loc + (primitive.end_string 20).words < 2 ^ 32 ∧
      primitive.pointer_ok dirty (primitive.number_s64 (-1)) = true ∧
      dirty.current_loc + (primitive.number_s64 (-1)).words < 2 ^ 32) ∧
    dirty.current_string_buf_loc
      ≤ (primitive.apply ascii_tags dirty (primitive.end_string 20)).current_string_buf_loc ∧
    (primitive.apply ascii_tags dirty (primitive.end_string 20)).current_loc
      = dirty.current_loc + (primitive.end_string 20).words ∧
    (primitive.apply ascii_tags dirty (primitive.number_s64 (-1))).current_loc
      = dirty.current_loc + (primitive.number_s64 (-1)).words :=
  ⟨⟨by decide, by decide, by decide, by decide⟩,
    (append_only ascii_tags dirty (primitive.end_string 20) (by decide)).1,
    ((append_only ascii_tags dirty (primitive.end_string 20) (by decide)).2.2 (by decide)).2.1,
    ((append_only ascii_tags dirty (primitive.number_s64 (-1)) (by decide)).2.2
      (by decide)).2.1⟩

/-! ## An array with more elements than the tape cursor can index -/

/-- The state in which the end callback of an array of `n` values `null` at
depth 1 is called, in a document parsed from `init_stage2`. -/
theorem nulls_array_state (tc : tape_type → Nat) (s0 : parser) (n : Nat) :
    (run tc (on_start_array tc (on_start_document tc (init_stage2 s0) 0) 1)
      (node.calls_list 1 (value.element_nodes (List.replicate n value.null_atom)))).current_loc
      = (2 + n) % 2 ^ 32 ∧
    ((run tc (on_start_array tc (on_start_document tc (init_stage2 s0) 0) 1)
      (node.calls_list 1 (value.element_nodes
        (List.replicate n value.null_atom)))).containing_scope 1).tape_index = 1 ∧
    ((run tc (on_start_array tc (on_start_document tc (init_stage2 s0) 0) 1)
      (node.calls_list 1 (value.element_nodes
        (List.replicate n value.null_atom)))).containing_scope 0).tape_index = 0 := by
  have hc2 : (on_start_array tc (on_start_document tc (init_stage2 s0) 0) 1).current_loc = 2 := by
    simp only [on_start_array, on_start_document, write_tape, open_scope, init_stage2]
    decide
  obtain ⟨n1, _, _, n4, n5⟩ := run_nulls tc 1 n
    (on_start_array tc (on_start_document tc (init_stage2 s0) 0) 1) (by rw [hc2]; decide)
  rw [hc2] at n1
  refine ⟨n1, ?_, ?_⟩
  · rw [n5]
    simp [on_start_array, on_start_document, write_tape, open_scope, init_stage2]
  · rw [n4 0 (by decide)]
    simp [on_start_array, on_start_document, write_tape, open_scope, init_stage2]

theorem or_four (a b x y : Nat) : (a ||| x) ||| (b ||| y) = ((a ||| b) ||| y) ||| x := by
  apply Nat.eq_of_testBit_eq
  intro i
  simp only [Nat.testBit_or]
  cases a.testBit i <;> cases b.testBit i <;> cases x.testBit i <;> cases y.testBit i <;> rfl

/-- An end callback called when the cursor has wrapped around to the index of
its own open word: the close word replaces the open word, and `end_scope` then
ORs the cursor and the count into the close word. -/
theorem end_on_open_word (tc : tape_type → Nat) (k : scope_kind) (d : Nat) (s : parser)
    (hcl : s.current_loc = 1) (hidx : (s.containing_scope d).tape_index = 1) :
    (write_tape tc s (s.containing_scope d).tape_index k.close_tag).tape 1
      = 1 + (tc k.close_tag % 256) * 2 ^ 56 ∧
    (step tc s (k.end_call d)).tape 1
      = 3 + min (s.containing_scope d).count (2 ^ 24 - 1) * 2 ^ 32
        + (tc k.close_tag % 256) * 2 ^ 56 ∧
    (step tc s (k.end_call d)).current_loc = 2 ∧
    (step tc s (k.end_call d)).containing_scope = s.containing_scope := by
  have hm := Nat.min_le_right (s.containing_scope d).count (2 ^ 24 - 1)
  have hw : (write_tape tc s (s.containing_scope d).tape_index k.close_tag).tape 1
      = 1 + (tc k.close_tag % 256) * 2 ^ 56 := by
    simp only [write_tape, hcl, hidx, Function.update_same]
    exact or_tag_word tc _ 1 (by decide)
  refine ⟨hw, ?_, ?_, ?_⟩
  · rw [step_end]
    simp only [end_scope]
    have e1 : ((write_tape tc s (s.containing_scope d).tape_index k.close_tag).containing_scope
        d).tape_index = 1 := hidx
    have e2 : (write_tape tc s (s.containing_scope d).tape_index k.close_tag).current_loc = 2 := by
      simp only [write_tape, hcl]
      decide
    have e3 : ((write_tape tc s (s.containing_scope d).tape_index k.close_tag).containing_scope
        d).count = (s.containing_scope d).count := rfl
    rw [e1, e2, e3, Function.update_same, hw, cntsat_eq, or_shift_eq_add _ _ _ (by decide)]
    have e4 : (1 + (tc k.close_tag % 256) * 2 ^ 56)
        ||| (2 + min (s.containing_scope d).count (2 ^ 24 - 1) * 2 ^ 32)
        = 3 + min (s.containing_scope d).count (2 ^ 24 - 1) * 2 ^ 32
          + (tc k.close_tag % 256) * 2 ^ 56 := by
      have a1 : 1 + (tc k.close_tag % 256) * 2 ^ 56
          = 1 ||| ((tc k.close_tag % 256) <<< 56) := (or_shift_eq_add _ _ _ (by decide)).symm
      have a2 : 2 + min (s.containing_scope d).count (2 ^ 24 - 1) * 2 ^ 32
          = 2 ||| ((min (s.containing_scope d).count (2 ^ 24 - 1)) <<< 32) :=
        (or_shift_eq_add _ _ _ (by decide)).symm
      rw [a1, a2]
      have a3 : (1 ||| ((tc k.close_tag % 256) <<< 56))
          ||| (2 ||| ((min (s.containing_scope d).count (2 ^ 24 - 1)) <<< 32))
          = ((3 ||| ((min (s.containing_scope d).count (2 ^ 24 - 1)) <<< 32)))
            ||| ((tc k.close_tag % 256) <<< 56) :=
        or_four 1 2 _ _
      rw [a3, or_shift_eq_add 3 (min (s.containing_scope d).count (2 ^ 24 - 1)) 32 (by decide),
        or_shift_eq_add _ (tc k.close_tag % 256) 56 (by omega)]
    exact e4
  · rw [step_end]
    simp only [end_scope, write_tape, hcl]
    decide
  · rw [step_end]
    rfl

theorem step_end_frame (tc : tape_type → Nat) (k : scope_kind) (d : Nat) (s : parser) (i : Nat)
    (h1 : i ≠ s.current_loc) (h2 : i ≠ (s.containing_scope d).tape_index) :
    (step tc s (k.end_call d)).tape i = s.tape i := by
  rw [step_end]
  simp only [end_scope, write_tape]
  rw [Function.update_noteq h2, Function.update_noteq h1]

/-- The document whose root is an array of `n` values `null`, when the tape
cursor has wrapped around to index 1 at the end of the array: the word at index
1 of the finished tape is the close word of the array with the cursor and the
count ORed into it. -/
theorem wrapped_array_document (tc : tape_type → Nat) (s0 : parser) (n : Nat)
    (hn : (2 + n) % 2 ^ 32 = 1) :
    ∃ cnt, cnt ≤ 2 ^ 24 - 1 ∧
      (run tc (init_stage2 s0) (value.array (List.replicate n value.null_atom)).document).tape 1
        = 3 + cnt * 2 ^ 32 + (tc tape_type.END_ARRAY % 256) * 2 ^ 56 := by
  obtain ⟨h1, h2, h3⟩ := nulls_array_state tc s0 n
  rw [hn] at h1
  obtain ⟨_, e2, e3, e4⟩ := end_on_open_word tc scope_kind.array 1 _ h1 h2
  refine ⟨min ((run tc (on_start_array tc (on_start_document tc (init_stage2 s0) 0) 1)
      (node.calls_list 1 (value.element_nodes
        (List.replicate n value.null_atom)))).containing_scope 1).count (2 ^ 24 - 1),
    Nat.min_le_right _ _, ?_⟩
  rw [array_document_run, step_end_frame tc scope_kind.document 0 _ 1 ?_ ?_]
  · exact e2
  · have : (increment_count (step tc (run tc (on_start_array tc
        (on_start_document tc (init_stage2 s0) 0) 1) (node.calls_list 1
          (value.element_nodes (List.replicate n value.null_atom))))
        (scope_kind.array.end_call 1)) 0).current_loc = 2 := e3
    rw [this]
    decide
  · have : ((increment_count (step tc (run tc (on_start_array tc
        (on_start_document tc (init_stage2 s0) 0) 1) (node.calls_list 1
          (value.element_nodes (List.replicate n value.null_atom))))
        (scope_kind.array.end_call 1)) 0).containing_scope 0).tape_index = 0 := by
      simp only [increment_count, Function.update_same]
      rw [e4]
      exact h3
    rw [this]
    decide

/-- C3, as stated, fails when the tape cursor wraps: in the document whose root
is an array (at depth 1) of `2 ^ 32 - 1` values `null`, `on_start_array(1)` writes
the open word at index 1; when `on_end_array(1)` is called the `uint32_t` cursor
is back at 1, so the close word lands on the open word and `end_scope` then ORs
the cursor value 2 and the count into it: in the finished tape the word
appended by `on_end_array` (tag `END_ARRAY`) has bit 1 of its payload set and so
does not carry the payload 1, the index of the open word. -/
theorem close_word_lands_on_open_word :
    (run ascii_tags (init_stage2 blank) [callback.start_document 0]).current_loc = 1 ∧
    (run ascii_tags (on_start_array ascii_tags (on_start_document ascii_tags
        (init_stage2 blank) 0) 1)
      (node.calls_list 1 (value.element_nodes
        (List.replicate (2 ^ 32 - 1) value.null_atom)))).current_loc = 1 ∧
    word_tag ((run ascii_tags (init_stage2 blank)
      (value.array (List.replicate (2 ^ 32 - 1) value.null_atom)).document).tape 1)
      = ascii_tags tape_type.END_ARRAY ∧
    word_payload ((run ascii_tags (init_stage2 blank)
      (value.array (List.replicate (2 ^ 32 - 1) value.null_atom)).document).tape 1) % 4 = 3 ∧
    word_payload ((run ascii_tags (init_stage2 blank)
      (value.array (List.replicate (2 ^ 32 - 1) value.null_atom)).document).tape 1) ≠ 1 := by
  obtain ⟨cnt, hc, hw⟩ := wrapped_array_document ascii_tags blank (2 ^ 32 - 1) (by decide)
  have h1 := (nulls_array_state ascii_tags blank (2 ^ 32 - 1)).1
  have ht : ascii_tags tape_type.END_ARRAY = 93 := rfl
  refine ⟨by decide, h1.trans (by decide), ?_, ?_, ?_⟩
  · rw [hw, word_tag_eq, ht]
    omega
  · rw [hw, word_payload_eq, ht]
    omega
  · rw [hw, word_payload_eq, ht]
    omega

theorem array_document_calls (xs : List value) :
    (value.array xs).document
      = document_calls [node.array (value.element_nodes xs), node.count] := by
  simp only [value.document, value.node]

/-- The document whose root is an array of `n` values `null`, when the tape
cursor has wrapped around to index 2 at the end of the array and at least one
`null` word has been written at index 0 on the way: the word at index 0 of the
finished tape carries the tag `NULL_VALUE`. -/
theorem wrapped_root_word (tc : tape_type → Nat) (s0 : parser) (n : Nat)
    (hn : (2 + n) % 2 ^ 32 = 2) (hk : 2 ^ 32 - 2 < n) :
    word_tag ((run tc (init_stage2 s0)
      (document_calls [node.array (value.element_nodes (List.replicate n value.null_atom)),
        node.count])).tape 0) = tag_code tc tape_type.NULL_VALUE := by
  have hc2 : (on_start_array tc (on_start_document tc (init_stage2 s0) 0) 1).current_loc = 2 := by
    simp only [on_start_array, on_start_document, write_tape, open_scope, init_stage2]
    decide
  obtain ⟨n1, n2, _, _, _⟩ := run_nulls tc 1 n
    (on_start_array tc (on_start_document tc (init_stage2 s0) 0) 1) (by rw [hc2]; decide)
  obtain ⟨_, i1, i0⟩ := nulls_array_state tc s0 n
  rw [hc2] at n1 n2
  have t3 := n2 0 ⟨2 ^ 32 - 2, hk, by decide⟩
  have htag := array_document_root_tag tc tape_type.NULL_VALUE _ t3 (n1.trans hn) i0 i1
  rw [← array_document_run, array_document_calls] at htag
  exact htag

/-- C12, as stated, fails when the tape cursor wraps: after `init_stage2`,
`on_start_document(0)`, the well-formed content of an array of `2 ^ 32` values
`null` and `on_end_document(0)`, the word at tape index 0 has the tag
`NULL_VALUE`, not `ROOT`: the cursor came back to 0 and a `null` word replaced
the opening `ROOT` word. -/
theorem finished_tape_root_overwritten :
    word_tag ((run ascii_tags (init_stage2 blank)
      (document_calls [node.array (value.element_nodes
        (List.replicate (2 ^ 32) value.null_atom)), node.count])).tape 0)
      = ascii_tags tape_type.NULL_VALUE ∧
    ascii_tags tape_type.NULL_VALUE ≠ ascii_tags tape_type.ROOT := by
  have h := wrapped_root_word ascii_tags blank (2 ^ 32) (by decide) (by decide)
  refine ⟨?_, by decide⟩
  rw [h]
  decide

/-! ## The 32-bit fields at the end of their range -/

/-- C14, as stated, fails at the end of the 32-bit tape index range: with the
tape cursor at `2 ^ 32 - 1`, `write_tape(5, NULL_VALUE)` stores its word at
index `2 ^ 32 - 1` and leaves the `uint32_t` cursor at 0, which is not the old
cursor plus one. -/
theorem write_tape_cursor_wraps :
    (5 : Nat) < 2 ^ 56 ∧
    at_tape_end.current_loc = 2 ^ 32 - 1 ∧
    word_payload ((write_tape ascii_tags at_tape_end 5 tape_type.NULL_VALUE).tape
      (2 ^ 32 - 1)) = 5 ∧
    (write_tape ascii_tags at_tape_end 5 tape_type.NULL_VALUE).current_loc = 0 ∧
    (write_tape ascii_tags at_tape_end 5 tape_type.NULL_VALUE).current_loc
      ≠ at_tape_end.current_loc + 1 := by
  refine ⟨by decide, rfl, by decide, by decide, by decide⟩

/-- C20, as stated, fails for a string that starts two bytes before the end of
the 32-bit offset range: with the string cursor at `2 ^ 32 - 2` and a string of
`len = 0x800000` bytes, `payload += 2` carries out of the low 32 bits of the
`STRING` word into bit 32, and bits 32-54 of the word hold `16385`, not
`len >> 9 = 16384`: together with the two extension bytes (both 32) they give
back `0x800200`, not `len`. -/
theorem length_field_carry :
    0x7fffff < (List.replicate 0x800000 (7 : Fin 256)).length ∧
    (List.replicate 0x800000 (7 : Fin 256)).length < 2 ^ 32 ∧
    (List.replicate 0x800000 (7 : Fin 256)).length >>> 9 = 16384 ∧
    word_bits_32_54 ((on_string ascii_tags near_buffer_end
      (List.replicate 0x800000 (7 : Fin 256))).tape near_buffer_end.current_loc) = 16385 ∧
    (on_string ascii_tags near_buffer_end
      (List.replicate 0x800000 (7 : Fin 256))).string_buf
        near_buffer_end.current_string_buf_loc = 32 ∧
    (on_string ascii_tags near_buffer_end
      (List.replicate 0x800000 (7 : Fin 256))).string_buf
        (near_buffer_end.current_string_buf_loc + 1) = 32 ∧
    (16385 <<< 9 ||| (32 - 32) <<< 4) ||| (32 - 32)
      ≠ (List.replicate 0x800000 (7 : Fin 256)).length := by
  have e : (List.replicate 0x800000 (7 : Fin 256)).length = 0x800000 := List.length_replicate _ _
  have h1 : near_buffer_end.current_loc < 2 ^ 32 := by decide
  have h2 : 0x7fffff < (List.replicate 0x800000 (7 : Fin 256)).length := by rw [e]; decide
  have h3 : (List.replicate 0x800000 (7 : Fin 256)).length < 2 ^ 32 := by rw [e]; decide
  have hst := long_string_state ascii_tags near_buffer_end
    (List.replicate 0x800000 (7 : Fin 256)) h1 h2 h3
  refine ⟨h2, h3, by rw [e]; decide, ?_, ?_, ?_, by rw [e]; decide⟩
  · rw [hst]
    simp only [Function.update_same]
    rw [e]
    decide
  · rw [hst]
    dsimp only
    rw [Function.update_noteq (by rw [e]; decide), Function.update_noteq (by decide),
      Function.update_same, e]
    decide
  · rw [hst]
    dsimp only
    rw [Function.update_noteq (by rw [e]; decide), Function.update_same, e]
    decide

/-! ## A string of 4GB or more -/

theorem str_length_of_add_mod (s : parser) (n : Nat) :
    str_length_of s (s.current_string_buf_loc + n) = n % 2 ^ 32 := by
  unfold str_length_of
  have e : ((s.current_string_buf_loc + n : Nat) : Int) - (s.current_string_buf_loc : Int)
      = (n : Int) := by
    push_cast
    omega
  rw [e]
  have : (n : Int) % 2 ^ 32 = ((n % 2 ^ 32 : Nat) : Int) := by
    push_cast
    rfl
  rw [this]
  exact Int.toNat_ofNat _

theorem step_cursor_typed (tc : tape_type → Nat) (s : parser) (c : callback)
    (hc : s.current_loc < 2 ^ 32) : (step tc s c).current_loc < 2 ^ 32 := by
  have hm : ∀ n, n % 2 ^ 32 < 2 ^ 32 := fun n => Nat.mod_lt _ (by decide)
  cases c with
  | string bs =>
    show (on_string tc s bs).current_loc < 2 ^ 32
    rw [(on_string_tape tc s bs hc).1]
    exact hm _
  | count d => exact hc
  | error e => exact hc
  | success e => exact hc
  | _ => exact hm _

theorem run_cursor_typed (tc : tape_type → Nat) (cs : List callback) :
    ∀ s : parser, s.current_loc < 2 ^ 32 → (run tc s cs).current_loc < 2 ^ 32 := by
  induction cs with
  | nil => intro s h; exact h
  | cons c cs ih =>
    intro s h
    rw [run_cons]
    exact ih _ (step_cursor_typed tc s c h)

theorem on_string_word_eq (tc : tape_type → Nat) (s s' : parser) (bs : List (Fin 256))
    (hc : s.current_loc < 2 ^ 32) (h1 : s'.current_loc = s.current_loc)
    (h2 : s'.current_string_buf_loc = s.current_string_buf_loc) :
    (on_string tc s' bs).tape s.current_loc = (on_string tc s bs).tape s.current_loc := by
  have hl : str_length_of (unescape (on_start_string tc s).1 (on_start_string tc s).2 bs)
      ((on_start_string tc s).2 + bs.length) = bs.length % 2 ^ 32 :=
    str_length_of_add_mod (unescape (on_start_string tc s).1 (on_start_string tc s).2 bs) _
  have hl' : str_length_of (unescape (on_start_string tc s').1 (on_start_string tc s').2 bs)
      ((on_start_string tc s').2 + bs.length) = bs.length % 2 ^ 32 :=
    str_length_of_add_mod (unescape (on_start_string tc s').1 (on_start_string tc s').2 bs) _
  have hp : prev_loc (unescape (on_start_string tc s).1 (on_start_string tc s).2 bs)
      = s.current_loc :=
    prev_loc_write_tape tc s (s.current_string_buf_loc % 2 ^ 32) tape_type.STRING hc
  have hp' : prev_loc (unescape (on_start_string tc s').1 (on_start_string tc s').2 bs)
      = s.current_loc := by
    rw [← h1]
    exact prev_loc_write_tape tc s' (s'.current_string_buf_loc % 2 ^ 32) tape_type.STRING
      (by rw [h1]; exact hc)
  unfold on_string
  by_cases h : bs.length % 2 ^ 32 ≤ 0x7fffff
  · rw [on_end_string_short tc (unescape (on_start_string tc s).1 (on_start_string tc s).2 bs)
        _ (by rw [hl]; exact h),
      on_end_string_short tc (unescape (on_start_string tc s').1 (on_start_string tc s').2 bs)
        _ (by rw [hl']; exact h), hl, hl', hp, hp']
    simp only [unescape, on_start_string, write_tape, Function.update_same, h1, h2]
  · rw [on_end_string_long tc (unescape (on_start_string tc s).1 (on_start_string tc s).2 bs)
        _ (by rw [hl]; exact Nat.lt_of_not_le h),
      on_end_string_long tc (unescape (on_start_string tc s').1 (on_start_string tc s').2 bs)
        _ (by rw [hl']; exact Nat.lt_of_not_le h), hl, hl', hp, hp']
    simp only [unescape, on_start_string, write_tape, Function.update_same, h1, h2]

/-- A call that moves the cursor beyond `i` from at or below `i` writes the
word at `i`. -/
theorem step_writes (tc : tape_type → Nat) (t : parser) (c : callback) (i : Nat)
    (hc : t.current_loc < 2 ^ 32) (h1 : t.current_loc ≤ i)
    (h2 : i < (step tc t c).current_loc) : writes_word tc t c i := by
  refine ⟨h1, h2, fun f => ?_⟩
  have one : ∀ x, i < (x + 1) % 2 ^ 32 → x ≤ i → i = x := by
    intro x a b
    omega
  cases c with
  | count d => exact absurd h2 (by simp only [step, increment_count]; omega)
  | error e => exact absurd h2 (by simp only [step, on_error]; omega)
  | success e => exact absurd h2 (by simp only [step, on_success]; omega)
  | start_document d =>
    have hi := one _ h2 h1
    simp only [step, on_start_document, write_tape, open_scope, hi, Function.update_same]
  | start_object d =>
    have hi := one _ h2 h1
    simp only [step, on_start_object, write_tape, open_scope, hi, Function.update_same]
  | start_array d =>
    have hi := one _ h2 h1
    simp only [step, on_start_array, write_tape, open_scope, hi, Function.update_same]
  | true_atom =>
    have hi := one _ h2 h1
    simp only [step, on_true_atom, write_tape, hi, Function.update_same]
  | false_atom =>
    have hi := one _ h2 h1
    simp only [step, on_false_atom, write_tape, hi, Function.update_same]
  | null_atom =>
    have hi := one _ h2 h1
    simp only [step, on_null_atom, write_tape, hi, Function.update_same]
  | end_document d =>
    have hi := one _ h2 h1
    simp only [step, on_end_document, end_scope, write_tape, hi]
    by_cases e : (t.containing_scope d).tape_index = t.current_loc
    · rw [e, Function.update_same, Function.update_same, Function.update_same,
        Function.update_same]
    · rw [Function.update_noteq (Ne.symm e), Function.update_noteq (Ne.symm e),
        Function.update_same, Function.update_same]
  | end_object d =>
    have hi := one _ h2 h1
    simp only [step, on_end_object, end_scope, write_tape, hi]
    by_cases e : (t.containing_scope d).tape_index = t.current_loc
    · rw [e, Function.update_same, Function.update_same, Function.update_same,
        Function.update_same]
    · rw [Function.update_noteq (Ne.symm e), Function.update_noteq (Ne.symm e),
        Function.update_same, Function.update_same]
  | end_array d =>
    have hi := one _ h2 h1
    simp only [step, on_end_array, end_scope, write_tape, hi]
    by_cases e : (t.containing_scope d).tape_index = t.current_loc
    · rw [e, Function.update_same, Function.update_same, Function.update_same,
        Function.update_same]
    · rw [Function.update_noteq (Ne.symm e), Function.update_noteq (Ne.symm e),
        Function.update_same, Function.update_same]
  | number_s64 v =>
    have h2' : i < ((t.current_loc + 1) % 2 ^ 32 + 1) % 2 ^ 32 := h2
    simp only [step, on_number_s64, write_tape]
    by_cases e : i = (t.current_loc + 1) % 2 ^ 32
    · rw [e, Function.update_same, Function.update_same]
    · have hi : i = t.current_loc := by omega
      rw [Function.update_noteq e, Function.update_noteq e, hi, Function.update_same,
        Function.update_same]
  | number_u64 v =>
    have h2' : i < ((t.current_loc + 1) % 2 ^ 32 + 1) % 2 ^ 32 := h2
    simp only [step, on_number_u64, write_tape]
    by_cases e : i = (t.current_loc + 1) % 2 ^ 32
    · rw [e, Function.update_same, Function.update_same]
    · have hi : i = t.current_loc := by omega
      rw [Function.update_noteq e, Function.update_noteq e, hi, Function.update_same,
        Function.update_same]
  | number_double v =>
    have h2' : i < ((t.current_loc + 1) % 2 ^ 32 + 1) % 2 ^ 32 := h2
    simp only [step, on_number_double, write_tape]
    by_cases e : i = (t.current_loc + 1) % 2 ^ 32
    · rw [e, Function.update_same, Function.update_same]
    · have hi : i = t.current_loc := by omega
      rw [Function.update_noteq e, Function.update_noteq e, hi, Function.update_same,
        Function.update_same]
  | string bs =>
    have h2' : i < (on_string tc t bs).current_loc := h2
    rw [(on_string_tape tc t bs hc).1] at h2'
    have hi := one _ h2' h1
    show (on_string tc { t with tape := f } bs).tape i = (on_string tc t bs).tape i
    have hc' : ({ t with tape := f } : parser).current_loc < 2 ^ 32 := hc
    rw [hi]
    exact on_string_word_eq tc t { t with tape := f } bs hc rfl rfl

theorem writer_exists (tc : tape_type → Nat) (i : Nat) :
    ∀ (cs : List callback) (t : parser), t.current_loc < 2 ^ 32 → t.current_loc ≤ i →
      i < (run tc t cs).current_loc →
      ∃ pre c post, cs = pre ++ c :: post ∧ writes_word tc (run tc t pre) c i := by
  intro cs
  induction cs with
  | nil =>
    intro t _ h1 h2
    rw [run_nil] at h2
    omega
  | cons c cs ih =>
    intro t hc h1 h2
    by_cases h : i < (step tc t c).current_loc
    · exact ⟨[], c, cs, rfl, step_writes tc t c i hc h1 h⟩
    · rw [run_cons] at h2
      obtain ⟨pre, c', post, e, hw⟩ :=
        ih (step tc t c) (step_cursor_typed tc t c hc) (Nat.le_of_not_lt h) h2
      refine ⟨c :: pre, c', post, ?_, ?_⟩
      · rw [e]
        rfl
      · rw [run_cons]
        exact hw

/-- C12, amended (shape of a finished tape): after `init_stage2` on any parser
state, `on_start_document(0)`, any well-formed content whose words fit the tape
(the content words plus the two `ROOT` words number fewer than `2 ^ 32`) and
`on_end_document(0)`, the word at index 0 has the tag `ROOT`, the last written
word, at index cursor minus one, has the tag `ROOT` and payload 0, and every
index `i` strictly between them holds a word written by one of the content
callbacks: the word is the one standing at `i` after the content callbacks
(`on_end_document` does not touch it), and the content calls split as
`pre ++ c :: post` where the call `c` writes the word at `i` (the cursor is at
or below `i` before `c` and beyond `i` after it, and the word `c` leaves there
is the same whatever the tape held before). -/
theorem finished_tape_shape (tc : tape_type → Nat) (s0 : parser) (body : List node)
    (hw : node.words_list body + 2 < 2 ^ 32) :
    (run tc (init_stage2 s0) (document_calls body)).current_loc = node.words_list body + 2 ∧
    word_tag ((run tc (init_stage2 s0) (document_calls body)).tape 0) = tc tape_type.ROOT % 256 ∧
    word_tag ((run tc (init_stage2 s0) (document_calls body)).tape
        ((run tc (init_stage2 s0) (document_calls body)).current_loc - 1))
      = tc tape_type.ROOT % 256 ∧
    word_payload ((run tc (init_stage2 s0) (document_calls body)).tape
        ((run tc (init_stage2 s0) (document_calls body)).current_loc - 1)) = 0 ∧
    (run tc (init_stage2 s0) [callback.start_document 0]).current_loc = 1 ∧
    (run tc (init_stage2 s0) (callback.start_document 0 :: node.calls_list 0 body)).current_loc
      = (run tc (init_stage2 s0) (document_calls body)).current_loc - 1 ∧
    (∀ i, 0 < i → i < (run tc (init_stage2 s0) (document_calls body)).current_loc - 1 →
      (run tc (init_stage2 s0) (document_calls body)).tape i
        = (run tc (init_stage2 s0)
            (callback.start_document 0 :: node.calls_list 0 body)).tape i ∧
      ∃ pre c post, node.calls_list 0 body = pre ++ c :: post ∧
        writes_word tc
          (run tc (run tc (init_stage2 s0) [callback.start_document 0]) pre) c i) := by
  have hc0 : (init_stage2 s0).current_loc = 0 := rfl
  have hcap : (init_stage2 s0).current_loc + (node.words_list body + 2) < 2 ^ 32 := by
    rw [hc0]; omega
  obtain ⟨g1, g2, g3, g4, _, _⟩ :=
    scope_words tc scope_kind.document 0 body (init_stage2 s0) hcap
  have h1 : (run tc (init_stage2 s0)
      (callback.start_document 0 :: node.calls_list 0 body)).current_loc
      = 0 + node.words_list body + 1 := g1
  have hfin : (run tc (init_stage2 s0) (document_calls body)).current_loc
      = node.words_list body + 2 := by
    have h2 : (run tc (init_stage2 s0) (document_calls body)).current_loc
        = 0 + node.words_list body + 2 := g2
    omega
  have h3 : (run tc (init_stage2 s0) (document_calls body)).tape (0 + node.words_list body + 1)
      = 0 + (tc tape_type.ROOT % 256) * 2 ^ 56 := g3
  have h4 : (run tc (init_stage2 s0) (document_calls body)).tape 0
      = (0 + node.words_list body + 2)
        + (min (node.counts body % 2 ^ 32) (2 ^ 24 - 1)) * 2 ^ 32
        + (tc tape_type.ROOT % 256) * 2 ^ 56 := g4
  have l1 : (step tc (init_stage2 s0) (scope_kind.document.start_call 0)).current_loc = 1 := by
    rw [step_start]; rfl
  have hb := appends_list tc 0 body (step tc (init_stage2 s0) (scope_kind.document.start_call 0))
    (by rw [l1]; omega)
  have hmid : ∀ i, 0 < i → i < 0 + node.words_list body + 1 →
      (run tc (init_stage2 s0) (document_calls body)).tape i
        = (run tc (init_stage2 s0)
            (callback.start_document 0 :: node.calls_list 0 body)).tape i := by
    have := (close_scope tc scope_kind.document 0 (node.words_list body) (node.counts body)
      (init_stage2 s0) _ hcap hb).2.2.2.2.2.1
    rw [document_calls_run]
    exact this
  have ht : tc tape_type.ROOT % 256 < 256 := Nat.mod_lt _ (by decide)
  have hlast : (run tc (init_stage2 s0) (document_calls body)).tape
      ((run tc (init_stage2 s0) (document_calls body)).current_loc - 1)
      = (tc tape_type.ROOT % 256) * 2 ^ 56 := by
    have e : (run tc (init_stage2 s0) (document_calls body)).current_loc - 1
        = 0 + node.words_list body + 1 := by
      rw [hfin]; omega
    rw [e, h3]
    omega
  have hs1 : (run tc (init_stage2 s0) [callback.start_document 0]).current_loc = 1 := rfl
  refine ⟨hfin, ?_, ?_, ?_, hs1, ?_, fun i hi1 hi2 => ⟨?_, ?_⟩⟩
  · have hm := Nat.min_le_right (node.counts body % 2 ^ 32) (2 ^ 24 - 1)
    rw [h4, word_tag_eq]
    omega
  · rw [hlast, word_tag_eq]
    omega
  · rw [hlast, word_payload_eq]
    omega
  · rw [hfin, h1]
    omega
  · rw [hfin] at hi2
    exact hmid i hi1 (by omega)
  · rw [hfin] at hi2
    apply writer_exists tc i (node.calls_list 0 body)
      (run tc (init_stage2 s0) [callback.start_document 0])
    · rw [hs1]
      decide
    · rw [hs1]
      omega
    · have e : run tc (run tc (init_stage2 s0) [callback.start_document 0])
          (node.calls_list 0 body)
          = run tc (init_stage2 s0) (callback.start_document 0 :: node.calls_list 0 body) := rfl
      rw [e, h1]
      omega

/-- Witness for C12 amended: the document `["ab", -1]` parsed on the state
`dirty`: five content words between the two `ROOT` words. -/
theorem finished_tape_shape_witness :
    node.words_list [node.array [node.leaf (leaf.string [97, 98]), node.count,
        node.leaf (leaf.number_s64 (-1)), node.count], node.count] + 2 < 2 ^ 32 ∧
    (run ascii_tags (init_stage2 dirty) (document_calls
        [node.array [node.leaf (leaf.string [97, 98]), node.count,
          node.leaf (leaf.number_s64 (-1)), node.count], node.count])).current_loc = 7 ∧
    word_tag ((run ascii_tags (init_stage2 dirty) (document_calls
        [node.array [node.leaf (leaf.string [97, 98]), node.count,
          node.leaf (leaf.number_s64 (-1)), node.count], node.count])).tape 0) = 114 ∧
    word_payload ((run ascii_tags (init_stage2 dirty) (document_calls
        [node.array [node.leaf (leaf.string [97, 98]), node.count,
          node.leaf (leaf.number_s64 (-1)), node.count], node.count])).tape
      ((run ascii_tags (init_stage2 dirty) (document_calls
        [node.array [node.leaf (leaf.string [97, 98]), node.count,
          node.leaf (leaf.number_s64 (-1)), node.count], node.count])).current_loc - 1)) = 0 :=
  have h := finished_tape_shape ascii_tags dirty
    [node.array [node.leaf (leaf.string [97, 98]), node.count,
      node.leaf (leaf.number_s64 (-1)), node.count], node.count] (by decide)
  ⟨by decide, h.1, h.2.1, h.2.2.2.1⟩

/-! ## The layout of successive strings in the buffer -/

end simdjson
